import Mathlib

/-!
# Verification of the mermaid-filter core (src/js/app.js)

Shallow embedding of the diagram-text parser (`parseDiagram`, `parseNodeLine`,
`parseNodesFromMMD`), the filtered renderer (`buildFilteredMMD`), the
reachability index and `bfs`, and the visibility-state operations, over
`List Char` strings.  The JavaScript regexes are translated to deterministic
character-level matchers that reproduce the engine's greedy/backtracking
semantics for those specific patterns.
-/

set_option maxHeartbeats 1000000
set_option maxRecDepth 4000

namespace MermaidFilter

/-- Strings are lists of characters. -/
abbrev Str := List Char

/-- JavaScript `\s` (whitespace) restricted to the ASCII range that can occur
in the modelled inputs: space, tab, newline, carriage return, vertical tab,
form feed. -/
def wsChar (c : Char) : Bool :=
  c = ' ' || c = '\t' || c = '\n' || c = '\r' || c = '\x0b' || c = '\x0c'

/-- ASCII letter, as in the regex class `[A-Za-z]`. -/
def letterChar (c : Char) : Bool :=
  ('A' ≤ c && c ≤ 'Z') || ('a' ≤ c && c ≤ 'z')

/-- ASCII digit. -/
def digitChar (c : Char) : Bool := '0' ≤ c && c ≤ '9'

/-- The regex class `\w` = `[A-Za-z0-9_]`. -/
def wordChar (c : Char) : Bool := letterChar c || digitChar c || c = '_'

/-- The regex class `[\w-]` used for identifier tails. -/
def wordHyphen (c : Char) : Bool := wordChar c || c = '-'

/-- The edge-operator class `[<>=.-]`. -/
def opChar (c : Char) : Bool :=
  c = '<' || c = '>' || c = '=' || c = '.' || c = '-'

/-- ASCII-case-insensitive character comparison (regex `/i` flag). -/
def ciEq (a b : Char) : Bool := a.toLower = b.toLower

/-- Case-insensitive "starts with the literal `pat`". -/
def ciStarts : Str → Str → Bool
  | [], _ => true
  | _ :: _, [] => false
  | p :: ps, c :: cs => ciEq c p && ciStarts ps cs

/-- `String.prototype.trim`-style left trim. -/
def trimL (s : Str) : Str := s.dropWhile (fun c => wsChar c)

/-- Right trim. -/
def trimR (s : Str) : Str := ((s.reverse).dropWhile (fun c => wsChar c)).reverse

/-- JavaScript `trim()`. -/
def trim (s : Str) : Str := trimR (trimL s)

/-- `s.startsWith p` on raw lists. -/
def startsWith : Str → Str → Bool
  | _, [] => true
  | [], _ :: _ => false
  | c :: cs, p :: ps => c = p && startsWith cs ps

/-- `s.endsWith p`. -/
def endsWith (s p : Str) : Bool := startsWith s.reverse p.reverse

/-- `s.split('%%')[0]`: the prefix of `s` before the first occurrence of the
two-character sequence `%%` (the whole string if there is none). -/
def takeBeforePP : Str → Str
  | [] => []
  | [c] => [c]
  | c₁ :: c₂ :: rest =>
      if c₁ = '%' && c₂ = '%' then []
      else c₁ :: takeBeforePP (c₂ :: rest)

/-- Does `sub` occur as a contiguous substring of `s`? (JS `includes`). -/
def containsSub (s sub : Str) : Bool :=
  match s with
  | [] => startsWith [] sub
  | _ :: cs => startsWith s sub || containsSub cs sub

/-- Match the identifier-token regex `[A-Za-z][\w-]*` greedily at the head of
`s`; return the token and the remainder. -/
def matchToken (s : Str) : Option (Str × Str) :=
  match s with
  | [] => none
  | c :: cs =>
      if letterChar c then
        some (c :: cs.takeWhile (fun d => wordHyphen d),
              cs.dropWhile (fun d => wordHyphen d))
      else none

/-- A delimiter pair from the shape catalog: `po` is the open token, `pc` the
close token. -/
structure Pair where
  po : Str
  pc : Str
deriving DecidableEq, Repr, Inhabited

/-- The shape catalog, in source order (app.js lines 13–27). -/
def pairs : List Pair :=
  [ ⟨['('], [')']⟩,
    ⟨['(', '('], [')', ')']⟩,
    ⟨['[', '['], [']', ']']⟩,
    ⟨['{', '{'], ['}', '}']⟩,
    ⟨['(', '['], [']', ')']⟩,
    ⟨['[', '('], [')', ']']⟩,
    ⟨['[', '/'], ['/', ']']⟩,
    ⟨['[', '\\'], ['\\', ']']⟩,
    ⟨['[', '/'], ['\\', ']']⟩,
    ⟨['[', '\\'], ['/', ']']⟩,
    ⟨['>'], [']']⟩,
    ⟨['['], [']']⟩,
    ⟨['{'], ['}']⟩ ]

/-- Stable insertion of a pair into a list sorted by descending open-token
length: `x` goes after every earlier element of length ≥ its own
(`Array.prototype.sort` is stable, ES2019). -/
def insDesc (x : Pair) : List Pair → List Pair
  | [] => [x]
  | y :: ys =>
      if y.po.length < x.po.length then x :: y :: ys
      else y :: insDesc x ys

/-- Stable sort by descending open-token length
(`pairs.sort((a,b)=>b.open.length-a.open.length)`). -/
def sortPairsDesc (l : List Pair) : List Pair :=
  l.foldl (fun acc x => insDesc x acc) []

/-- The catalog in the order actually scanned: two-character opens first
(source order preserved), then one-character opens. -/
def sortedPairs : List Pair := sortPairsDesc pairs

/-- Result of `parseNodeLine`. -/
structure NodeParse where
  id : Str
  label : Str
  po : Str
  pc : Str
deriving DecidableEq, Repr, Inhabited

/-- The pair-scanning loop of `parseNodeLine` (app.js lines 30–35):
first catalog entry whose open token is a prefix and close token a suffix of
`rest` wins; the label is `rest.slice(open.length, rest.length - close.length)`
trimmed (JS `slice` yields `""` when the bounds cross). -/
def findPair (id : Str) (rest : Str) : List Pair → Option NodeParse
  | [] => none
  | p :: ps =>
      if startsWith rest p.po && endsWith rest p.pc then
        some ⟨id, trim ((rest.drop p.po.length).take
                          (rest.length - p.pc.length - p.po.length)), p.po, p.pc⟩
      else findPair id rest ps

/-- `parseNodeLine` (app.js lines 6–37).  The head regex
`^\s*([A-Za-z][\w-]*)\s*(.*)$` is deterministic: skip whitespace, take the
maximal identifier token, skip whitespace; the remainder is stripped of the
first inline comment (`split('%%')[0]`) and trimmed. -/
def parseNodeLine (line : Str) : Option NodeParse :=
  match matchToken (trimL line) with
  | none => none
  | some (id, after) =>
      let rest := trim (takeBeforePP (trimL after))
      if rest = [] then none
      else findPair id rest sortedPairs

/-! ## The edge regex `^\s*([A-Za-z][\w-]*)\s*([<>=.-]+)\s*([A-Za-z][\w-]*)\s*$`

The only backtracking a JS engine performs on this pattern is shrinking the
greedy first token (its tail characters `[\w-]` overlap the operator class
only at `-`); every `\s*`/`[<>=.-]+`/final token choice is committed because
the character classes that follow are disjoint from the ones given back. -/

/-- Tail of the edge regex after the first capture:
`\s*([<>=.-]+)\s*([A-Za-z][\w-]*)\s*$`. -/
def edgeTail (s : Str) : Option (Str × Str) :=
  let s2 := trimL s
  let o := s2.takeWhile (fun c => opChar c)
  if o = [] then none
  else
    let s3 := trimL (s2.drop o.length)
    match matchToken s3 with
    | none => none
    | some (b, s4) => if trimL s4 = [] then some (o, b) else none

/-- Backtracking loop over the first capture: try keeping the whole maximal
token `T`, then successively shorter nonempty prefixes (the engine's
backtracking order). -/
def edgeLoop (T rest : Str) : Nat → Option (Str × Str × Str)
  | 0 => none
  | keep + 1 =>
      match edgeTail (T.drop (keep + 1) ++ rest) with
      | some (o, b) => some (T.take (keep + 1), o, b)
      | none => edgeLoop T rest keep

/-- The full edge regex (app.js line 120). -/
def edgeMatch (line : Str) : Option (Str × Str × Str) :=
  match matchToken (trimL line) with
  | none => none
  | some (T, rest) => edgeLoop T rest T.length

/-! ## Directive-line classifiers -/

def litClassDef : Str := ['c','l','a','s','s','D','e','f']
def litClass : Str := ['c','l','a','s','s']
def litSubgraph : Str := ['s','u','b','g','r','a','p','h']
def litEnd : Str := ['e','n','d']
def litFlowchart : Str := ['f','l','o','w','c','h','a','r','t']
def fmDashes : Str := ['-','-','-']

/-- `/^\s*classDef\s+([A-Za-z][\w-]*)\s+(.+)$/i` as a test (the captures are
unused by the caller, which stores `line.trim()`).  After the literal there
must be whitespace, then an identifier token, and the remainder must start
with whitespace and have length ≥ 2 (so `\s+(.+)$` can split it). -/
def classDefTest (line : Str) : Bool :=
  let r1 := trimL line
  if ciStarts litClassDef r1 then
    match r1.drop 8 with
    | [] => false
    | c :: cs =>
        if wsChar c then
          match matchToken (trimL (c :: cs)) with
          | none => false
          | some (_, r4) =>
              match r4 with
              | d :: _ :: _ => wsChar d
              | _ => false
        else false
  else false

/-- One lazy-quantifier attempt of `(\S.*?)\s+([A-Za-z][\w-]*)\s*$`:
`idsPart` has length `i`; the rest must start with whitespace, then an
identifier token, then only trailing whitespace. -/
def caTry (r2 : Str) (i : Nat) : Option (Str × Str) :=
  match r2.drop i with
  | [] => none
  | c :: cs =>
      if wsChar c then
        match matchToken (trimL (c :: cs)) with
        | none => none
        | some (b, r4) => if trimL r4 = [] then some (r2.take i, b) else none
      else none

/-- Lazy scan: try `idsPart` lengths `i, i+1, …` (shortest first, as `.*?`
does). -/
def caLoop (r2 : Str) : Nat → Nat → Option (Str × Str)
  | _, 0 => none
  | i, fuel + 1 =>
      match caTry r2 i with
      | some res => some res
      | none => caLoop r2 (i + 1) fuel

/-- `/^\s*class\s+(\S.*?)\s+([A-Za-z][\w-]*)\s*$/i` (app.js line 123),
returning `(idsPart, className)`. -/
def classAssignMatch (line : Str) : Option (Str × Str) :=
  let r1 := trimL line
  if ciStarts litClass r1 then
    match r1.drop 5 with
    | [] => none
    | c :: cs =>
        if wsChar c then
          let r2 := trimL (c :: cs)
          if r2 = [] then none else caLoop r2 1 r2.length
        else none
  else none

/-- `/^\s*subgraph\b(.*)$/i` (app.js line 121), returning the capture after
the literal.  `\b` holds when the next character is absent or not a word
character (hyphen is not a word character). -/
def headerMatch (line : Str) : Option Str :=
  let r1 := trimL line
  if ciStarts litSubgraph r1 then
    match r1.drop 8 with
    | [] => some []
    | c :: cs => if wordChar c then none else some (c :: cs)
  else none

/-- `/^\s*end\s*$/i` (app.js line 169). -/
def endTest (line : Str) : Bool :=
  let t := trim line
  t.length = 3 && ciStarts litEnd t

/-- `/^\s*flowchart\b/i` (app.js line 113). -/
def flowchartTest (line : Str) : Bool :=
  let r1 := trimL line
  ciStarts litFlowchart r1 &&
    (match r1.drop 9 with
     | [] => true
     | c :: _ => !wordChar c)

/-- `/^\s*%%/` (app.js line 143). -/
def commentTest (line : Str) : Bool :=
  startsWith (trimL line) ['%', '%']

/-- Fuel-bounded worker for `splitIds` (the fuel only needs to dominate the
string length, which every call site guarantees). -/
def splitIdsF : Nat → Str → List Str
  | _, [] => []
  | 0, _ :: _ => []
  | n + 1, c :: cs =>
      if wsChar c || c = ',' then splitIdsF n cs
      else
        (c :: cs.takeWhile (fun d => !(wsChar d || d = ','))) ::
          splitIdsF n (cs.dropWhile (fun d => !(wsChar d || d = ',')))

/-- `idsPart.split(/[\s,]+/).map(s=>s.trim()).filter(Boolean)`: the maximal
runs of non-separator characters (separators: whitespace and comma). -/
def splitIds (s : Str) : List Str := splitIdsF s.length s

theorem splitIdsF_fuel : ∀ (n m : Nat) (s : Str), s.length ≤ n → s.length ≤ m →
    splitIdsF n s = splitIdsF m s := by
  intro n
  induction n with
  | zero =>
      intro m s hn _
      cases s with
      | nil => cases m <;> rfl
      | cons c cs => simp at hn
  | succ k ih =>
      intro m s hn hm
      cases s with
      | nil => cases m <;> rfl
      | cons c cs =>
          cases m with
          | zero => simp at hm
          | succ j =>
              have hcs : cs.length ≤ k := by simp at hn; omega
              have hcs' : cs.length ≤ j := by simp at hm; omega
              have hdrop : (cs.dropWhile (fun d => !(wsChar d || d = ','))).length
                  ≤ cs.length := (List.dropWhile_sublist _).length_le
              simp only [splitIdsF]
              by_cases hc : (wsChar c || c = ',') = true
              · rw [if_pos hc, if_pos hc]
                exact ih j cs hcs hcs'
              · rw [if_neg hc, if_neg hc,
                  ih j (cs.dropWhile (fun d => !(wsChar d || d = ',')))
                    (le_trans hdrop hcs) (le_trans hdrop hcs')]

theorem splitIds_nil : splitIds [] = [] := rfl

theorem splitIds_cons (c : Char) (cs : Str) :
    splitIds (c :: cs)
      = if wsChar c || c = ',' then splitIds cs
        else
          (c :: cs.takeWhile (fun d => !(wsChar d || d = ','))) ::
            splitIds (cs.dropWhile (fun d => !(wsChar d || d = ','))) := by
  show splitIdsF (c :: cs).length (c :: cs) = _
  simp only [List.length_cons, splitIdsF]
  by_cases hc : (wsChar c || c = ',') = true
  · rw [if_pos hc, if_pos hc]
    rfl
  · rw [if_neg hc, if_neg hc,
      splitIdsF_fuel cs.length (cs.dropWhile (fun d => !(wsChar d || d = ','))).length
        (cs.dropWhile (fun d => !(wsChar d || d = ',')))
        ((List.dropWhile_sublist _).length_le) (Nat.le_refl _)]
    rfl

/-! ## The diagram model (result of `parseDiagram`, app.js lines 93–191) -/

/-- A node as stored in a container list (`topNodes` or a subgraph's
`nodes`). -/
structure Node where
  id : Str
  label : Str
  po : Str
  pc : Str
deriving DecidableEq, Repr, Inhabited

/-- A node-registry entry (`nodesMap` values). -/
structure RegNode where
  id : Str
  label : Str
  po : Str
  pc : Str
  subgraphId : Option Str
deriving DecidableEq, Repr, Inhabited

structure Subgraph where
  id : Str
  headerLine : Str
  nodes : List Node
deriving DecidableEq, Repr, Inhabited

structure Edge where
  a : Str
  op : Str
  b : Str
deriving DecidableEq, Repr, Inhabited

structure ClassAssign where
  ids : List Str
  className : Str
deriving DecidableEq, Repr, Inhabited

structure Model where
  headerLines : List Str
  flowchartLine : Str
  subgraphs : List Subgraph
  topNodes : List Node
  nodesMap : List (Str × RegNode)
  edges : List Edge
  classDefs : List Str
  classAssigns : List ClassAssign
deriving DecidableEq, Repr, Inhabited

/-- JS `Map.prototype.get`. -/
def mget {α : Type} (m : List (Str × α)) (k : Str) : Option α :=
  match m with
  | [] => none
  | (k0, v0) :: rest => if k0 = k then some v0 else mget rest k

/-- JS `Map.prototype.set`: overwrite in place (key keeps its insertion
position), or append a new key. -/
def msetStr {α : Type} (m : List (Str × α)) (k : Str) (v : α) : List (Str × α) :=
  match m with
  | [] => [(k, v)]
  | (k0, v0) :: rest => if k0 = k then (k, v) :: rest else (k0, v0) :: msetStr rest k v

/-- `ensureSubgraphIdFromHeader` (app.js lines 134–138): leading identifier
token of the trimmed header rest, else `sg${count+1}`. -/
def ensureSgId (headerRest : Str) (count : Nat) : Str :=
  match matchToken (trim headerRest) with
  | some (t, _) => t
  | none => 's' :: 'g' :: (Nat.repr (count + 1)).data

/-- Classification of one main-loop line, in the source's precedence order
(app.js lines 140–188). -/
inductive LineKind
  | blank
  | comment
  | classDefL
  | classAssignL (idsPart className : Str)
  | headerL (rest : Str)
  | endL
  | nodeL (np : NodeParse)
  | edgeL (a o b : Str)
  | droppedL
deriving DecidableEq, Repr, Inhabited

def classify (line : Str) : LineKind :=
  if trim line = [] then .blank
  else if commentTest line then .comment
  else if classDefTest line then .classDefL
  else
    match classAssignMatch line with
    | some (i, c) => .classAssignL i c
    | none =>
      match headerMatch line with
      | some r => .headerL r
      | none =>
        if endTest line then .endL
        else
          match parseNodeLine line with
          | some np => .nodeL np
          | none =>
            match edgeMatch line with
            | some (a, o, b) => .edgeL a o b
            | none => .droppedL

/-- Mutable state of the main parse loop.  `cur` is the single open
subgraph container; `sgsDone` are containers already flushed (closed or
superseded), in creation order. -/
structure PState where
  sgsDone : List Subgraph
  cur : Option Subgraph
  topNodes : List Node
  nodesMap : List (Str × RegNode)
  edges : List Edge
  classDefs : List Str
  classAssigns : List ClassAssign
deriving DecidableEq, Repr, Inhabited

def initPState : PState := ⟨[], none, [], [], [], [], []⟩

/-- Number of subgraphs created so far (`subgraphs.length` in the source,
which includes the currently open one). -/
def sgCount (st : PState) : Nat :=
  st.sgsDone.length + (match st.cur with | some _ => 1 | none => 0)

/-- One iteration of the main parse loop. -/
def step (st : PState) (line : Str) : PState :=
  match classify line with
  | .blank => st
  | .comment => st
  | .classDefL => { st with classDefs := st.classDefs ++ [trim line] }
  | .classAssignL idsPart cname =>
      let ids := splitIds idsPart
      if ids = [] then st
      else { st with classAssigns := st.classAssigns ++ [⟨ids, cname⟩] }
  | .headerL rest =>
      { st with sgsDone := st.sgsDone ++ st.cur.toList,
                cur := some ⟨ensureSgId rest (sgCount st), trim line, []⟩ }
  | .endL => { st with sgsDone := st.sgsDone ++ st.cur.toList, cur := none }
  | .nodeL np =>
      let nd : Node := ⟨np.id, np.label, np.po, np.pc⟩
      let reg : RegNode := ⟨np.id, np.label, np.po, np.pc, st.cur.map (·.id)⟩
      match st.cur with
      | some sg =>
          { st with cur := some { sg with nodes := sg.nodes ++ [nd] },
                    nodesMap := msetStr st.nodesMap np.id reg }
      | none =>
          { st with topNodes := st.topNodes ++ [nd],
                    nodesMap := msetStr st.nodesMap np.id reg }
  | .edgeL a o b => { st with edges := st.edges ++ [⟨a, o, b⟩] }
  | .droppedL => st

/-- `text.split(/\n/)`. -/
def splitLines : Str → List Str
  | [] => [[]]
  | c :: cs =>
      match splitLines cs with
      | [] => [[]]
      | h :: t => if c = '\n' then [] :: h :: t else (c :: h) :: t

/-- `lines.join('\n')`. -/
def joinLines : List Str → Str
  | [] => []
  | [l] => l
  | l :: l2 :: rest => l ++ '\n' :: joinLines (l2 :: rest)

/-- The optional skip of one blank line after the front-matter block
(app.js line 106). -/
def skipOneBlank : List Str → List Str
  | [] => []
  | l :: rest => if trim l = [] then rest else l :: rest

/-- Front-matter extraction (app.js lines 97–107): if the first line trims to
`---`, collect lines up to and including the next such line (or to the end of
input if unterminated), then skip one blank line. -/
def takeFrontMatter (lines : List Str) : List Str × List Str :=
  match lines with
  | [] => ([], [])
  | l0 :: rest =>
      if trim l0 = fmDashes then
        let mid := rest.takeWhile (fun l => !(trim l == fmDashes))
        match rest.dropWhile (fun l => !(trim l == fmDashes)) with
        | [] => (l0 :: mid, [])
        | cl :: rest2 => (l0 :: (mid ++ [cl]), skipOneBlank rest2)
      else ([], lines)

/-- The directive-line search (app.js lines 110–118): skip lines until the
first one matching `/^\s*flowchart\b/i`; capture it trimmed. -/
def findDirective : List Str → Str × List Str
  | [] => ([], [])
  | l :: rest => if flowchartTest l then (trim l, rest) else findDirective rest

/-- `parseDiagram` (app.js lines 93–191). -/
def parseDiagram (text : Str) : Model :=
  let lines := splitLines text
  let fm := takeFrontMatter lines
  let dir := findDirective fm.2
  let st := dir.2.foldl step initPState
  { headerLines := fm.1
    flowchartLine := dir.1
    subgraphs := st.sgsDone ++ st.cur.toList
    topNodes := st.topNodes
    nodesMap := st.nodesMap
    edges := st.edges
    classDefs := st.classDefs
    classAssigns := st.classAssigns }

/-! ## Visibility state (the `visibleMap`/`state` maps) -/

abbrev VisMap := List (Str × Bool)

/-- `visibleMap.get(id) !== false` (app.js line 194): ids absent from the map
are visible. -/
def isVisible (vis : VisMap) (id : Str) : Bool :=
  !(mget vis id == some false)

/-- `onHideAll` (app.js lines 324–331), restricted to its effect on the state
map: set every existing key to `false`. -/
def hideAllState (st : VisMap) : VisMap :=
  (st.map (·.1)).foldl (fun m id => msetStr m id false) st

/-- `onShowAll` (app.js lines 315–323): set every existing key to `true`. -/
def showAllState (st : VisMap) : VisMap :=
  (st.map (·.1)).foldl (fun m id => msetStr m id true) st

/-! ## Filtered renderer (`buildFilteredMMD`, app.js lines 193–256)

The output is modelled as a list of structured lines (`RLine`); `rtext`
recovers the exact emitted text of each line, and `buildFilteredMMD` joins
them with `\n`.  The extra `Subgraph`/`Node`/`Edge` payloads on the
constructors record which model element produced the line; `rtext` ignores
them. -/

inductive RLine
  | fm (s : Str)
  | directive (s : Str)
  | classDefLine (s : Str)
  | sgHeader (sg : Subgraph)
  | memberLine (sg : Subgraph) (n : Node)
  | endLine (sg : Subgraph)
  | topLine (n : Node)
  | classAssignLine (ids : List Str) (className : Str)
  | clickLine (id : Str)
  | edgeLine (e : Edge)
  | blank
deriving DecidableEq, Repr, Inhabited

def sp4 : Str := [' ', ' ', ' ', ' ']
def sp8 : Str := sp4 ++ sp4

/-- `${n.id}${(n && n.open) ? n.open : '['}${n.label}${(n && n.close) ? n.close : ']'}`. -/
def nodeText (n : Node) : Str :=
  n.id ++ (if n.po = [] then ['['] else n.po) ++ n.label ++
    (if n.pc = [] then [']'] else n.pc)

def defaultDirective : Str :=
  ['f','l','o','w','c','h','a','r','t',' ','T','D']

def litClick : Str := ['c','l','i','c','k',' ']
def litMyCallback : Str := [' ','m','y','C','a','l','l','b','a','c','k']

/-- The exact text of an emitted line. -/
def rtext : RLine → Str
  | .fm s => s
  | .directive s => s
  | .classDefLine s => sp4 ++ s
  | .sgHeader sg => sp4 ++ sg.headerLine
  | .memberLine _ n => sp8 ++ nodeText n
  | .endLine _ => sp4 ++ litEnd
  | .topLine n => sp4 ++ nodeText n
  | .classAssignLine ids c => sp4 ++ litClass ++ [' '] ++ List.intercalate [','] ids ++ [' '] ++ c
  | .clickLine id => sp4 ++ litClick ++ id ++ litMyCallback
  | .edgeLine e => sp4 ++ e.a ++ [' '] ++ e.op ++ [' '] ++ e.b
  | .blank => []

/-- The subgraph section (app.js lines 210–221): emitted only when at least
one member is visible. -/
def sgSection (vis : VisMap) (sg : Subgraph) : List RLine :=
  let kept := sg.nodes.filter (fun n => isVisible vis n.id)
  if kept = [] then []
  else .sgHeader sg :: (kept.map (RLine.memberLine sg) ++ [.endLine sg, .blank])

/-- The structured output of `buildFilteredMMD`. -/
def renderLines (m : Model) (vis : VisMap) : List RLine :=
  (if m.headerLines = [] then [] else m.headerLines.map RLine.fm ++ [.blank])
  ++ [.directive (if m.flowchartLine = [] then defaultDirective else m.flowchartLine)]
  ++ (if m.classDefs = [] then [] else m.classDefs.map RLine.classDefLine ++ [.blank])
  ++ (m.subgraphs.flatMap (sgSection vis))
  ++ (let keptTop := m.topNodes.filter (fun n => isVisible vis n.id)
      keptTop.map RLine.topLine ++ (if keptTop = [] then [] else [.blank]))
  ++ (if m.classAssigns = [] then []
      else (m.classAssigns.filterMap (fun ca =>
              let k := ca.ids.filter (fun id => isVisible vis id)
              if k = [] then none
              else some (RLine.classAssignLine k ca.className))) ++ [.blank])
  ++ (let vids := (m.nodesMap.map (·.1)).filter (fun id => isVisible vis id)
      vids.map RLine.clickLine ++ (if vids = [] then [] else [.blank]))
  ++ (m.edges.filter (fun e => isVisible vis e.a && isVisible vis e.b)).map RLine.edgeLine
  ++ [.blank]

/-- `buildFilteredMMD(model, visibleMap)`: the emitted text. -/
def buildFilteredMMD (m : Model) (vis : VisMap) : Str :=
  joinLines ((renderLines m vis).map rtext)

/-! ## Reachability index and `bfs` (app.js lines 265–294) -/

/-- `ensure(map, key)`: create an empty adjacency entry if missing. -/
def adjEnsure (m : List (Str × List Str)) (k : Str) : List (Str × List Str) :=
  match m with
  | [] => [(k, [])]
  | (k0, l) :: rest =>
      if k0 = k then (k0, l) :: rest else (k0, l) :: adjEnsure rest k

/-- `ensure(map, k).add(v)` (a JS `Set` keeps insertion order and ignores
duplicates). -/
def adjAdd (m : List (Str × List Str)) (k v : Str) : List (Str × List Str) :=
  match m with
  | [] => [(k, [v])]
  | (k0, l) :: rest =>
      if k0 = k then (k0, if v ∈ l then l else l ++ [v]) :: rest
      else (k0, l) :: adjAdd rest k v

/-- The forward (`out`) and backward (`inn`) adjacency maps built in `main`
(app.js lines 266–280). -/
def mkAdj (m : Model) : (List (Str × List Str)) × (List (Str × List Str)) :=
  let base := (m.nodesMap.map (·.1)).foldl
    (fun mp id => adjEnsure mp id) ([] : List (Str × List Str))
  m.edges.foldl
    (fun pr e =>
      let pr1 := if e.op.contains '>' then (adjAdd pr.1 e.a e.b, adjAdd pr.2 e.b e.a) else pr
      if e.op.contains '<' then (adjAdd pr1.1 e.b e.a, adjAdd pr1.2 e.a e.b) else pr1)
    (base, base)

/-- The queue/visited loop of `bfs` (app.js lines 282–294), with explicit
fuel.  With sufficient fuel the fuel-exhaustion branch is never taken
(`bfsAux_fuel_stable` below). -/
def bfsAux (adj : List (Str × List Str)) : Nat → List Str → List Str → List Str
  | 0, _, vis => vis
  | _ + 1, [], vis => vis
  | fuel + 1, cur :: q, vis =>
      let fresh := ((mget adj cur).getD []).filter (fun n => !(vis.contains n))
      bfsAux adj fuel (q ++ fresh) (vis ++ fresh)

/-- An upper bound on the number of loop iterations: every enqueued id beyond
the start comes from some adjacency list. -/
def bfsFuel (adj : List (Str × List Str)) : Nat :=
  1 + (adj.map (fun p => p.2.length)).sum

/-- `bfs(startId, map)`: visited ids, in visit order. -/
def bfs (adj : List (Str × List Str)) (start : Str) : List Str :=
  bfsAux adj (bfsFuel adj) [start] [start]

/-- `descendants`: the bfs over the forward adjacency. -/
def descendants (m : Model) (id : Str) : List Str := bfs (mkAdj m).1 id

/-- `ancestors`: the bfs over the backward adjacency. -/
def ancestors (m : Model) (id : Str) : List Str := bfs (mkAdj m).2 id

/-- `onShowDescendants` (app.js lines 333–341), restricted to the state map:
set every bfs-visited id to `true`. -/
def showDescState (adjOut : List (Str × List Str)) (st : VisMap) (id : Str) : VisMap :=
  (bfs adjOut id).foldl (fun m v => msetStr m v true) st

/-! ## The sidebar parser (`parseNodesFromMMD`, app.js lines 39–53), which
initializes the visibility state in `main` (line 297) -/

/-- `label.replace(/\\n/g, ' ')`. -/
def replBackslashN : Str → Str
  | [] => []
  | [c] => [c]
  | c₁ :: c₂ :: rest =>
      if c₁ = '\\' && c₂ = 'n' then ' ' :: replBackslashN rest
      else c₁ :: replBackslashN (c₂ :: rest)

/-- The skip conditions of the sidebar parser: subgraph headers and lines
containing `-->`, `==>`, `-.` or `|` (the edge-skip regex of app.js line 45). -/
def sidebarSkip (line : Str) : Bool :=
  (headerMatch line).isSome
  || containsSub line ['-','-','>']
  || containsSub line ['=','=','>']
  || containsSub line ['-','.']
  || containsSub line ['|']

/-- `parseNodesFromMMD`: id → normalized label, in first-insertion order. -/
def parseNodesFromMMD (text : Str) : List (Str × Str) :=
  (splitLines text).foldl
    (fun acc line =>
      if sidebarSkip line then acc
      else
        match parseNodeLine line with
        | some np => msetStr acc np.id (replBackslashN np.label)
        | none => acc)
    []

/-- `new Map(nodes.map(n => [n.id, true]))` (app.js line 297). -/
def stateInit (text : Str) : VisMap :=
  (parseNodesFromMMD text).map (fun p => (p.1, true))

/-! ## Association-map lemmas -/

theorem mget_msetStr {α : Type} (m : List (Str × α)) (k k' : Str) (v : α) :
    mget (msetStr m k v) k' = if k' = k then some v else mget m k' := by
  induction m with
  | nil =>
      simp only [msetStr, mget]
      by_cases h : k' = k
      · simp [h]
      · have h2 : ¬ k = k' := fun hh => h hh.symm
        simp [h, h2]
  | cons p rest ih =>
      obtain ⟨k0, v0⟩ := p
      simp only [msetStr]
      by_cases h0 : k0 = k
      · rw [if_pos h0]
        simp only [mget]
        by_cases h1 : k = k'
        · rw [if_pos h1, if_pos h1.symm]
        · have h1s : ¬ k' = k := fun hh => h1 hh.symm
          have h2 : ¬ k0 = k' := by rw [h0]; exact h1
          rw [if_neg h1, if_neg h1s, if_neg h2]
      · rw [if_neg h0]
        simp only [mget]
        by_cases h1 : k0 = k'
        · have : ¬ k' = k := fun hh => (h0 (h1.trans hh))
          simp [h1, this]
        · simp [h1, ih]

theorem keys_msetStr {α : Type} (m : List (Str × α)) (k : Str) (v : α)
    (hk : k ∈ m.map (·.1)) :
    (msetStr m k v).map (·.1) = m.map (·.1) := by
  induction m with
  | nil => simp at hk
  | cons p rest ih =>
      obtain ⟨k0, v0⟩ := p
      simp only [msetStr]
      by_cases h0 : k0 = k
      · subst h0; simp
      · simp only [List.map_cons, List.mem_cons] at hk
        rcases hk with hk | hk
        · exact absurd hk.symm h0
        · simp [h0, ih hk]

theorem mget_foldl_mset (L : List Str) (st : VisMap) (b : Bool) (x : Str) :
    mget (L.foldl (fun m v => msetStr m v b) st) x
      = if x ∈ L then some b else mget st x := by
  induction L generalizing st with
  | nil => simp
  | cons a L ih =>
      simp only [List.foldl_cons, ih, mget_msetStr, List.mem_cons]
      by_cases hL : x ∈ L
      · simp [hL]
      · by_cases ha : x = a <;> simp [hL, ha]

theorem keys_foldl_mset (L : List Str) (st : VisMap) (b : Bool)
    (h : ∀ v ∈ L, v ∈ st.map (·.1)) :
    (L.foldl (fun m v => msetStr m v b) st).map (·.1) = st.map (·.1) := by
  induction L generalizing st with
  | nil => simp
  | cons a L ih =>
      simp only [List.foldl_cons]
      have ha : a ∈ st.map (·.1) := h a (by simp)
      have hkeys := keys_msetStr st a b ha
      rw [ih (msetStr st a b) (fun v hv => by rw [hkeys]; exact h v (by simp [hv])), hkeys]

theorem keys_hideAllState (st : VisMap) :
    (hideAllState st).map (·.1) = st.map (·.1) :=
  keys_foldl_mset _ st false (fun _ hv => hv)

theorem mget_hideAllState (st : VisMap) (x : Str) :
    mget (hideAllState st) x
      = if x ∈ st.map (·.1) then some false else mget st x :=
  mget_foldl_mset _ st false x

theorem mget_eq_none_of_not_mem {α : Type} (m : List (Str × α)) (k : Str)
    (h : k ∉ m.map (·.1)) : mget m k = none := by
  induction m with
  | nil => rfl
  | cons p rest ih =>
      obtain ⟨k0, v0⟩ := p
      simp only [List.map_cons, List.mem_cons] at h
      push_neg at h
      simp only [mget, if_neg (fun hh : k0 = k => h.1 hh.symm)]
      exact ih h.2

/-! ## Concrete example inputs used by the claim theorems -/

/-- The chain `A → B → C` with all three nodes declared. -/
def chainText : Str := "flowchart TD\nA[a]\nB[b]\nC[c]\nA --> B\nB --> C".data

/-- An edge between two ids never declared as nodes. -/
def undecText : Str := "flowchart TD\nX --> Y".data

/-! ## C9: `showDescendants` -/

/-- **C9.** `showDescendants(id)` sets every member of `descendants(id)` to
visible and never makes any id less visible than before; with edges
`A→B→C` and all nodes hidden, `showDescendants(A)` makes exactly
`{A,B,C}` visible and `showDescendants(C)` makes exactly `{C}` visible. -/
theorem showDescendants_monotone_covers :
    (∀ (adjOut : List (Str × List Str)) (st : VisMap) (id : Str),
        (∀ v ∈ bfs adjOut id, mget (showDescState adjOut st id) v = some true)
        ∧ (∀ x, isVisible st x = true → isVisible (showDescState adjOut st id) x = true))
    ∧ showDescState (mkAdj (parseDiagram chainText)).1
        (hideAllState (stateInit chainText)) ['A']
        = [(['A'], true), (['B'], true), (['C'], true)]
    ∧ showDescState (mkAdj (parseDiagram chainText)).1
        (hideAllState (stateInit chainText)) ['C']
        = [(['A'], false), (['B'], false), (['C'], true)] := by
  refine ⟨fun adjOut st id => ⟨?_, ?_⟩, by decide, by decide⟩
  · intro v hv
    simp [showDescState, mget_foldl_mset, hv]
  · intro x hx
    simp only [isVisible] at hx ⊢
    rw [showDescState, mget_foldl_mset]
    by_cases h : x ∈ bfs adjOut id
    · simp [h]
    · simpa [h] using hx

/-- Witness for C9 at a concrete input. -/
theorem showDescendants_monotone_covers_witness :
    mget (showDescState (mkAdj (parseDiagram chainText)).1
      (hideAllState (stateInit chainText)) ['A']) ['B'] = some true :=
  (showDescendants_monotone_covers.1 (mkAdj (parseDiagram chainText)).1
    (hideAllState (stateInit chainText)) ['A']).1 ['B'] (by decide)

/-! ## C10: `hideAll` frame -/

/-- **C10.** `hideAll()` only writes ids already present in the visibility
state map; any id absent from the sidebar-parsed node list (in particular an
id that appears only in edges) still reads as visible after `hideAll()`; an
edge between two undeclared ids is still emitted after `hideAll()`. -/
theorem hideAll_writes_only_existing :
    (∀ st : VisMap, (hideAllState st).map (·.1) = st.map (·.1))
    ∧ (∀ (text : Str) (id : Str), id ∉ (parseNodesFromMMD text).map (·.1) →
        isVisible (hideAllState (stateInit text)) id = true)
    ∧ stateInit undecText = []
    ∧ RLine.edgeLine ⟨['X'], ['-', '-', '>'], ['Y']⟩
        ∈ renderLines (parseDiagram undecText) (hideAllState (stateInit undecText)) := by
  refine ⟨keys_hideAllState, ?_, by decide, by decide⟩
  intro text id hid
  have hkeys : (stateInit text).map (·.1) = (parseNodesFromMMD text).map (·.1) := by
    simp [stateInit]
  have hnone : mget (stateInit text) id = none :=
    mget_eq_none_of_not_mem _ _ (by rw [hkeys]; exact hid)
  rw [isVisible, mget_hideAllState, hkeys, if_neg hid, hnone]
  rfl

/-- Witness for C10 at a concrete input. -/
theorem hideAll_writes_only_existing_witness :
    isVisible (hideAllState (stateInit undecText)) ['X'] = true :=
  hideAll_writes_only_existing.2.1 undecText ['X'] (by decide)

/-! ## C7: the breadth-first queries -/

/-- All adjacency-list values flattened: every id the bfs can ever enqueue
beyond its start. -/
def adjU (adj : List (Str × List Str)) : List Str := adj.flatMap (·.2)

/-- Well-formedness of an adjacency map: each value list is duplicate-free
(it models a JS `Set`). -/
def AdjWF (adj : List (Str × List Str)) : Prop := ∀ p ∈ adj, p.2.Nodup

theorem mget_mem {α : Type} {m : List (Str × α)} {k : Str} {v : α}
    (h : mget m k = some v) : (k, v) ∈ m := by
  induction m with
  | nil => simp [mget] at h
  | cons p rest ih =>
      obtain ⟨k0, v0⟩ := p
      simp only [mget] at h
      by_cases h0 : k0 = k
      · rw [if_pos h0] at h
        cases h
        simp [h0]
      · rw [if_neg h0] at h
        simp [ih h]

theorem mem_adjU_of_mget {adj : List (Str × List Str)} {k : Str} {l : List Str}
    (h : mget adj k = some l) {x : Str} (hx : x ∈ l) : x ∈ adjU adj := by
  have := mget_mem h
  simp only [adjU, List.mem_flatMap]
  exact ⟨(k, l), this, hx⟩

theorem adjEnsure_wf {m : List (Str × List Str)} (h : AdjWF m) (k : Str) :
    AdjWF (adjEnsure m k) := by
  induction m with
  | nil =>
      intro p hp
      simp only [adjEnsure, List.mem_singleton] at hp
      subst hp; exact List.nodup_nil
  | cons q rest ih =>
      obtain ⟨k0, l⟩ := q
      intro p hp
      simp only [adjEnsure] at hp
      by_cases h0 : k0 = k
      · rw [if_pos h0] at hp
        exact h p hp
      · rw [if_neg h0] at hp
        rcases List.mem_cons.mp hp with hp | hp
        · subst hp; exact h _ (by simp)
        · exact ih (fun r hr => h r (by simp [hr])) p hp

theorem adjAdd_wf {m : List (Str × List Str)} (h : AdjWF m) (k v : Str) :
    AdjWF (adjAdd m k v) := by
  induction m with
  | nil =>
      intro p hp
      simp only [adjAdd, List.mem_singleton] at hp
      subst hp; simp
  | cons q rest ih =>
      obtain ⟨k0, l⟩ := q
      intro p hp
      simp only [adjAdd] at hp
      by_cases h0 : k0 = k
      · rw [if_pos h0] at hp
        rcases List.mem_cons.mp hp with hp | hp
        · subst hp
          by_cases hv : v ∈ l
          · simpa [hv] using h _ (List.mem_cons_self _ _)
          · have hl : l.Nodup := h _ (List.mem_cons_self _ _)
            simp only [hv, if_neg]
            simp only [if_false]
            exact List.Nodup.append hl (by simp) (by simpa using hv)
        · exact h p (by simp [hp])
      · rw [if_neg h0] at hp
        rcases List.mem_cons.mp hp with hp | hp
        · subst hp; exact h _ (by simp)
        · exact ih (fun r hr => h r (by simp [hr])) p hp

theorem mkAdj_wf (m : Model) : AdjWF (mkAdj m).1 ∧ AdjWF (mkAdj m).2 := by
  have hbase :
      ∀ (ids : List Str) (init : List (Str × List Str)), AdjWF init →
        AdjWF (ids.foldl (fun mp id => adjEnsure mp id) init) := by
    intro ids
    induction ids with
    | nil => intro init h; exact h
    | cons a ids ih =>
        intro init h
        exact ih _ (adjEnsure_wf h a)
  have hedges :
      ∀ (es : List Edge) (pr : (List (Str × List Str)) × (List (Str × List Str))),
        AdjWF pr.1 → AdjWF pr.2 →
        AdjWF ((es.foldl
          (fun pr e =>
            let pr1 := if e.op.contains '>' then (adjAdd pr.1 e.a e.b, adjAdd pr.2 e.b e.a) else pr
            if e.op.contains '<' then (adjAdd pr1.1 e.b e.a, adjAdd pr1.2 e.a e.b) else pr1)
          pr)).1
        ∧ AdjWF ((es.foldl
          (fun pr e =>
            let pr1 := if e.op.contains '>' then (adjAdd pr.1 e.a e.b, adjAdd pr.2 e.b e.a) else pr
            if e.op.contains '<' then (adjAdd pr1.1 e.b e.a, adjAdd pr1.2 e.a e.b) else pr1)
          pr)).2 := by
    intro es
    induction es with
    | nil => intro pr h1 h2; exact ⟨h1, h2⟩
    | cons e es ih =>
        intro pr h1 h2
        simp only [List.foldl_cons]
        apply ih
        · dsimp only
          split <;> split <;> first
            | exact adjAdd_wf (adjAdd_wf h1 _ _) _ _
            | exact adjAdd_wf h1 _ _
            | exact h1
        · dsimp only
          split <;> split <;> first
            | exact adjAdd_wf (adjAdd_wf h2 _ _) _ _
            | exact adjAdd_wf h2 _ _
            | exact h2
  unfold mkAdj
  exact hedges m.edges (_, _) (hbase _ [] (by intro p hp; simp at hp))
    (hbase _ [] (by intro p hp; simp at hp))

theorem contains_iff (l : List Str) (x : Str) : l.contains x = true ↔ x ∈ l := by
  unfold List.contains
  exact List.elem_iff

theorem contains_eq_decide (l : List Str) (x : Str) :
    l.contains x = decide (x ∈ l) := by
  by_cases h : x ∈ l
  · simp [h, (contains_iff l x).mpr h]
  · simp only [h, decide_eq_false h]
    cases hc : l.contains x
    · rfl
    · exact absurd ((contains_iff l x).mp hc) h

theorem bfsAux_nodup (adj : List (Str × List Str)) (hwf : AdjWF adj) :
    ∀ (fuel : Nat) (q vis : List Str), vis.Nodup → (bfsAux adj fuel q vis).Nodup := by
  intro fuel
  induction fuel with
  | zero => intro q vis h; exact h
  | succ n ih =>
      intro q vis h
      cases q with
      | nil => exact h
      | cons cur q' =>
          simp only [bfsAux]
          apply ih
          have hnexts : ((mget adj cur).getD []).Nodup := by
            cases hg : mget adj cur with
            | none => simp
            | some l => simpa using hwf _ (mget_mem hg)
          refine List.Nodup.append h (hnexts.filter _) ?_
          intro x hx hxf
          have hmem := List.of_mem_filter hxf
          rw [Bool.not_eq_true'] at hmem
          have hc := (contains_iff vis x).mpr hx
          rw [hmem] at hc
          exact Bool.false_ne_true hc

/-- The termination measure of the bfs loop: queue length plus the number of
ids in the adjacency universe not yet visited. -/
def bfsMeasure (adj : List (Str × List Str)) (q vis : List Str) : Nat :=
  q.length + ((adjU adj).filter (fun x => !(vis.contains x))).length

theorem length_filter_split {α : Type} (l : List α) (p q : α → Bool) :
    (l.filter p).length
      = (l.filter (fun x => p x && q x)).length
        + (l.filter (fun x => p x && !q x)).length := by
  induction l with
  | nil => rfl
  | cons a l ih =>
      by_cases hp : p a
      · by_cases hq : q a <;> simp [List.filter_cons, hp, hq, ih] <;> omega
      · simp [List.filter_cons, hp, ih]

theorem nodup_sub_le (F A : List Str) (hF : F.Nodup) (hsub : ∀ x ∈ F, x ∈ A) :
    F.length ≤ (A.filter (fun x => F.contains x)).length := by
  calc F.length = F.toFinset.card := (List.toFinset_card_of_nodup hF).symm
    _ ≤ (A.filter (fun x => F.contains x)).toFinset.card := by
        apply Finset.card_le_card
        intro x hx
        simp only [List.mem_toFinset] at hx ⊢
        exact List.mem_filter.mpr ⟨hsub x hx, (contains_iff F x).mpr hx⟩
    _ ≤ (A.filter (fun x => F.contains x)).length := List.toFinset_card_le _

theorem measure_decreases (adj : List (Str × List Str)) (hwf : AdjWF adj)
    (cur : Str) (q' vis : List Str) :
    bfsMeasure adj (q' ++ ((mget adj cur).getD []).filter (fun n => !(vis.contains n)))
        (vis ++ ((mget adj cur).getD []).filter (fun n => !(vis.contains n))) + 1
      ≤ bfsMeasure adj (cur :: q') vis := by
  set nexts := (mget adj cur).getD [] with hnexts
  set fresh := nexts.filter (fun n => !(vis.contains n)) with hfresh
  have hfreshU : ∀ x ∈ fresh, x ∈ adjU adj := by
    intro x hx
    have hxn : x ∈ nexts := List.mem_of_mem_filter hx
    cases hg : mget adj cur with
    | none => rw [hnexts, hg] at hxn; simp at hxn
    | some l =>
        apply mem_adjU_of_mget hg
        rw [hnexts, hg] at hxn; simpa using hxn
  have hfreshV : ∀ x ∈ fresh, ¬ x ∈ vis := by
    intro x hx hxv
    have hmem := List.of_mem_filter hx
    rw [Bool.not_eq_true'] at hmem
    have hc := (contains_iff vis x).mpr hxv
    rw [hmem] at hc
    exact Bool.false_ne_true hc
  have hfreshN : fresh.Nodup := by
    have hnn : nexts.Nodup := by
      cases hg : mget adj cur with
      | none => rw [hnexts, hg]; simp
      | some l => rw [hnexts, hg]; simpa using hwf _ (mget_mem hg)
    exact hnn.filter _
  -- split the unvisited universe by membership in `fresh`
  have hsplit := length_filter_split (adjU adj)
    (fun x => !(vis.contains x)) (fun x => fresh.contains x)
  have hBeq : ((adjU adj).filter (fun x => !((vis ++ fresh).contains x)))
      = (adjU adj).filter (fun x => !(vis.contains x) && !(fresh.contains x)) := by
    apply List.filter_congr
    intro x _
    simp [contains_eq_decide, List.mem_append]
  have hfle : fresh.length
      ≤ ((adjU adj).filter (fun x => !(vis.contains x) && fresh.contains x)).length := by
    have hle := nodup_sub_le fresh ((adjU adj).filter (fun x => !(vis.contains x)))
      hfreshN (by
        intro x hx
        refine List.mem_filter.mpr ⟨hfreshU x hx, ?_⟩
        simp [contains_eq_decide, hfreshV x hx])
    calc fresh.length
        ≤ (((adjU adj).filter (fun x => !(vis.contains x))).filter
            (fun x => fresh.contains x)).length := hle
      _ = ((adjU adj).filter (fun x => !(vis.contains x) && fresh.contains x)).length := by
          rw [List.filter_filter]
          apply congrArg List.length
          apply List.filter_congr
          intro x _
          rw [Bool.and_comm]
  simp only [bfsMeasure, List.length_append, List.length_cons]
  rw [hBeq]
  omega

theorem bfsAux_stable (adj : List (Str × List Str)) (hwf : AdjWF adj) :
    ∀ (n m : Nat) (q vis : List Str),
      bfsMeasure adj q vis ≤ n → bfsMeasure adj q vis ≤ m →
      bfsAux adj n q vis = bfsAux adj m q vis := by
  intro n
  induction n with
  | zero =>
      intro m q vis hn _
      have hq : q = [] := by
        cases q with
        | nil => rfl
        | cons a q' => simp [bfsMeasure] at hn
      subst hq
      cases m <;> rfl
  | succ n ih =>
      intro m q vis hn hm
      cases q with
      | nil => cases m <;> rfl
      | cons cur q' =>
          have hm1 : 1 ≤ bfsMeasure adj (cur :: q') vis := by
            simp [bfsMeasure]
            omega
          cases m with
          | zero => omega
          | succ m' =>
              simp only [bfsAux]
              have hdec := measure_decreases adj hwf cur q' vis
              exact ih m' _ _ (by omega) (by omega)

theorem bfs_fuel_enough (adj : List (Str × List Str)) (id : Str) :
    bfsMeasure adj [id] [id] ≤ bfsFuel adj := by
  have h1 : ((adjU adj).filter (fun x => !([id].contains x))).length ≤ (adjU adj).length :=
    List.length_filter_le _ _
  have h2 : (adjU adj).length = (adj.map (fun p => p.2.length)).sum := by
    simp only [adjU, List.length_flatMap]
    rfl
  simp only [bfsMeasure, bfsFuel, List.length_singleton]
  omega

theorem bfs_singleton (adj : List (Str × List Str)) (id : Str)
    (h : mget adj id = none ∨ mget adj id = some []) : bfs adj id = [id] := by
  unfold bfs
  obtain ⟨f, hf⟩ : ∃ f, bfsFuel adj = f + 1 :=
    ⟨(adj.map (fun p => p.2.length)).sum, by simp [bfsFuel, Nat.add_comm]⟩
  rw [hf]
  simp only [bfsAux]
  have hempty : ((mget adj id).getD []).filter (fun n => !(([id] : List Str).contains n)) = [] := by
    rcases h with h | h <;> simp [h]
  rw [hempty]
  cases f <;> rfl

/-- **C7.** For every model (hence every edge list, cyclic or not) and every
id, `descendants(id)` and `ancestors(id)` visit each id at most once
(duplicate-free result), terminate (any fuel beyond the allotted bound gives
the same, already-stable result, so the fuel-exhaustion branch is never the
outcome), and return exactly the singleton `[id]` when the id has no
outgoing (resp. incoming) arcs or is entirely unknown to the index; being
total functions, they never fail. -/
theorem bfs_queries_nodup_total_singleton (model : Model) (id : Str) :
    (descendants model id).Nodup ∧ (ancestors model id).Nodup
    ∧ (∀ k, bfsAux (mkAdj model).1 (bfsFuel (mkAdj model).1 + k) [id] [id]
          = descendants model id)
    ∧ (∀ k, bfsAux (mkAdj model).2 (bfsFuel (mkAdj model).2 + k) [id] [id]
          = ancestors model id)
    ∧ ((mget (mkAdj model).1 id = none ∨ mget (mkAdj model).1 id = some []) →
          descendants model id = [id])
    ∧ ((mget (mkAdj model).2 id = none ∨ mget (mkAdj model).2 id = some []) →
          ancestors model id = [id]) := by
  obtain ⟨hwf1, hwf2⟩ := mkAdj_wf model
  refine ⟨?_, ?_, ?_, ?_, bfs_singleton _ id, bfs_singleton _ id⟩
  · exact bfsAux_nodup _ hwf1 _ _ _ (by simp)
  · exact bfsAux_nodup _ hwf2 _ _ _ (by simp)
  · intro k
    exact bfsAux_stable _ hwf1 _ _ _ _
      (le_trans (bfs_fuel_enough _ id) (by omega)) (bfs_fuel_enough _ id)
  · intro k
    exact bfsAux_stable _ hwf2 _ _ _ _
      (le_trans (bfs_fuel_enough _ id) (by omega)) (bfs_fuel_enough _ id)

/-- Witness for C7 at a concrete input: the id `Z` is entirely unknown to the
index built from `undecText`, and both queries return the singleton. -/
theorem bfs_queries_nodup_total_singleton_witness :
    descendants (parseDiagram undecText) ['Z'] = [['Z']]
    ∧ ancestors (parseDiagram undecText) ['Z'] = [['Z']]
    ∧ bfsAux (mkAdj (parseDiagram undecText)).1
        (bfsFuel (mkAdj (parseDiagram undecText)).1 + 5) [['Z']] [['Z']]
        = descendants (parseDiagram undecText) ['Z'] := by
  refine ⟨(bfs_queries_nodup_total_singleton (parseDiagram undecText) ['Z']).2.2.2.2.1
      (Or.inl (by decide)),
    (bfs_queries_nodup_total_singleton (parseDiagram undecText) ['Z']).2.2.2.2.2
      (Or.inl (by decide)),
    (bfs_queries_nodup_total_singleton (parseDiagram undecText) ['Z']).2.2.1 5⟩

/-! ## Membership in the rendered output -/

theorem mem_render_edge_iff (m : Model) (vis : VisMap) (e : Edge) :
    RLine.edgeLine e ∈ renderLines m vis
      ↔ e ∈ m.edges ∧ isVisible vis e.a = true ∧ isVisible vis e.b = true := by
  simp only [renderLines, sgSection, List.mem_append, List.mem_map, List.mem_flatMap,
    List.mem_cons, List.mem_singleton, List.mem_filter, List.mem_filterMap,
    List.mem_ite_nil_left]
  simp [Bool.and_eq_true, and_assoc]
  constructor
  · rintro ⟨a, ha, h1, h2, rfl⟩
    exact ⟨ha, h1, h2⟩
  · rintro ⟨ha, h1, h2⟩
    exact ⟨e, ha, h1, h2, rfl⟩

theorem mem_render_click_iff (m : Model) (vis : VisMap) (i : Str) :
    RLine.clickLine i ∈ renderLines m vis
      ↔ i ∈ m.nodesMap.map (·.1) ∧ isVisible vis i = true := by
  simp [renderLines, sgSection, List.mem_ite_nil_left, Bool.and_eq_true, and_assoc]

theorem mem_render_member_iff (m : Model) (vis : VisMap) (sg : Subgraph) (n : Node) :
    RLine.memberLine sg n ∈ renderLines m vis
      ↔ sg ∈ m.subgraphs ∧ n ∈ sg.nodes ∧ isVisible vis n.id = true := by
  simp [renderLines, sgSection, List.mem_ite_nil_left, Bool.and_eq_true, and_assoc]
  constructor
  · rintro ⟨a, ha, -, a1, ha1, hv, rfl, rfl⟩
    exact ⟨ha, ha1, hv⟩
  · rintro ⟨h1, h2, h3⟩
    exact ⟨sg, h1, ⟨n, h2, h3⟩, n, h2, h3, rfl, rfl⟩

theorem mem_render_sgHeader_iff (m : Model) (vis : VisMap) (sg : Subgraph) :
    RLine.sgHeader sg ∈ renderLines m vis
      ↔ sg ∈ m.subgraphs ∧ ∃ n ∈ sg.nodes, isVisible vis n.id = true := by
  simp [renderLines, sgSection, List.mem_ite_nil_left, and_assoc]

theorem mem_render_endLine_iff (m : Model) (vis : VisMap) (sg : Subgraph) :
    RLine.endLine sg ∈ renderLines m vis
      ↔ sg ∈ m.subgraphs ∧ ∃ n ∈ sg.nodes, isVisible vis n.id = true := by
  simp [renderLines, sgSection, List.mem_ite_nil_left, and_assoc]

theorem mem_render_classAssign_visible (m : Model) (vis : VisMap)
    (ids : List Str) (c : Str)
    (h : RLine.classAssignLine ids c ∈ renderLines m vis) :
    ∀ i ∈ ids, isVisible vis i = true := by
  simp [renderLines, sgSection, List.mem_ite_nil_left] at h
  obtain ⟨-, a, -, -, hf, -⟩ := h
  intro i hi
  rw [← hf] at hi
  exact (List.mem_filter.mp hi).2

/-- The positions of the C2 claim in which an id can be mentioned:
subgraph-member line, class-assignment id list, click directive, edge
endpoint. -/
def mentionsId (id : Str) : RLine → Prop
  | .memberLine _ n => n.id = id
  | .classAssignLine ids _ => id ∈ ids
  | .clickLine i => i = id
  | .edgeLine e => e.a = id ∨ e.b = id
  | _ => False

/-- **C2.** For every model and visibility state, the rendered output never
mentions a hidden node's id as a subgraph member line, in a class-assignment
id list, in a click directive, or as either endpoint of an edge line. -/
theorem hidden_id_never_mentioned (m : Model) (vis : VisMap) (id : Str) (l : RLine)
    (hhid : mget vis id = some false) (hl : l ∈ renderLines m vis) :
    ¬ mentionsId id l := by
  have hvf : isVisible vis id = false := by simp [isVisible, hhid]
  intro hm
  cases l <;> try exact hm
  case memberLine sg n =>
      have h := (mem_render_member_iff m vis sg n).mp hl
      have hn : n.id = id := hm
      rw [hn] at h
      rw [h.2.2] at hvf
      exact Bool.noConfusion hvf
  case classAssignLine ids c =>
      have h := mem_render_classAssign_visible m vis ids c hl id hm
      rw [h] at hvf
      exact Bool.noConfusion hvf
  case clickLine i =>
      have h := (mem_render_click_iff m vis i).mp hl
      have hn : i = id := hm
      rw [hn] at h
      rw [h.2] at hvf
      exact Bool.noConfusion hvf
  case edgeLine e =>
      have h := (mem_render_edge_iff m vis e).mp hl
      rcases hm with hm | hm
      · rw [hm] at h
        rw [h.2.1] at hvf
        exact Bool.noConfusion hvf
      · rw [hm] at h
        rw [h.2.2] at hvf
        exact Bool.noConfusion hvf

/-- Nodes `A`, `B` and the edge `A --> B`. -/
def abText : Str := "flowchart TD\nA[a]\nB[b]\nA --> B".data

/-- Witness for C2 at a concrete input: with `B` hidden, the click line for
`A` (a line of the rendered output) does not mention `B`. -/
theorem hidden_id_never_mentioned_witness :
    ¬ mentionsId ['B'] (RLine.clickLine ['A']) :=
  hidden_id_never_mentioned (parseDiagram abText) [(['B'], false)] ['B']
    (RLine.clickLine ['A']) (by decide) (by decide)

/-- Does a structured output contain any edge line? -/
def hasEdgeLine (ls : List RLine) : Bool :=
  ls.any (fun l => match l with | .edgeLine _ => true | _ => false)

/-- **C4.** An edge of the model is re-emitted (with its original operator
token) iff both endpoints are visible; hiding `B` in the model
`A[a]; B[b]; A --> B` leaves no edge line in the output. -/
theorem edge_emitted_iff_both_visible :
    (∀ (m : Model) (vis : VisMap) (e : Edge),
        RLine.edgeLine e ∈ renderLines m vis
          ↔ e ∈ m.edges ∧ isVisible vis e.a = true ∧ isVisible vis e.b = true)
    ∧ hasEdgeLine (renderLines (parseDiagram abText) [(['B'], false)]) = false :=
  ⟨mem_render_edge_iff, by decide⟩

/-- Witness for C4 at a concrete input. -/
theorem edge_emitted_iff_both_visible_witness :
    RLine.edgeLine ⟨['A'], ['-', '-', '>'], ['B']⟩ ∈ renderLines (parseDiagram abText) [] :=
  (edge_emitted_iff_both_visible.1 (parseDiagram abText) [] _).mpr
    ⟨by decide, by decide, by decide⟩

/-- Does a structured output contain no subgraph header and no closing
marker? -/
def noSgMarks (ls : List RLine) : Bool :=
  ls.all (fun l => match l with
    | .sgHeader _ => false
    | .endLine _ => false
    | _ => true)

/-- A subgraph `S` whose only member is `X`. -/
def sgText : Str := "flowchart TD\nsubgraph S\nX[x]\nend".data

/-- The subgraph record `parseDiagram sgText` produces. -/
def sgS : Subgraph := ⟨['S'], litSubgraph ++ [' ', 'S'], [⟨['X'], ['x'], ['['], [']']⟩]⟩

/-- **C5.** A subgraph's header line, member lines and closing marker are
emitted iff at least one member is visible; hiding the single member `X`
leaves neither the header nor the closing marker in the output. -/
theorem subgraph_emitted_iff_member_visible :
    (∀ (m : Model) (vis : VisMap) (sg : Subgraph), sg ∈ m.subgraphs →
        ((RLine.sgHeader sg ∈ renderLines m vis
            ↔ ∃ n ∈ sg.nodes, isVisible vis n.id = true)
         ∧ (RLine.endLine sg ∈ renderLines m vis
            ↔ ∃ n ∈ sg.nodes, isVisible vis n.id = true)
         ∧ (∀ n : Node, RLine.memberLine sg n ∈ renderLines m vis
            ↔ n ∈ sg.nodes ∧ isVisible vis n.id = true)))
    ∧ noSgMarks (renderLines (parseDiagram sgText) [(['X'], false)]) = true := by
  refine ⟨fun m vis sg hsg => ⟨?_, ?_, ?_⟩, by decide⟩
  · rw [mem_render_sgHeader_iff]
    simp [hsg]
  · rw [mem_render_endLine_iff]
    simp [hsg]
  · intro n
    rw [mem_render_member_iff]
    simp [hsg]

/-- Witness for C5 at a concrete input: with `X` visible, the header of `S`
is emitted. -/
theorem subgraph_emitted_iff_member_visible_witness :
    RLine.sgHeader sgS ∈ renderLines (parseDiagram sgText) [] :=
  ((subgraph_emitted_iff_member_visible.1 (parseDiagram sgText) [] sgS (by decide)).1).mpr
    ⟨⟨['X'], ['x'], ['['], [']']⟩, by decide, by decide⟩

/-! ## C6: delimiter-pair precedence in `parseNodeLine` -/

/-- The remainder `parseNodeLine` scans for a delimiter pair. -/
def nodeRest (line : Str) : Str :=
  match matchToken (trimL line) with
  | none => []
  | some (_, after) => trim (takeBeforePP (trimL after))

theorem parseNodeLine_findPair {line : Str} {np : NodeParse}
    (h : parseNodeLine line = some np) :
    findPair np.id (nodeRest line) sortedPairs = some np := by
  unfold parseNodeLine at h
  unfold nodeRest
  cases hm : matchToken (trimL line) with
  | none => rw [hm] at h; exact absurd h (by simp)
  | some p =>
      obtain ⟨id, after⟩ := p
      rw [hm] at h
      simp only at h
      by_cases hr : trim (takeBeforePP (trimL after)) = []
      · rw [if_pos hr] at h
        exact absurd h (by simp)
      · rw [if_neg hr] at h
        have hid : np.id = id := by
          have : ∀ (ps : List Pair) (np' : NodeParse),
              findPair id (trim (takeBeforePP (trimL after))) ps = some np' →
              np'.id = id := by
            intro ps
            induction ps with
            | nil => intro np' h'; exact absurd h' (by simp [findPair])
            | cons q qs ih =>
                intro np' h'
                simp only [findPair] at h'
                split at h'
                · cases h'; rfl
                · exact ih np' h'
          exact this _ np h
        rw [hid]
        exact h

theorem findPair_longest (id rest : Str) :
    ∀ (ps : List Pair) (np : NodeParse),
      List.Pairwise (fun p q => q.po.length ≤ p.po.length) ps →
      findPair id rest ps = some np →
      ∀ p ∈ ps, startsWith rest p.po = true → endsWith rest p.pc = true →
        p.po.length ≤ np.po.length := by
  intro ps
  induction ps with
  | nil => intro np _ h; exact absurd h (by simp [findPair])
  | cons q qs ih =>
      intro np hpw h p hp hs he
      simp only [findPair] at h
      rcases List.mem_cons.mp hp with hpq | hpq
      · split at h
        · cases h
          subst hpq
          exact Nat.le_refl _
        · rename_i hcond
          subst hpq
          exact absurd (by rw [hs, he]; rfl) hcond
      · split at h
        · cases h
          simp only
          exact (List.pairwise_cons.mp hpw).1 p hpq
        · exact ih np (List.pairwise_cons.mp hpw).2 h p hpq hs he

/-- The `A((x)` line: its remainder starts with both `((` and `(`. -/
def caText : Str := "A((x)".data

/-- **C6 counterexample.** The remainder of `A((x)` is prefix-compatible with
both the longer open `((` and the shorter open `(` (both catalog entries),
yet the parse uses the shorter round-edge pair, so "the longer one wins" is
false as stated for prefix-compatibility alone. -/
theorem pair_precedence_cex :
    startsWith (nodeRest caText) ['(', '('] = true
    ∧ startsWith (nodeRest caText) ['('] = true
    ∧ (⟨['(', '('], [')', ')']⟩ : Pair) ∈ pairs
    ∧ (⟨['('], [')']⟩ : Pair) ∈ pairs
    ∧ parseNodeLine caText = some ⟨['A'], ['(', 'x'], ['('], [')']⟩ := by
  decide

/-- **C6 amended.** The catalog is scanned longest open token first, so
whenever a pair *fully* matches the remainder (open token a prefix and close
token a suffix), the chosen pair's open token is at least as long as that
pair's; in particular `id((Label))` parses with the circle pair, not the
round-edge pair. -/
theorem pair_precedence_amended :
    (∀ (line : Str) (np : NodeParse), parseNodeLine line = some np →
        ∀ p ∈ pairs, startsWith (nodeRest line) p.po = true →
          endsWith (nodeRest line) p.pc = true → p.po.length ≤ np.po.length)
    ∧ parseNodeLine "id((Label))".data
        = some ⟨['i', 'd'], ['L', 'a', 'b', 'e', 'l'], ['(', '('], [')', ')']⟩ := by
  refine ⟨?_, by decide⟩
  intro line np h p hp hs he
  have hsorted : List.Pairwise (fun p q => q.po.length ≤ p.po.length) sortedPairs := by
    decide
  have hmem : p ∈ sortedPairs := by
    have : ∀ q ∈ pairs, q ∈ sortedPairs := by decide
    exact this p hp
  exact findPair_longest np.id (nodeRest line) sortedPairs np hsorted
    (parseNodeLine_findPair h) p hmem hs he

/-- Witness for the amended C6 at a concrete input. -/
theorem pair_precedence_amended_witness :
    (⟨['('], [')']⟩ : Pair).po.length
      ≤ (⟨['i', 'd'], ['L', 'a', 'b', 'e', 'l'], ['(', '('], [')', ')']⟩ : NodeParse).po.length :=
  pair_precedence_amended.1 ("id((Label))".data) _ (by decide) _ (by decide)
    (by decide) (by decide)

/-! ## C3: node registry vs container lists -/

/-- The node declaration a main-loop line holds, if any (line-local: the
classification does not depend on parser state). -/
def declOf (line : Str) : Option NodeParse :=
  match classify line with
  | .nodeL np => some np
  | _ => none

/-- The lines processed by the main loop of `parseDiagram`. -/
def mainLines (text : Str) : List Str :=
  (findDirective (takeFrontMatter (splitLines text)).2).2

/-- All node declarations of the input, in source order. -/
def nodeDecls (text : Str) : List NodeParse := (mainLines text).filterMap declOf

def npNode (np : NodeParse) : Node := ⟨np.id, np.label, np.po, np.pc⟩

/-- All container entries of the model: subgraph member lists then the
top-level list. -/
def containerNodes (m : Model) : List Node :=
  m.subgraphs.flatMap (·.nodes) ++ m.topNodes

/-- The container entries of an intermediate parse state. -/
def containerNodesSt (st : PState) : List Node :=
  (st.sgsDone ++ st.cur.toList).flatMap (·.nodes) ++ st.topNodes

theorem declOf_eq_some {line : Str} {np : NodeParse} (h : declOf line = some np) :
    classify line = .nodeL np := by
  unfold declOf at h
  cases hc : classify line <;> rw [hc] at h <;> first
    | (cases h; rfl)
    | exact absurd h (by simp)

theorem step_nodesMap_decl {st : PState} {line : Str} {np : NodeParse}
    (h : classify line = .nodeL np) :
    (step st line).nodesMap
      = msetStr st.nodesMap np.id ⟨np.id, np.label, np.po, np.pc, st.cur.map (·.id)⟩ := by
  unfold step
  rw [h]
  cases st.cur <;> rfl

theorem step_nodesMap_nodecl {st : PState} {line : Str} (h : declOf line = none) :
    (step st line).nodesMap = st.nodesMap := by
  unfold declOf at h
  unfold step
  cases hc : classify line <;> try rfl
  case classAssignL i c =>
    dsimp only
    split <;> rfl
  case nodeL np =>
    rw [hc] at h
    exact Option.noConfusion h

theorem step_containers_decl {st : PState} {line : Str} {np : NodeParse}
    (h : classify line = .nodeL np) :
    (containerNodesSt (step st line)).Perm (containerNodesSt st ++ [npNode np]) := by
  unfold step
  rw [h]
  cases hc : st.cur with
  | none =>
      apply List.Perm.of_eq
      simp [containerNodesSt, hc, npNode, List.append_assoc]
  | some sg =>
      simp only [containerNodesSt, hc, npNode, Option.toList_some, List.flatMap_append,
        List.flatMap_cons, List.flatMap_nil, List.append_nil, List.append_assoc,
        List.singleton_append]
      exact List.Perm.append_left _ (List.Perm.append_left _
        (List.perm_append_singleton _ _).symm)

theorem step_containers_nodecl {st : PState} {line : Str} (h : declOf line = none) :
    containerNodesSt (step st line) = containerNodesSt st := by
  unfold declOf at h
  unfold step
  cases hc : classify line <;> try rfl
  case classAssignL i c =>
    dsimp only
    split <;> rfl
  case headerL r =>
    simp [containerNodesSt, List.flatMap_append, List.append_assoc]
  case endL =>
    simp [containerNodesSt, List.flatMap_append, List.append_assoc]
  case nodeL np =>
    rw [hc] at h
    exact Option.noConfusion h

theorem foldl_nodesMap_proj (ls : List Str) :
    ∀ (st : PState) (id : Str),
      (mget ((ls.foldl step st).nodesMap) id).map (fun r => (r.label, r.po, r.pc))
        = match (ls.filterMap declOf).reverse.find? (fun np => np.id = id) with
          | some np => some (np.label, np.po, np.pc)
          | none => (mget st.nodesMap id).map (fun r => (r.label, r.po, r.pc)) := by
  induction ls with
  | nil => intro st id; simp
  | cons l ls ih =>
      intro st id
      simp only [List.foldl_cons, List.filterMap_cons]
      cases hd : declOf l with
      | none =>
          rw [ih]
          cases hf : (ls.filterMap declOf).reverse.find? (fun np => np.id = id) with
          | some np => rfl
          | none => rw [step_nodesMap_nodecl hd]
      | some np =>
          rw [ih]
          simp only [List.reverse_cons, List.find?_append]
          cases hf : (ls.filterMap declOf).reverse.find? (fun np => np.id = id) with
          | some np' => rfl
          | none =>
              simp only [Option.none_orElse]
              rw [step_nodesMap_decl (declOf_eq_some hd), mget_msetStr]
              by_cases hid : np.id = id
              · simp [List.find?, hid]
              · have hid2 : ¬ id = np.id := fun hh => hid hh.symm
                simp [List.find?, hid, hid2]

theorem foldl_containers (ls : List Str) :
    ∀ st : PState,
      (containerNodesSt (ls.foldl step st)).Perm
        (containerNodesSt st ++ (ls.filterMap declOf).map npNode) := by
  induction ls with
  | nil => intro st; simp
  | cons l ls ih =>
      intro st
      cases hd : declOf l with
      | none =>
          simp only [List.foldl_cons, List.filterMap_cons, hd]
          have hih := ih (step st l)
          rwa [step_containers_nodecl hd] at hih
      | some np =>
          simp only [List.foldl_cons, List.filterMap_cons, hd]
          have h1 := ih (step st l)
          have h2 : (containerNodesSt (step st l) ++ (ls.filterMap declOf).map npNode).Perm
              ((containerNodesSt st ++ [npNode np]) ++ (ls.filterMap declOf).map npNode) :=
            List.Perm.append_right _ (step_containers_decl (declOf_eq_some hd))
          refine h1.trans (h2.trans (List.Perm.of_eq ?_))
          simp [List.append_assoc]

/-- The sequence of `nodesMap.set` payloads of the main loop (app.js line
178): one full record per node declaration, carrying the label, the
delimiters and the container (`subgraphId: current?.id`) open at that
declaration. -/
def regWrites : PState → List Str → List RegNode
  | _, [] => []
  | st, l :: ls =>
      (match declOf l with
       | some np => [⟨np.id, np.label, np.po, np.pc, st.cur.map (·.id)⟩]
       | none => []) ++ regWrites (step st l) ls

theorem foldl_nodesMap_full (ls : List Str) :
    ∀ (st : PState) (id : Str),
      mget ((ls.foldl step st).nodesMap) id
        = match (regWrites st ls).reverse.find? (fun r => r.id = id) with
          | some r => some r
          | none => mget st.nodesMap id := by
  induction ls with
  | nil => intro st id; simp [regWrites]
  | cons l ls ih =>
      intro st id
      simp only [List.foldl_cons, regWrites]
      cases hd : declOf l with
      | none =>
          simp only [hd, List.nil_append]
          rw [ih]
          cases hf : (regWrites (step st l) ls).reverse.find? (fun r => r.id = id) with
          | some r => rfl
          | none => rw [step_nodesMap_nodecl hd]
      | some np =>
          simp only [hd, List.reverse_append, List.reverse_cons, List.reverse_nil,
            List.nil_append, List.find?_append]
          rw [ih]
          cases hf : (regWrites (step st l) ls).reverse.find? (fun r => r.id = id) with
          | some r => rfl
          | none =>
              simp only [Option.none_orElse]
              rw [step_nodesMap_decl (declOf_eq_some hd), mget_msetStr]
              by_cases hid : np.id = id
              · simp [List.find?, hid]
              · have hid2 : ¬ id = np.id := fun hh => hid hh.symm
                simp [List.find?, hid, hid2]

/-- The id `A` declared twice at top level. -/
def dupText : Str := "flowchart TD\nA[x]\nA[y]".data

/-- **C3 counterexample.** With `A` declared twice, the top-level container
holds *two* entries for `A` (one per declaration), not a single
first-occurrence position. -/
theorem reg_container_cex :
    (parseDiagram dupText).topNodes
      = [⟨['A'], ['x'], ['['], [']']⟩, ⟨['A'], ['y'], ['['], [']']⟩]
    ∧ ((parseDiagram dupText).topNodes.filter (fun n => n.id == ['A'])).length = 2 := by
  decide

/-- **C3 amended.** The registry entry of every id is the *entire* record of
the id's *last* declaration — label, delimiters, and container (the
`subgraphId` open at that declaration, or none at top level): every
declaration overwrites the registry entry with a full record (`regWrites` is
the write sequence of `nodesMap.set`, app.js line 178).  But the container
lists receive one entry per declaration, so a re-declared id occupies one
position *per declaration* rather than a single first-occurrence slot.
Concretely for `A[x]; A[y]`: the registry maps `A` to the full `y` record
(container `none`) while the top-level list has both entries. -/
theorem reg_lastwins_containers_per_decl :
    (∀ (text : Str) (id : Str),
        mget (parseDiagram text).nodesMap id
          = (regWrites initPState (mainLines text)).reverse.find?
              (fun r => r.id = id))
    ∧ (∀ text : Str,
        (containerNodes (parseDiagram text)).Perm ((nodeDecls text).map npNode))
    ∧ mget (parseDiagram dupText).nodesMap ['A']
        = some ⟨['A'], ['y'], ['['], [']'], none⟩ := by
  refine ⟨?_, ?_, by decide⟩
  · intro text id
    have h := foldl_nodesMap_full (mainLines text) initPState id
    have hm : (parseDiagram text).nodesMap
        = ((mainLines text).foldl step initPState).nodesMap := rfl
    rw [hm, h]
    cases hf : (regWrites initPState (mainLines text)).reverse.find?
        (fun r => r.id = id) with
    | some r => rfl
    | none => rfl
  · intro text
    have h := foldl_containers (mainLines text) initPState
    have hm : containerNodes (parseDiagram text)
        = containerNodesSt ((mainLines text).foldl step initPState) := rfl
    rw [hm]
    simpa [containerNodesSt, initPState] using h

/-! ## C8: dangling edge endpoints -/

theorem takeWhile_all_append {p : Char → Bool} {xs : Str} (ys : Str)
    (h : ∀ x ∈ xs, p x = true) :
    (xs ++ ys).takeWhile p = xs ++ ys.takeWhile p := by
  induction xs with
  | nil => simp
  | cons a xs ih =>
      simp only [List.cons_append, List.takeWhile_cons, h a (by simp), if_true]
      rw [ih (fun x hx => h x (by simp [hx]))]

theorem dropWhile_all_append {p : Char → Bool} {xs : Str} (ys : Str)
    (h : ∀ x ∈ xs, p x = true) :
    (xs ++ ys).dropWhile p = ys.dropWhile p := by
  induction xs with
  | nil => simp
  | cons a xs ih =>
      simp only [List.cons_append, List.dropWhile_cons, h a (by simp), if_true]
      exact ih (fun x hx => h x (by simp [hx]))

theorem trimL_ws_append {ind : Str} (s : Str) (h : ∀ c ∈ ind, wsChar c = true) :
    trimL (ind ++ s) = trimL s :=
  dropWhile_all_append s h

theorem trimL_cons_nonws {c : Char} (s : Str) (h : wsChar c = false) :
    trimL (c :: s) = c :: s := by
  simp [trimL, List.dropWhile_cons, h]

theorem trimR_eq_rdropWhile (s : Str) :
    trimR s = List.rdropWhile (fun c => wsChar c) s := rfl

theorem trimR_eq_self {s : Str} {c : Char}
    (hl : s.getLast? = some c) (h : wsChar c = false) : trimR s = s := by
  rw [trimR_eq_rdropWhile, List.rdropWhile_eq_self_iff]
  intro hne
  rw [List.getLast?_eq_getLast s hne] at hl
  cases hl
  simp [h]

theorem trim_eq_self {s : Str} {c d : Char}
    (hh : s.head? = some c) (hc : wsChar c = false)
    (hl : s.getLast? = some d) (hd : wsChar d = false) : trim s = s := by
  unfold trim
  cases s with
  | nil => simp at hh
  | cons a as =>
      cases hh
      rw [trimL_cons_nonws _ hc]
      exact trimR_eq_self hl hd

/-- `%%` occurs in `s` (as adjacent characters). -/
def hasPP : Str → Bool
  | [] => false
  | [_] => false
  | a :: b :: r => (a = '%' && b = '%') || hasPP (b :: r)

theorem takeBeforePP_eq_self {s : Str} (h : hasPP s = false) : takeBeforePP s = s := by
  induction s with
  | nil => rfl
  | cons a r ih =>
      cases r with
      | nil => rfl
      | cons b r2 =>
          simp only [hasPP, Bool.or_eq_false_iff] at h
          simp [takeBeforePP, h.1, ih h.2]

theorem hasPP_takeBeforePP (s : Str) : hasPP (takeBeforePP s) = false := by
  induction s with
  | nil => rfl
  | cons a r ih =>
      cases r with
      | nil => rfl
      | cons b r2 =>
          simp only [takeBeforePP]
          by_cases hab : (a = '%' && b = '%') = true
          · rw [if_pos hab]
            rfl
          · rw [if_neg hab]
            cases hr : takeBeforePP (b :: r2) with
            | nil => rfl
            | cons x xs =>
                have hx : x = b := by
                  cases r2 with
                  | nil => cases hr; rfl
                  | cons c r3 =>
                      simp only [takeBeforePP] at hr
                      by_cases hbc : (b = '%' && c = '%') = true
                      · rw [if_pos hbc] at hr; exact absurd hr (by simp)
                      · rw [if_neg hbc] at hr
                        cases hr; rfl
                rw [hr] at ih
                simp only [hasPP, Bool.or_eq_false_iff]
                refine ⟨?_, ih⟩
                subst hx
                simpa using hab

theorem hasPP_append_right {A B : Str} (h : hasPP (A ++ B) = false) :
    hasPP B = false := by
  induction A with
  | nil => simpa using h
  | cons a A ih =>
      apply ih
      cases hA : A ++ B with
      | nil => simp [hA, hasPP]
      | cons x xs =>
          rw [List.cons_append, hA] at h
          simp only [hasPP, Bool.or_eq_false_iff] at h
          exact h.2

theorem hasPP_append_left {A B : Str} (h : hasPP (A ++ B) = false) :
    hasPP A = false := by
  induction A with
  | nil => rfl
  | cons a A ih =>
      cases A with
      | nil => rfl
      | cons b A2 =>
          simp only [List.cons_append] at h
          simp only [hasPP, Bool.or_eq_false_iff] at h ⊢
          exact ⟨h.1, ih h.2⟩

theorem hasPP_append_false {A B : Str} (hA : hasPP A = false) (hB : hasPP B = false)
    (hj : ∀ a b, A.getLast? = some a → B.head? = some b → ¬(a = '%' ∧ b = '%')) :
    hasPP (A ++ B) = false := by
  induction A with
  | nil => simpa using hB
  | cons a A ih =>
      cases A with
      | nil =>
          cases B with
          | nil => rfl
          | cons b B2 =>
              simp only [List.singleton_append, hasPP, Bool.or_eq_false_iff]
              constructor
              · have := hj a b (by rfl) (by rfl)
                cases hab : (a = '%' && b = '%')
                · rfl
                · exfalso
                  apply this
                  simpa using hab
              · exact hB
      | cons a2 A2 =>
          simp only [hasPP, Bool.or_eq_false_iff] at hA
          simp only [List.cons_append, hasPP, Bool.or_eq_false_iff]
          refine ⟨hA.1, ?_⟩
          have hA2 := ih hA.2 (fun x y hx hy => hj x y (by
            rw [List.getLast?_cons]
            cases hgl : (a2 :: A2).getLast?
            · simp at hgl
            · rw [hgl] at hx
              simpa using hx) hy)
          simpa using hA2

theorem splitLines_ne_nil (s : Str) : splitLines s ≠ [] := by
  cases s with
  | nil => simp [splitLines]
  | cons c cs =>
      simp only [splitLines]
      cases splitLines cs with
      | nil => simp
      | cons h t => by_cases hc : c = '\n' <;> simp [hc]

theorem splitLines_no_nl (s : Str) : ∀ l ∈ splitLines s, '\n' ∉ l := by
  induction s with
  | nil =>
      intro l hl
      simp only [splitLines, List.mem_singleton] at hl
      subst hl; simp
  | cons c cs ih =>
      intro l hl
      simp only [splitLines] at hl
      cases hsp : splitLines cs with
      | nil => exact absurd hsp (splitLines_ne_nil cs)
      | cons h t =>
          rw [hsp] at hl
          dsimp only at hl
          by_cases hc : c = '\n'
          · rw [if_pos hc] at hl
            rcases List.mem_cons.mp hl with hl | hl
            · subst hl; simp
            · exact ih l (by rw [hsp]; exact hl)
          · rw [if_neg hc] at hl
            rcases List.mem_cons.mp hl with hl | hl
            · subst hl
              intro hmem
              rcases List.mem_cons.mp hmem with hmem | hmem
              · exact hc hmem.symm
              · exact ih h (by rw [hsp]; simp) hmem
            · exact ih l (by rw [hsp]; simp [hl])

theorem splitLines_single {l : Str} (h : '\n' ∉ l) : splitLines l = [l] := by
  induction l with
  | nil => rfl
  | cons c cs ih =>
      have hc : ¬ c = '\n' := fun hh => h (by simp [hh])
      have hcs := ih (fun hm => h (by simp [hm]))
      simp only [splitLines, hcs]
      simp [hc]

theorem splitLines_append_nl {l : Str} (s : Str) (h : '\n' ∉ l) :
    splitLines (l ++ '\n' :: s) = l :: splitLines s := by
  induction l with
  | nil =>
      simp only [List.nil_append, splitLines]
      cases hsp : splitLines s with
      | nil => exact absurd hsp (splitLines_ne_nil s)
      | cons a t => simp
  | cons c cs ih =>
      have hc : ¬ c = '\n' := fun hh => h (by simp [hh])
      have hcs := ih (fun hm => h (by simp [hm]))
      simp only [List.cons_append, splitLines, hcs]
      simp only [hc, if_false]
      simp only [List.append_eq]
      rw [hcs]

theorem splitLines_joinLines (ls : List Str) (hne : ls ≠ [])
    (hnl : ∀ l ∈ ls, '\n' ∉ l) : splitLines (joinLines ls) = ls := by
  induction ls with
  | nil => exact absurd rfl hne
  | cons l rest ih =>
      cases rest with
      | nil => exact splitLines_single (hnl l (by simp))
      | cons l2 rest2 =>
          simp only [joinLines]
          rw [splitLines_append_nl _ (hnl l (by simp))]
          rw [ih (by simp) (fun x hx => hnl x (by simp [hx]))]

/-! ### Character-class facts -/

theorem ws_elim {c : Char} (h : wsChar c = true) :
    c = ' ' ∨ c = '\t' ∨ c = '\n' ∨ c = '\r' ∨ c = '\x0b' ∨ c = '\x0c' := by
  simp [wsChar] at h
  tauto

theorem op_elim {c : Char} (h : opChar c = true) :
    c = '<' ∨ c = '>' ∨ c = '=' ∨ c = '.' ∨ c = '-' := by
  simp [opChar] at h
  tauto

theorem letter_not_ws {c : Char} (h : letterChar c = true) : wsChar c = false := by
  cases hw : wsChar c
  · rfl
  · rcases ws_elim hw with rfl | rfl | rfl | rfl | rfl | rfl <;> exact absurd h (by decide)

theorem wordHyphen_not_ws {c : Char} (h : wordHyphen c = true) : wsChar c = false := by
  cases hw : wsChar c
  · rfl
  · rcases ws_elim hw with rfl | rfl | rfl | rfl | rfl | rfl <;> exact absurd h (by decide)

theorem wordHyphen_not_pct {c : Char} (h : wordHyphen c = true) : ¬ c = '%' :=
  fun hh => by subst hh; exact absurd h (by decide)

theorem wordHyphen_not_nl {c : Char} (h : wordHyphen c = true) : ¬ c = '\n' :=
  fun hh => by subst hh; exact absurd h (by decide)

theorem opChar_facts {c : Char} (h : opChar c = true) :
    wsChar c = false ∧ letterChar c = false ∧ ¬ c = '%' := by
  rcases op_elim h with rfl | rfl | rfl | rfl | rfl <;> refine ⟨rfl, rfl, by decide⟩

theorem wordChar_not_op {c : Char} (h : wordChar c = true) : opChar c = false := by
  cases ho : opChar c
  · rfl
  · rcases op_elim ho with rfl | rfl | rfl | rfl | rfl <;> exact absurd h (by decide)

theorem letter_not_op {c : Char} (h : letterChar c = true) : opChar c = false := by
  cases ho : opChar c
  · rfl
  · rcases op_elim ho with rfl | rfl | rfl | rfl | rfl <;> exact absurd h (by decide)

theorem letter_wordHyphen {c : Char} (h : letterChar c = true) : wordHyphen c = true := by
  simp [wordHyphen, wordChar, h]

theorem letter_ne {c d : Char} (h : letterChar c = true) (hd : letterChar d = false) :
    ¬ c = d := fun hh => by subst hh; rw [h] at hd; cases hd

/-! ### Token facts -/

/-- A string of the shape `[A-Za-z][\w-]*`. -/
def IsTok (s : Str) : Prop :=
  ∃ c cs, s = c :: cs ∧ letterChar c = true ∧ (∀ d ∈ cs, wordHyphen d = true)

theorem IsTok.all_wordHyphen {s : Str} (h : IsTok s) : ∀ d ∈ s, wordHyphen d = true := by
  obtain ⟨c, cs, rfl, hc, hcs⟩ := h
  intro d hd
  rcases List.mem_cons.mp hd with rfl | hd
  · exact letter_wordHyphen hc
  · exact hcs d hd

theorem IsTok.ne_nil {s : Str} (h : IsTok s) : s ≠ [] := by
  obtain ⟨c, cs, rfl, -, -⟩ := h
  simp

theorem dropWhile_head_false {p : Char → Bool} {l : Str} :
    ∀ {c : Char} {cs : Str}, l.dropWhile p = c :: cs → p c = false := by
  induction l with
  | nil => intro c cs h; simp at h
  | cons a as ih =>
      intro c cs h
      by_cases ha : p a
      · rw [List.dropWhile_cons_of_pos ha] at h
        exact ih h
      · rw [List.dropWhile_cons_of_neg ha] at h
        cases h
        simpa using ha

theorem matchToken_tok {t : Str} (rest : Str) (ht : IsTok t)
    (hrest : rest = [] ∨ ∃ c cs, rest = c :: cs ∧ wordHyphen c = false) :
    matchToken (t ++ rest) = some (t, rest) := by
  obtain ⟨c, cs, rfl, hc, hcs⟩ := ht
  simp only [List.cons_append, matchToken, hc, if_true]
  rw [takeWhile_all_append rest hcs, dropWhile_all_append rest hcs]
  rcases hrest with rfl | ⟨d, ds, rfl, hd⟩
  · simp
  · rw [List.takeWhile_cons_of_neg (by simp [hd]), List.dropWhile_cons_of_neg (by simp [hd])]
    simp

theorem matchToken_structure {s t r : Str} (h : matchToken s = some (t, r)) :
    IsTok t ∧ s = t ++ r
    ∧ (r = [] ∨ ∃ c cs, r = c :: cs ∧ wordHyphen c = false) := by
  cases s with
  | nil => simp [matchToken] at h
  | cons c cs =>
      simp only [matchToken] at h
      by_cases hc : letterChar c
      · rw [if_pos hc] at h
        have hp := Option.some.inj h
        have ht : t = c :: cs.takeWhile (fun d => wordHyphen d) :=
          (congrArg Prod.fst hp).symm
        have hr : r = cs.dropWhile (fun d => wordHyphen d) :=
          (congrArg Prod.snd hp).symm
        subst ht
        subst hr
        refine ⟨⟨c, _, rfl, hc, fun d hd => List.mem_takeWhile_imp hd⟩, ?_, ?_⟩
        · simp [List.takeWhile_append_dropWhile]
        · cases hdrop : cs.dropWhile (fun d => wordHyphen d) with
          | nil => exact Or.inl rfl
          | cons d ds => exact Or.inr ⟨d, ds, rfl, dropWhile_head_false hdrop⟩
      · rw [if_neg hc] at h
        exact absurd h (by simp)

/-! ### Classification is insensitive to leading whitespace -/

theorem classify_ws_append {ind : Str} (hind : ∀ c ∈ ind, wsChar c = true) (s : Str) :
    classify (ind ++ s) = classify s := by
  have htl : trimL (ind ++ s) = trimL s := trimL_ws_append s hind
  have htr : trim (ind ++ s) = trim s := by unfold trim; rw [htl]
  unfold classify commentTest classDefTest classAssignMatch headerMatch endTest
    parseNodeLine edgeMatch
  rw [htl, htr]

/-- The edge a main-loop line contributes, if any. -/
def edgeOf (line : Str) : Option Edge :=
  match classify line with
  | .edgeL a o b => some ⟨a, o, b⟩
  | _ => none

theorem step_edges (st : PState) (line : Str) :
    (step st line).edges = st.edges ++ (edgeOf line).toList := by
  unfold step edgeOf
  cases hc : classify line
  case classAssignL i c =>
    dsimp only
    split <;> simp
  case nodeL np => cases st.cur <;> simp
  all_goals simp

theorem foldl_edges (ls : List Str) :
    ∀ st : PState, (ls.foldl step st).edges = st.edges ++ ls.filterMap edgeOf := by
  induction ls with
  | nil => intro st; simp
  | cons l ls ih =>
      intro st
      simp only [List.foldl_cons, List.filterMap_cons]
      rw [ih, step_edges]
      cases he : edgeOf l <;> simp

theorem mem_keys_msetStr {α : Type} (m : List (Str × α)) (k : Str) (v : α) (x : Str) :
    x ∈ (msetStr m k v).map (·.1) ↔ x ∈ m.map (·.1) ∨ x = k := by
  induction m with
  | nil => simp [msetStr]
  | cons p rest ih =>
      obtain ⟨k0, v0⟩ := p
      simp only [msetStr]
      by_cases h0 : k0 = k
      · rw [if_pos h0]
        simp only [List.map_cons, List.mem_cons]
        rw [h0]
        tauto
      · rw [if_neg h0]
        simp only [List.map_cons, List.mem_cons]
        rw [ih]
        tauto

theorem step_keys (st : PState) (line : Str) (id : Str) :
    id ∈ ((step st line).nodesMap).map (·.1)
      ↔ id ∈ st.nodesMap.map (·.1) ∨ id ∈ ((declOf line).map (·.id)).toList := by
  cases hd : declOf line with
  | none => rw [step_nodesMap_nodecl hd]; simp
  | some np =>
      rw [step_nodesMap_decl (declOf_eq_some hd), mem_keys_msetStr]
      simp

theorem foldl_keys (ls : List Str) :
    ∀ (st : PState) (id : Str),
      id ∈ ((ls.foldl step st).nodesMap).map (·.1)
        ↔ id ∈ st.nodesMap.map (·.1)
          ∨ id ∈ ls.filterMap (fun l => (declOf l).map (·.id)) := by
  induction ls with
  | nil => intro st id; simp
  | cons l ls ih =>
      intro st id
      simp only [List.foldl_cons, List.filterMap_cons]
      rw [ih, step_keys]
      cases hd : declOf l <;> simp <;> tauto

/-! ### `ciStarts` decomposition -/

theorem ciStarts_length {pat s : Str} (h : ciStarts pat s = true) :
    pat.length ≤ s.length := by
  induction pat generalizing s with
  | nil => simp
  | cons p ps ih =>
      cases s with
      | nil => simp [ciStarts] at h
      | cons c cs =>
          simp only [ciStarts, Bool.and_eq_true] at h
          simpa using ih h.2

theorem ciStarts_append_long {pat A : Str} (B : Str) (h : pat.length ≤ A.length) :
    ciStarts pat (A ++ B) = ciStarts pat A := by
  induction pat generalizing A with
  | nil => simp [ciStarts]
  | cons p ps ih =>
      cases A with
      | nil => simp at h
      | cons a as =>
          simp only [List.cons_append, ciStarts, List.append_eq]
          rw [ih (by simpa using h)]

theorem ciStarts_append_split {pat A : Str} (B : Str) (h : A.length < pat.length) :
    ciStarts pat (A ++ B)
      = (ciStarts (pat.take A.length) A && ciStarts (pat.drop A.length) B) := by
  induction pat generalizing A with
  | nil => simp at h
  | cons p ps ih =>
      cases A with
      | nil => simp [ciStarts]
      | cons a as =>
          simp only [List.cons_append, ciStarts, List.length_cons, List.take_succ_cons,
            List.drop_succ_cons, List.append_eq]
          rw [ih (by simpa using h)]
          simp [ciStarts, Bool.and_assoc]

theorem ciStarts_exact {pat s : Str} (h : ciStarts pat s = true)
    (hl : s.length = pat.length) : s.map Char.toLower = pat.map Char.toLower := by
  induction pat generalizing s with
  | nil =>
      cases s with
      | nil => rfl
      | cons c cs => simp at hl
  | cons p ps ih =>
      cases s with
      | nil => simp at hl
      | cons c cs =>
          simp only [ciStarts, Bool.and_eq_true] at h
          simp only [List.map_cons]
          have hc : c.toLower = p.toLower := by
            have := h.1
            simpa [ciEq] using this
          rw [hc, ih h.2 (by simpa using hl)]

/-! ### Well-formedness invariants established by `parseDiagram` -/

/-- An id that the subgraph-header regex would match when followed by a
non-word character (the `\b` case split at position 8). -/
def SubLike (id : Str) : Prop :=
  ciStarts litSubgraph id = true ∧ (id.drop 8 = [] ∨ ∃ t, id.drop 8 = '-' :: t)

/-- Invariant of a parsed container node. -/
structure NodeWF (n : Node) : Prop where
  tok : IsTok n.id
  nsub : ¬ SubLike n.id
  pair : (⟨n.po, n.pc⟩ : Pair) ∈ sortedPairs
  lblPP : hasPP n.label = false
  lblNL : '\n' ∉ n.label

/-- Invariant of a parsed edge. -/
structure EdgeWF (e : Edge) : Prop where
  ta : IsTok e.a
  tb : IsTok e.b
  opNe : e.op ≠ []
  opAll : ∀ c ∈ e.op, opChar c = true
  nsub : ¬ SubLike e.a

/-- Invariant of a stored (trimmed) subgraph header line. -/
structure HeaderWF (h : Str) : Prop where
  starts : ciStarts litSubgraph h = true
  bdry : h.drop 8 = [] ∨ ∃ c t, h.drop 8 = c :: t ∧ wordChar c = false
  nl : '\n' ∉ h

/-- Invariant of a stored (trimmed) classDef line. -/
structure ClassDefWF (cd : Str) : Prop where
  starts : ciStarts litClassDef cd = true
  wsAfter : ∃ c t, cd.drop 8 = c :: t ∧ wsChar c = true
  letterAfter : ∃ d t, trimL (cd.drop 8) = d :: t ∧ letterChar d = true
  nl : '\n' ∉ cd

/-- Invariant of a parsed class assignment. -/
structure CaWF (ca : ClassAssign) : Prop where
  ne : ca.ids ≠ []
  ids : ∀ i ∈ ca.ids, i ≠ [] ∧ ∀ c ∈ i, wsChar c = false ∧ ¬ c = ',' ∧ ¬ c = '\n'
  cls : IsTok ca.className

/-- Invariant of the whole parsed model. -/
structure ModelWF (m : Model) : Prop where
  fmShape :
    m.headerLines = []
    ∨ (∃ h0 mid cl, m.headerLines = h0 :: mid ++ [cl] ∧ trim h0 = fmDashes
        ∧ trim cl = fmDashes ∧ (∀ l ∈ mid, ¬ trim l = fmDashes)
        ∧ (∀ l ∈ m.headerLines, '\n' ∉ l))
    ∨ (∃ h0 rest, m.headerLines = h0 :: rest ∧ trim h0 = fmDashes
        ∧ (∀ l ∈ rest, ¬ trim l = fmDashes) ∧ (∀ l ∈ m.headerLines, '\n' ∉ l)
        ∧ m.flowchartLine = [])
  dir : m.flowchartLine = []
    ∨ (flowchartTest m.flowchartLine = true ∧ trim m.flowchartLine = m.flowchartLine
        ∧ '\n' ∉ m.flowchartLine)
  flowEmpty : m.flowchartLine = [] →
    m.subgraphs = [] ∧ m.topNodes = [] ∧ m.nodesMap = [] ∧ m.edges = []
    ∧ m.classDefs = [] ∧ m.classAssigns = []
  sgs : ∀ sg ∈ m.subgraphs, HeaderWF sg.headerLine ∧ ∀ n ∈ sg.nodes, NodeWF n
  tops : ∀ n ∈ m.topNodes, NodeWF n
  edges : ∀ e ∈ m.edges, EdgeWF e
  cds : ∀ cd ∈ m.classDefs, ClassDefWF cd
  cas : ∀ ca ∈ m.classAssigns, CaWF ca
  keys : ∀ id ∈ m.nodesMap.map (·.1), IsTok id

/-! ### More trim lemmas -/

theorem dropWhile_append_full {p : Char → Bool} (A B : Str) :
    (A ++ B).dropWhile p
      = if A.dropWhile p = [] then B.dropWhile p else A.dropWhile p ++ B := by
  induction A with
  | nil => simp
  | cons a A ih =>
      by_cases ha : p a
      · simp only [List.cons_append, List.dropWhile_cons_of_pos ha,
          List.dropWhile_cons_of_pos ha]
        exact ih
      · simp only [List.cons_append, List.dropWhile_cons_of_neg ha,
          List.dropWhile_cons_of_neg ha]
        simp

theorem trimR_append (A B : Str) :
    trimR (A ++ B) = if trimR B = [] then trimR A else A ++ trimR B := by
  unfold trimR
  rw [List.reverse_append, dropWhile_append_full]
  by_cases h : B.reverse.dropWhile (fun c => wsChar c) = []
  · simp [h]
  · rw [if_neg h, if_neg (by simpa using h)]
    simp

theorem trimR_nil : trimR [] = [] := rfl

theorem trimR_singleton (c : Char) :
    trimR [c] = if wsChar c then [] else [c] := by
  unfold trimR
  by_cases h : wsChar c <;> simp [h]

theorem trimR_cons (c : Char) (s : Str) :
    trimR (c :: s) = if trimR s = [] then (if wsChar c then [] else [c]) else c :: trimR s := by
  have := trimR_append [c] s
  simpa [trimR_singleton] using this

theorem trimR_eq_nil_iff {s : Str} : trimR s = [] ↔ ∀ c ∈ s, wsChar c = true := by
  rw [trimR_eq_rdropWhile, List.rdropWhile_eq_nil_iff]

theorem trimL_eq_nil_iff {s : Str} : trimL s = [] ↔ ∀ c ∈ s, wsChar c = true := by
  unfold trimL
  rw [List.dropWhile_eq_nil_iff]

theorem trimL_trimR_comm (s : Str) : trimL (trimR s) = trimR (trimL s) := by
  induction s with
  | nil => rfl
  | cons c s ih =>
      by_cases hc : wsChar c
      · rw [trimR_cons]
        by_cases hs : trimR s = []
        · rw [if_pos hs, if_pos hc]
          have hall : ∀ d ∈ s, wsChar d = true := trimR_eq_nil_iff.mp hs
          have : trimL (c :: s) = [] := trimL_eq_nil_iff.mpr (by
            intro d hd
            rcases List.mem_cons.mp hd with rfl | hd
            · exact hc
            · exact hall d hd)
          rw [this]
          rfl
        · rw [if_neg hs]
          unfold trimL
          rw [List.dropWhile_cons_of_pos (by simpa using hc),
            List.dropWhile_cons_of_pos (by simpa using hc)]
          exact ih
      · have hcf : wsChar c = false := by simpa using hc
        have hR : trimR (c :: s) = if trimR s = [] then [c] else c :: trimR s := by
          rw [trimR_cons]
          by_cases hs : trimR s = [] <;> simp [hs, hcf]
        rw [trimL_cons_nonws s hcf, hR]
        by_cases hs : trimR s = []
        · simp only [hs, if_true]
          exact trimL_cons_nonws [] hcf
        · simp only [hs, if_false]
          exact trimL_cons_nonws _ hcf

theorem trimR_ne_nil_of_mem {s : Str} {c : Char} (hc : c ∈ s) (h : wsChar c = false) :
    trimR s ≠ [] := by
  intro hn
  have := trimR_eq_nil_iff.mp hn c hc
  rw [h] at this
  cases this

theorem prefix_head_eq {p l : Str} (h : p <+: l) (hne : p ≠ []) :
    p.head? = l.head? := by
  obtain ⟨t, rfl⟩ := h
  cases p with
  | nil => exact absurd rfl hne
  | cons a as => rfl

theorem trimR_head (s : Str) (h : trimR s ≠ []) : (trimR s).head? = s.head? := by
  have hpre : trimR s <+: s := by
    rw [trimR_eq_rdropWhile]
    exact List.rdropWhile_prefix _ _
  exact prefix_head_eq hpre h

theorem trimL_idem (s : Str) : trimL (trimL s) = trimL s := by
  unfold trimL
  cases h : s.dropWhile (fun c => wsChar c) with
  | nil => rfl
  | cons c cs =>
      rw [List.dropWhile_cons_of_neg]
      simp [dropWhile_head_false h]

theorem trimR_idem (s : Str) : trimR (trimR s) = trimR s := by
  by_cases hn : trimR s = []
  · rw [hn]
    rfl
  · have hlast : wsChar ((trimR s).getLast hn) = false := by
      have := List.rdropWhile_last_not (fun c => wsChar c) s (by
        rw [← trimR_eq_rdropWhile]; exact hn)
      simp only [trimR_eq_rdropWhile]
      simpa using this
    exact trimR_eq_self (List.getLast?_eq_getLast _ hn) hlast

theorem trim_idem (s : Str) : trim (trim s) = trim s := by
  unfold trim
  rw [trimL_trimR_comm (trimL s), trimL_idem, trimR_idem]

/-! ### Membership transport -/

theorem mem_takeBeforePP {s : Str} {x : Char} (h : x ∈ takeBeforePP s) : x ∈ s := by
  induction s with
  | nil => simpa [takeBeforePP] using h
  | cons a r ih =>
      cases r with
      | nil => simpa [takeBeforePP] using h
      | cons b r2 =>
          simp only [takeBeforePP] at h
          split at h
          · simp at h
          · rcases List.mem_cons.mp h with rfl | h
            · simp
            · simp [ih h]

theorem mem_trimL {s : Str} {x : Char} (h : x ∈ trimL s) : x ∈ s :=
  (List.dropWhile_sublist _).subset h

theorem mem_trimR {s : Str} {x : Char} (h : x ∈ trimR s) : x ∈ s := by
  rw [trimR_eq_rdropWhile] at h
  exact (List.rdropWhile_prefix _ _).subset h

theorem mem_trim {s : Str} {x : Char} (h : x ∈ trim s) : x ∈ s :=
  mem_trimL (mem_trimR h)

/-! ### `hasPP` transport -/

theorem hasPP_trimL {s : Str} (h : hasPP s = false) : hasPP (trimL s) = false := by
  have h2 : hasPP (s.takeWhile (fun c => wsChar c)
      ++ s.dropWhile (fun c => wsChar c)) = false := by
    rw [List.takeWhile_append_dropWhile]; exact h
  exact hasPP_append_right h2

theorem hasPP_trimR {s : Str} (h : hasPP s = false) : hasPP (trimR s) = false := by
  have hpre : trimR s <+: s := by
    rw [trimR_eq_rdropWhile]; exact List.rdropWhile_prefix _ _
  obtain ⟨t, ht⟩ := hpre
  exact hasPP_append_left (by rw [ht]; exact h)

theorem hasPP_trim {s : Str} (h : hasPP s = false) : hasPP (trim s) = false :=
  hasPP_trimR (hasPP_trimL h)

theorem hasPP_take {s : Str} (n : Nat) (h : hasPP s = false) :
    hasPP (s.take n) = false :=
  hasPP_append_left (by rw [List.take_append_drop]; exact h)

theorem hasPP_drop {s : Str} (n : Nat) (h : hasPP s = false) :
    hasPP (s.drop n) = false :=
  hasPP_append_right (by rw [List.take_append_drop]; exact h)

/-! ### Structure of the parser results -/

theorem findPair_struct {id rest : Str} :
    ∀ {ps : List Pair} {np : NodeParse}, findPair id rest ps = some np →
      np.id = id ∧ (⟨np.po, np.pc⟩ : Pair) ∈ ps
      ∧ np.label = trim ((rest.drop np.po.length).take
          (rest.length - np.pc.length - np.po.length))
      ∧ startsWith rest np.po = true ∧ endsWith rest np.pc = true := by
  intro ps
  induction ps with
  | nil => intro np h; simp [findPair] at h
  | cons q qs ih =>
      intro np h
      simp only [findPair] at h
      split at h
      · rename_i hcond
        cases h
        have hse : startsWith rest q.po = true ∧ endsWith rest q.pc = true := by
          simpa using hcond
        exact ⟨rfl, by simp, rfl, hse.1, hse.2⟩
      · obtain ⟨h1, h2, h3, h4, h5⟩ := ih h
        exact ⟨h1, by simp [h2], h3, h4, h5⟩

theorem parseNodeLine_struct {line : Str} {np : NodeParse}
    (h : parseNodeLine line = some np) :
    IsTok np.id
    ∧ (⟨np.po, np.pc⟩ : Pair) ∈ sortedPairs
    ∧ hasPP np.label = false
    ∧ (∀ x ∈ np.label, x ∈ line)
    ∧ ∃ after, matchToken (trimL line) = some (np.id, after) := by
  unfold parseNodeLine at h
  cases hm : matchToken (trimL line) with
  | none => rw [hm] at h; exact absurd h (by simp)
  | some p =>
      obtain ⟨id, after⟩ := p
      rw [hm] at h
      simp only at h
      by_cases hr : trim (takeBeforePP (trimL after)) = []
      · rw [if_pos hr] at h
        exact absurd h (by simp)
      · rw [if_neg hr] at h
        obtain ⟨hid, hmem, hlbl, -, -⟩ := findPair_struct h
        obtain ⟨htok, heq, -⟩ := matchToken_structure hm
        subst hid
        have hrestPP : hasPP (trim (takeBeforePP (trimL after))) = false :=
          hasPP_trim (hasPP_takeBeforePP _)
        refine ⟨htok, hmem, ?_, ?_, ⟨after, rfl⟩⟩
        · rw [hlbl]
          exact hasPP_trim (hasPP_take _ (hasPP_drop _ hrestPP))
        · intro x hx
          rw [hlbl] at hx
          have hx1 : x ∈ trim (takeBeforePP (trimL after)) :=
            List.mem_of_mem_drop (List.mem_of_mem_take (mem_trim hx))
          have hx2 : x ∈ after := mem_trimL (mem_takeBeforePP (mem_trim hx1))
          have hx3 : x ∈ trimL line := by
            rw [heq]
            exact List.mem_append_right _ hx2
          exact mem_trimL hx3

theorem wordChar_wordHyphen {c : Char} (h : wordChar c = true) : wordHyphen c = true := by
  simp [wordHyphen, h]

theorem opChar_wordHyphen_dash {c : Char} (ho : opChar c = true)
    (hw : wordHyphen c = true) : c = '-' := by
  rcases op_elim ho with rfl | rfl | rfl | rfl | rfl <;> first
    | rfl
    | exact absurd hw (by decide)

theorem ciStarts_take_ext {pat s : Str} {k : Nat}
    (h : ciStarts pat (s.take k) = true) : ciStarts pat s = true := by
  have hlen := ciStarts_length h
  have := ciStarts_append_long (s.drop k) hlen
  rw [List.take_append_drop] at this
  rw [this]
  exact h

theorem not_subLike_token {line t rest : Str}
    (hm : matchToken (trimL line) = some (t, rest)) (hh : headerMatch line = none) :
    ¬ SubLike t := by
  rintro ⟨hci, hbd⟩
  obtain ⟨htok, heq, hrest⟩ := matchToken_structure hm
  have h8p : litSubgraph.length ≤ t.length := ciStarts_length hci
  have h8 : 8 ≤ t.length := by simpa [litSubgraph] using h8p
  simp only [headerMatch] at hh
  rw [heq, ciStarts_append_long rest h8p, hci, if_pos rfl] at hh
  rcases hbd with hb | ⟨t2, hb⟩
  · have ht8 : t.length = 8 := by
      have := List.drop_eq_nil_iff.mp hb
      omega
    rw [show (8 : Nat) = t.length from ht8.symm, List.drop_left] at hh
    rcases hrest with rfl | ⟨c, cs, rfl, hc⟩
    · simp at hh
    · have hwc : wordChar c = false := by
        cases hw : wordChar c
        · rfl
        · rw [wordChar_wordHyphen hw] at hc; cases hc
      simp [hwc] at hh
  · rw [List.drop_append_of_le_length h8, hb] at hh
    simp at hh
    exact absurd hh (by decide)

theorem edgeLoop_some {T rest : Str} :
    ∀ {n : Nat} {a o b : Str}, edgeLoop T rest n = some (a, o, b) →
      ∃ keep, keep < n ∧ a = T.take (keep + 1)
        ∧ edgeTail (T.drop (keep + 1) ++ rest) = some (o, b) := by
  intro n
  induction n with
  | zero => intro a o b h; simp [edgeLoop] at h
  | succ k ih =>
      intro a o b h
      simp only [edgeLoop] at h
      cases he : edgeTail (T.drop (k + 1) ++ rest) with
      | some p =>
          obtain ⟨o', b'⟩ := p
          rw [he] at h
          simp only [Option.some_inj, Prod.mk.injEq] at h
          obtain ⟨rfl, rfl, rfl⟩ := h
          exact ⟨k, Nat.lt_succ_self k, rfl, he⟩
      | none =>
          rw [he] at h
          obtain ⟨keep, hk, ha, ht⟩ := ih h
          exact ⟨keep, Nat.lt_succ_of_lt hk, ha, ht⟩

theorem takeWhile_ne_nil_head {p : Char → Bool} {c : Char} {cs : Str}
    (h : (c :: cs).takeWhile p ≠ []) : p c = true := by
  by_cases hc : p c
  · exact hc
  · rw [List.takeWhile_cons_of_neg (by simpa using hc)] at h
    exact absurd rfl h

theorem edgeTail_struct {s o b : Str} (h : edgeTail s = some (o, b)) :
    o ≠ [] ∧ (∀ c ∈ o, opChar c = true) ∧ IsTok b
    ∧ o = (trimL s).takeWhile (fun c => opChar c) := by
  simp only [edgeTail] at h
  by_cases ho : (trimL s).takeWhile (fun c => opChar c) = []
  · rw [if_pos ho] at h
    exact absurd h (by simp)
  · rw [if_neg ho] at h
    cases hm : matchToken (trimL ((trimL s).drop
        ((trimL s).takeWhile (fun c => opChar c)).length)) with
    | none => rw [hm] at h; exact absurd h (by simp)
    | some p =>
        obtain ⟨b', s4⟩ := p
        rw [hm] at h
        simp only at h
        by_cases h4 : trimL s4 = []
        · rw [if_pos h4] at h
          simp only [Option.some_inj, Prod.mk.injEq] at h
          obtain ⟨rfl, rfl⟩ := h
          refine ⟨ho, ?_, (matchToken_structure hm).1, rfl⟩
          intro c hc
          exact List.mem_takeWhile_imp hc
        · rw [if_neg h4] at h
          exact absurd h (by simp)

theorem IsTok_take {t : Str} {k : Nat} (h : IsTok t) (hk : 1 ≤ k) :
    IsTok (t.take k) := by
  obtain ⟨c, cs, rfl, hc, hcs⟩ := h
  cases k with
  | zero => omega
  | succ k =>
      refine ⟨c, cs.take k, by simp, hc, ?_⟩
      intro d hd
      exact hcs d (List.mem_of_mem_take hd)

/-! ### `Char.toLower` and case-insensitive-match facts -/

theorem toNat_ofNat_valid {n : Nat} (hv : Nat.isValidChar n) :
    (Char.ofNat n).toNat = n := by
  unfold Char.ofNat
  rw [dif_pos hv]
  rfl

theorem toLower_spec (c : Char) :
    (65 ≤ c.toNat ∧ c.toNat ≤ 90 ∧ (c.toLower).toNat = c.toNat + 32)
    ∨ (¬(65 ≤ c.toNat ∧ c.toNat ≤ 90) ∧ c.toLower = c) := by
  unfold Char.toLower
  by_cases h : c.toNat ≥ 65 ∧ c.toNat ≤ 90
  · left
    rw [if_pos h]
    refine ⟨h.1, h.2, ?_⟩
    exact toNat_ofNat_valid (by left; omega)
  · right
    rw [if_neg h]
    exact ⟨h, rfl⟩

theorem letterChar_iff {c : Char} :
    letterChar c = true
      ↔ (65 ≤ c.toNat ∧ c.toNat ≤ 90) ∨ (97 ≤ c.toNat ∧ c.toNat ≤ 122) := by
  unfold letterChar
  simp only [Bool.or_eq_true, Bool.and_eq_true, decide_eq_true_eq]
  constructor
  · rintro (⟨h1, h2⟩ | ⟨h1, h2⟩)
    · exact Or.inl ⟨h1, h2⟩
    · exact Or.inr ⟨h1, h2⟩
  · rintro (⟨h1, h2⟩ | ⟨h1, h2⟩)
    · exact Or.inl ⟨h1, h2⟩
    · exact Or.inr ⟨h1, h2⟩

theorem letterChar_toLower {c : Char} (h : letterChar c = true) :
    letterChar c.toLower = true := by
  rcases toLower_spec c with ⟨h1, h2, h3⟩ | ⟨h1, h2⟩
  · rw [letterChar_iff, h3]
    right; omega
  · rw [h2]; exact h

theorem letterChar_of_toLower {c : Char}
    (h : 97 ≤ c.toLower.toNat ∧ c.toLower.toNat ≤ 122) : letterChar c = true := by
  rcases toLower_spec c with ⟨h1, h2, h3⟩ | ⟨h1, h2⟩
  · rw [letterChar_iff]; left; omega
  · rw [letterChar_iff]; rw [h2] at h; right; exact h

/-- A case-rigid non-letter (for example a whitespace or bracket character)
never case-insensitively equals a letter. -/
theorem ciEq_letter_nonletter {c p : Char} (hp : letterChar p = true)
    (hc : letterChar c = false) (hlc : c.toLower = c) : ciEq c p = false := by
  cases hq : ciEq c p
  · rfl
  · exfalso
    have h1 : c.toLower = p.toLower := by
      have := of_decide_eq_true hq
      exact this
    rw [hlc] at h1
    rw [h1] at hc
    rw [letterChar_toLower hp] at hc
    cases hc

theorem letterChar_of_ciEq {c p : Char} (h : ciEq c p = true)
    (hp : 97 ≤ p.toLower.toNat ∧ p.toLower.toNat ≤ 122) : letterChar c = true := by
  have h1 : c.toLower = p.toLower := of_decide_eq_true h
  exact letterChar_of_toLower (by rw [h1]; exact hp)

theorem ciStarts_cons {p : Char} {ps s : Str} (h : ciStarts (p :: ps) s = true) :
    ∃ c cs, s = c :: cs ∧ ciEq c p = true ∧ ciStarts ps cs = true := by
  cases s with
  | nil => simp [ciStarts] at h
  | cons c cs =>
      simp only [ciStarts, Bool.and_eq_true] at h
      exact ⟨c, cs, rfl, h.1, h.2⟩

theorem ciStarts_self_append (pat Y : Str) : ciStarts pat (pat ++ Y) = true := by
  induction pat with
  | nil => rfl
  | cons p ps ih =>
      simp only [List.cons_append, ciStarts, Bool.and_eq_true]
      exact ⟨by simp [ciEq], ih⟩

/-- An all-letter literal matched case-insensitively at the head of `tok ++
rest` cannot reach into `rest` when `rest` starts with a case-rigid
non-letter. -/
theorem ciStarts_letters_le {pat : Str} (hpat : ∀ p ∈ pat, letterChar p = true) :
    ∀ {tok rest : Str} {c : Char} {cs : Str}, rest = c :: cs →
      letterChar c = false → c.toLower = c →
      ciStarts pat (tok ++ rest) = true → pat.length ≤ tok.length := by
  induction pat with
  | nil => intro tok rest c cs _ _ _ _; simp
  | cons p ps ih =>
      intro tok rest c cs hr hc hlc h
      cases tok with
      | nil =>
          rw [List.nil_append, hr] at h
          simp only [ciStarts, Bool.and_eq_true] at h
          rw [ciEq_letter_nonletter (hpat p (by simp)) hc hlc] at h
          exact absurd h.1 (by simp)
      | cons t ts =>
          simp only [List.cons_append, ciStarts, Bool.and_eq_true] at h
          have := ih (fun q hq => hpat q (by simp [hq])) hr hc hlc h.2
          simpa using Nat.succ_le_succ this

theorem edgeMatch_struct {line a o b : Str}
    (h : edgeMatch line = some (a, o, b)) :
    IsTok a ∧ IsTok b ∧ o ≠ [] ∧ (∀ c ∈ o, opChar c = true)
    ∧ (headerMatch line = none → ¬ SubLike a) := by
  unfold edgeMatch at h
  cases hm : matchToken (trimL line) with
  | none => rw [hm] at h; exact absurd h (by simp)
  | some p =>
      obtain ⟨T, rest⟩ := p
      rw [hm] at h
      simp only at h
      obtain ⟨keep, hk, ha, ht⟩ := edgeLoop_some h
      obtain ⟨hT, heq, hrest⟩ := matchToken_structure hm
      obtain ⟨hone, hop, hb, hotw⟩ := edgeTail_struct ht
      refine ⟨?_, hb, hone, hop, ?_⟩
      · rw [ha]; exact IsTok_take hT (by omega)
      · intro hhm
        rintro ⟨hci, hbd⟩
        rw [ha] at hci hbd
        have h8p : litSubgraph.length ≤ (T.take (keep + 1)).length :=
          ciStarts_length hci
        have hminlen : (T.take (keep + 1)).length = keep + 1 := by
          rw [List.length_take]; omega
        have h8 : 8 ≤ keep + 1 := by
          rw [hminlen] at h8p; simpa [litSubgraph] using h8p
        have h8T : 8 ≤ T.length := by omega
        have hciT : ciStarts litSubgraph T = true := ciStarts_take_ext hci
        have h8pT : litSubgraph.length ≤ T.length := by simpa [litSubgraph] using h8T
        simp only [headerMatch] at hhm
        rw [heq, ciStarts_append_long rest h8pT, hciT, if_pos rfl] at hhm
        have hcontra : ∀ tl2, T.drop 8 = '-' :: tl2 → False := by
          intro tl2 hdt
          rw [List.drop_append_of_le_length h8T, hdt] at hhm
          simp at hhm
          exact absurd hhm (by decide)
        rcases hbd with hb2 | ⟨t2, hb2⟩
        · have hlen8 : keep + 1 = 8 := by
            have := List.drop_eq_nil_iff.mp hb2
            rw [hminlen] at this
            omega
          by_cases hTl : T.length = 8
          · rw [show (8 : Nat) = T.length from hTl.symm, List.drop_left] at hhm
            rcases hrest with rfl | ⟨c, cs, rfl, hc⟩
            · simp at hhm
            · have hwc : wordChar c = false := by
                cases hw : wordChar c
                · rfl
                · rw [wordChar_wordHyphen hw] at hc; cases hc
              simp [hwc] at hhm
          · rw [hlen8] at ht hotw
            cases hT8 : T.drop 8 with
            | nil =>
                have := List.drop_eq_nil_iff.mp hT8
                omega
            | cons T8 tl =>
                obtain ⟨c0, cs0, hTc, -, hcs0⟩ := hT
                have hT8mem : T8 ∈ cs0 := by
                  have hmem : T8 ∈ T.drop 8 := by rw [hT8]; simp
                  rw [hTc, List.drop_succ_cons] at hmem
                  exact List.mem_of_mem_drop hmem
                have hwh : wordHyphen T8 = true := hcs0 T8 hT8mem
                have hnw : wsChar T8 = false := wordHyphen_not_ws hwh
                have htr : trimL (T.drop 8 ++ rest) = T8 :: (tl ++ rest) := by
                  rw [hT8, List.cons_append]
                  exact trimL_cons_nonws _ hnw
                rw [htr] at hotw
                have hopT8 : opChar T8 = true := by
                  have hne : (T8 :: (tl ++ rest)).takeWhile (fun c => opChar c)
                      ≠ [] := by
                    rw [← hotw]
                    exact hone
                  exact takeWhile_ne_nil_head hne
                have hT8d : T8 = '-' := opChar_wordHyphen_dash hopT8 hwh
                exact hcontra tl (by rw [hT8, hT8d])
        · have hdt := hb2
          rw [List.drop_take] at hdt
          cases hT8 : T.drop 8 with
          | nil => rw [hT8] at hdt; simp at hdt
          | cons T8 tl =>
              rw [hT8] at hdt
              have hT8d : T8 = '-' := by
                cases hkk : keep + 1 - 8 with
                | zero => rw [hkk] at hdt; simp at hdt
                | succ m =>
                    rw [hkk] at hdt
                    simp only [List.take_succ_cons, List.cons.injEq] at hdt
                    exact hdt.1
              exact hcontra tl (by rw [hT8, hT8d])

/-! ### Classification inversion -/

theorem classify_inv_nodeL {l : Str} {np : NodeParse} (h : classify l = .nodeL np) :
    parseNodeLine l = some np ∧ headerMatch l = none ∧ classAssignMatch l = none := by
  unfold classify at h
  by_cases h1 : trim l = []
  · rw [if_pos h1] at h; cases h
  rw [if_neg h1] at h
  by_cases h2 : commentTest l = true
  · rw [if_pos h2] at h; cases h
  rw [if_neg h2] at h
  by_cases h3 : classDefTest l = true
  · rw [if_pos h3] at h; cases h
  rw [if_neg h3] at h
  cases h4 : classAssignMatch l with
  | some p => obtain ⟨i, c⟩ := p; rw [h4] at h; cases h
  | none =>
      rw [h4] at h
      cases h5 : headerMatch l with
      | some r => rw [h5] at h; cases h
      | none =>
          rw [h5] at h
          by_cases h6 : endTest l = true
          · rw [if_pos h6] at h; cases h
          rw [if_neg h6] at h
          cases h7 : parseNodeLine l with
          | none =>
              rw [h7] at h
              cases h8 : edgeMatch l with
              | some t => obtain ⟨a2, o2, b2⟩ := t; rw [h8] at h; cases h
              | none => rw [h8] at h; cases h
          | some np2 =>
              rw [h7] at h
              cases h
              exact ⟨rfl, rfl, rfl⟩

theorem classify_inv_edgeL {l : Str} {a o b : Str} (h : classify l = .edgeL a o b) :
    edgeMatch l = some (a, o, b) ∧ parseNodeLine l = none
    ∧ headerMatch l = none ∧ classAssignMatch l = none := by
  unfold classify at h
  by_cases h1 : trim l = []
  · rw [if_pos h1] at h; cases h
  rw [if_neg h1] at h
  by_cases h2 : commentTest l = true
  · rw [if_pos h2] at h; cases h
  rw [if_neg h2] at h
  by_cases h3 : classDefTest l = true
  · rw [if_pos h3] at h; cases h
  rw [if_neg h3] at h
  cases h4 : classAssignMatch l with
  | some p => obtain ⟨i, c⟩ := p; rw [h4] at h; cases h
  | none =>
      rw [h4] at h
      cases h5 : headerMatch l with
      | some r => rw [h5] at h; cases h
      | none =>
          rw [h5] at h
          by_cases h6 : endTest l = true
          · rw [if_pos h6] at h; cases h
          rw [if_neg h6] at h
          cases h7 : parseNodeLine l with
          | none =>
              rw [h7] at h
              cases h8 : edgeMatch l with
              | some t =>
                  obtain ⟨a2, o2, b2⟩ := t
                  rw [h8] at h
                  cases h
                  exact ⟨rfl, rfl, rfl, rfl⟩
              | none => rw [h8] at h; cases h
          | some np2 => rw [h7] at h; cases h

/-! ### Loop-exhaustion and search utilities -/

theorem edgeLoop_none_of {T rest : Str} :
    ∀ n, (∀ k, k < n → edgeTail (T.drop (k + 1) ++ rest) = none) →
      edgeLoop T rest n = none := by
  intro n
  induction n with
  | zero => intro _; rfl
  | succ m ih =>
      intro h
      simp only [edgeLoop]
      rw [h m (Nat.lt_succ_self m)]
      exact ih (fun k hk => h k (Nat.lt_succ_of_lt hk))

theorem caLoop_isSome {r2 : Str} :
    ∀ {fuel i j : Nat}, i ≤ j → j < i + fuel → (caTry r2 j).isSome = true →
      (caLoop r2 i fuel).isSome = true := by
  intro fuel
  induction fuel with
  | zero => intro i j h1 h2 _; omega
  | succ m ih =>
      intro i j h1 h2 h3
      simp only [caLoop]
      cases hc : caTry r2 i with
      | some res => simp
      | none =>
          have hij : i ≠ j := by
            intro he
            rw [← he, hc] at h3
            simp at h3
          exact ih (by omega) (by omega) h3

theorem findPair_none_all {id rest : Str} :
    ∀ {ps : List Pair},
      (∀ p ∈ ps, startsWith rest p.po = false ∨ endsWith rest p.pc = false) →
      findPair id rest ps = none := by
  intro ps
  induction ps with
  | nil => intro _; rfl
  | cons q qs ih =>
      intro h
      simp only [findPair]
      rcases h q (by simp) with hq | hq <;>
        · rw [if_neg (by simp [hq])]
          exact ih (fun p hp => h p (by simp [hp]))

theorem findPair_isSome {id rest : Str} :
    ∀ {ps : List Pair},
      (∃ p ∈ ps, startsWith rest p.po = true ∧ endsWith rest p.pc = true) →
      (findPair id rest ps).isSome = true := by
  intro ps
  induction ps with
  | nil => rintro ⟨p, hp, -⟩; simp at hp
  | cons q qs ih =>
      rintro ⟨p, hp, h1, h2⟩
      simp only [findPair]
      by_cases hq : (startsWith rest q.po && endsWith rest q.pc) = true
      · rw [if_pos hq]; rfl
      · rw [if_neg hq]
        rcases List.mem_cons.mp hp with rfl | hp2
        · rw [h1, h2] at hq; simp at hq
        · exact ih ⟨p, hp2, h1, h2⟩

theorem startsWith_append_self (p x : Str) : startsWith (p ++ x) p = true := by
  induction p with
  | nil => cases x <;> rfl
  | cons c cs ih => simp [startsWith, ih]

theorem endsWith_append_self (x p : Str) : endsWith (x ++ p) p = true := by
  unfold endsWith
  rw [List.reverse_append]
  exact startsWith_append_self p.reverse x.reverse

theorem startsWith_cons_ne {c p : Char} (cs ps : Str) (h : ¬c = p) :
    startsWith (c :: cs) (p :: ps) = false := by
  simp [startsWith, h]

theorem endsWith_false_of_last_ne {s p : Str} {c d : Char}
    (hs : s.getLast? = some c) (hp : p.getLast? = some d) (h : ¬c = d) :
    endsWith s p = false := by
  unfold endsWith
  rw [← List.head?_reverse] at hs hp
  cases hsr : s.reverse with
  | nil => rw [hsr] at hs; cases hs
  | cons a as =>
      cases hpr : p.reverse with
      | nil => rw [hpr] at hp; cases hp
      | cons b bs =>
          rw [hsr] at hs; rw [hpr] at hp
          cases hs; cases hp
          exact startsWith_cons_ne as bs h

theorem IsTok_getLast {t : Str} (h : IsTok t) :
    ∃ d, t.getLast? = some d ∧ wordHyphen d = true := by
  obtain ⟨c, cs, rfl, hc, hcs⟩ := h
  cases hcs2 : cs with
  | nil => exact ⟨c, rfl, letter_wordHyphen hc⟩
  | cons c2 t2 =>
      have hne : c2 :: t2 ≠ [] := by simp
      refine ⟨(c2 :: t2).getLast hne, ?_, ?_⟩
      · rw [List.getLast?_cons_cons, List.getLast?_eq_getLast _ hne]
      · exact hcs _ (by rw [hcs2]; exact List.getLast_mem hne)

/-! ### Concrete facts about the shape catalog -/

theorem pairs_po_facts : ∀ p ∈ sortedPairs,
    (p.po.head? = some '(' ∨ p.po.head? = some '[' ∨ p.po.head? = some '{'
      ∨ p.po.head? = some '>')
    ∧ ∀ d ∈ p.po, letterChar d = false ∧ wsChar d = false ∧ wordHyphen d = false
        ∧ ¬d = '%' ∧ ¬d = '\n' ∧ d.toLower = d := by decide

theorem pairs_pc_facts : ∀ p ∈ sortedPairs,
    (p.pc.getLast? = some ')' ∨ p.pc.getLast? = some ']' ∨ p.pc.getLast? = some '}')
    ∧ ∀ d ∈ p.pc, wsChar d = false ∧ ¬d = '%' ∧ ¬d = '\n' ∧ wordHyphen d = false := by
  decide

/-! ### `intercalate` and `splitIds` -/

theorem intercalate_single (sep a : Str) : List.intercalate sep [a] = a := by
  simp [List.intercalate, List.intersperse]

theorem intercalate_cons_cons (sep a b : Str) (l : List Str) :
    List.intercalate sep (a :: b :: l) = a ++ sep ++ List.intercalate sep (b :: l) := by
  simp [List.intercalate, List.intersperse]

theorem mem_intercalate_comma {ids : List Str} {x : Char}
    (h : x ∈ List.intercalate [','] ids) : x = ',' ∨ ∃ i ∈ ids, x ∈ i := by
  induction ids with
  | nil => simp [List.intercalate, List.intersperse] at h
  | cons a l ih =>
      cases l with
      | nil =>
          rw [intercalate_single] at h
          exact Or.inr ⟨a, by simp, h⟩
      | cons b t =>
          rw [intercalate_cons_cons] at h
          simp only [List.append_assoc, List.mem_append] at h
          rcases h with h | h | h
          · exact Or.inr ⟨a, by simp, h⟩
          · exact Or.inl (by simpa using h)
          · rcases ih h with h | ⟨i, hi, hx⟩
            · exact Or.inl h
            · exact Or.inr ⟨i, by simp [hi], hx⟩

theorem splitIds_chunks_aux :
    ∀ (n : Nat) (s : Str), s.length ≤ n → ∀ i ∈ splitIds s,
      i ≠ [] ∧ ∀ c ∈ i, wsChar c = false ∧ ¬c = ',' := by
  intro n
  induction n with
  | zero =>
      intro s hs i hi
      cases s with
      | nil => simp [splitIds_nil] at hi
      | cons c cs => simp at hs
  | succ m ih =>
      intro s hs i hi
      cases s with
      | nil => simp [splitIds_nil] at hi
      | cons c cs =>
          rw [splitIds_cons] at hi
          by_cases hc : (wsChar c || c = ',') = true
          · rw [if_pos hc] at hi
            exact ih cs (by simp at hs; omega) i hi
          · rw [if_neg hc] at hi
            simp only [Bool.or_eq_true, decide_eq_true_eq, not_or] at hc
            rcases List.mem_cons.mp hi with rfl | hi2
            · refine ⟨by simp, ?_⟩
              intro d hd
              rcases List.mem_cons.mp hd with rfl | hd2
              · exact ⟨by simpa using hc.1, hc.2⟩
              · have := List.mem_takeWhile_imp hd2
                simp only [Bool.not_eq_true', Bool.or_eq_false_iff,
                  decide_eq_false_iff_not] at this
                exact this
            · refine ih (cs.dropWhile _) ?_ i hi2
              have hsub : (cs.dropWhile (fun d => !(wsChar d || d = ','))).length
                  ≤ cs.length := (List.dropWhile_sublist _).length_le
              simp at hs
              omega

theorem splitIds_chunks (s : Str) : ∀ i ∈ splitIds s,
    i ≠ [] ∧ ∀ c ∈ i, wsChar c = false ∧ ¬c = ',' :=
  splitIds_chunks_aux s.length s (Nat.le_refl _)

/-! ### Small character-class corollaries -/

theorem letter_ne_pct {c : Char} (h : letterChar c = true) : ¬c = '%' := by
  intro he
  rw [he] at h
  exact absurd h (by decide)

theorem mem_of_head? {l : Str} {c : Char} (h : l.head? = some c) : c ∈ l :=
  List.mem_of_mem_head? (by simp [h])

theorem mem_of_getLast? {l : Str} {c : Char} (h : l.getLast? = some c) : c ∈ l := by
  rw [← List.head?_reverse] at h
  exact List.mem_reverse.mp (List.mem_of_mem_head? (by simp [h]))

theorem ws_rigid {c : Char} (h : wsChar c = true) :
    letterChar c = false ∧ c.toLower = c := by
  rcases ws_elim h with rfl | rfl | rfl | rfl | rfl | rfl <;> exact ⟨by decide, by decide⟩

theorem hasPP_of_no_pct {s : Str} (h : ∀ c ∈ s, ¬c = '%') : hasPP s = false := by
  induction s with
  | nil => rfl
  | cons a r ih =>
      cases r with
      | nil => rfl
      | cons b r2 =>
          simp only [hasPP, Bool.or_eq_false_iff]
          constructor
          · simp [h a (by simp)]
          · exact ih (fun c hc => h c (by simp [List.mem_cons.mp hc]))

theorem litClassDef_letters : ∀ p ∈ litClassDef, letterChar p = true := by decide
theorem litClass_letters : ∀ p ∈ litClass, letterChar p = true := by decide
theorem litSubgraph_letters : ∀ p ∈ litSubgraph, letterChar p = true := by decide
theorem litFlowchart_letters : ∀ p ∈ litFlowchart, letterChar p = true := by decide

theorem wordChar_of_wordHyphen_ne {c : Char} (h : wordHyphen c = true)
    (hne : ¬c = '-') : wordChar c = true := by
  simp only [wordHyphen, Bool.or_eq_true, decide_eq_true_eq] at h
  rcases h with h | h
  · exact h
  · exact absurd h hne

/-! ### An emitted node line parses back with the same id -/

theorem nodeText_struct {n : Node} (wf : NodeWF n) :
    ∃ np : NodeParse,
      classify (nodeText n) = .nodeL np ∧ np.id = n.id := by
  obtain ⟨hpo_head, hpo_all⟩ := pairs_po_facts _ wf.pair
  obtain ⟨hpc_last, hpc_all⟩ := pairs_pc_facts _ wf.pair
  obtain ⟨c0, cs0, hid, hc0, hcs0⟩ := wf.tok
  have hpo_ne : n.po ≠ [] := by
    intro he
    rw [he] at hpo_head
    rcases hpo_head with h | h | h | h <;> cases h
  have hpc_ne : n.pc ≠ [] := by
    intro he
    rw [he] at hpc_last
    rcases hpc_last with h | h | h <;> cases h
  have hL : nodeText n = n.id ++ (n.po ++ (n.label ++ n.pc)) := by
    unfold nodeText
    rw [if_neg hpo_ne, if_neg hpc_ne]
    simp [List.append_assoc]
  obtain ⟨bc, po', hpo⟩ : ∃ bc po', n.po = bc :: po' := by
    cases hpo2 : n.po with
    | nil => exact absurd hpo2 hpo_ne
    | cons x xs => exact ⟨x, xs, rfl⟩
  have hbc_mem : bc ∈ n.po := by rw [hpo]; simp
  obtain ⟨hbc_letter, hbc_ws, hbc_wh, hbc_pct, hbc_nl, hbc_lc⟩ := hpo_all bc hbc_mem
  have hrest_cons : n.po ++ (n.label ++ n.pc) = bc :: (po' ++ (n.label ++ n.pc)) := by
    rw [hpo]; simp
  -- the trimL of the whole line is itself
  have htl : trimL (nodeText n) = nodeText n := by
    rw [hL, hid]
    simp only [List.cons_append]
    exact trimL_cons_nonws _ (letter_not_ws hc0)
  -- last character of the line: the close token's bracket
  obtain ⟨lc, hlc, hlc_ws⟩ : ∃ lc, n.pc.getLast? = some lc ∧ wsChar lc = false := by
    rcases hpc_last with h | h | h
    · exact ⟨')', h, by decide⟩
    · exact ⟨']', h, by decide⟩
    · exact ⟨'}', h, by decide⟩
  have hX1 : n.po ++ (n.label ++ n.pc) ≠ [] := by rw [hrest_cons]; simp
  have hX2 : n.label ++ n.pc ≠ [] := fun he => hpc_ne (List.append_eq_nil.mp he).2
  have hLlast : (nodeText n).getLast? = some lc := by
    rw [hL, List.getLast?_append_of_ne_nil _ hX1,
      List.getLast?_append_of_ne_nil _ hX2,
      List.getLast?_append_of_ne_nil _ hpc_ne]
    exact hlc
  have hLhead : (nodeText n).head? = some c0 := by
    rw [hL, hid]; simp
  have htr : trim (nodeText n) = nodeText n :=
    trim_eq_self hLhead (letter_not_ws hc0) hLlast hlc_ws
  have htrne : ¬trim (nodeText n) = [] := by
    rw [htr, hL, hid]
    simp
  -- the leading token is exactly the id
  have hmt : matchToken (trimL (nodeText n))
      = some (n.id, n.po ++ (n.label ++ n.pc)) := by
    rw [htl, hL]
    apply matchToken_tok _ ⟨c0, cs0, hid, hc0, hcs0⟩
    right
    exact ⟨bc, po' ++ (n.label ++ n.pc), hrest_cons, hbc_wh⟩
  -- the remainder after the token survives comment-stripping and trimming
  have hafterPP : hasPP (n.po ++ (n.label ++ n.pc)) = false := by
    apply hasPP_append_false
    · exact hasPP_of_no_pct (fun c hc => (hpo_all c hc).2.2.2.1)
    · apply hasPP_append_false wf.lblPP
        (hasPP_of_no_pct (fun c hc => (hpc_all c hc).2.1))
      intro a b ha hb
      rintro ⟨-, rfl⟩
      exact (hpc_all _ (List.mem_of_mem_head? (by simp [hb]))).2.1 rfl
    · intro a b ha hb
      rintro ⟨rfl, -⟩
      exact (hpo_all _ (mem_of_getLast? ha)).2.2.2.1 rfl
  have hafter_last : (n.po ++ (n.label ++ n.pc)).getLast? = some lc := by
    rw [List.getLast?_append_of_ne_nil _ hX2,
      List.getLast?_append_of_ne_nil _ hpc_ne]
    exact hlc
  have hrest_eq : trim (takeBeforePP (trimL (n.po ++ (n.label ++ n.pc))))
      = n.po ++ (n.label ++ n.pc) := by
    rw [hrest_cons, trimL_cons_nonws _ hbc_ws, ← hrest_cons,
      takeBeforePP_eq_self hafterPP]
    exact trim_eq_self (by rw [hrest_cons]; rfl) hbc_ws hafter_last hlc_ws
  -- findPair succeeds (the node's own pair matches, some earlier one may win)
  have hfp : (findPair n.id (n.po ++ (n.label ++ n.pc)) sortedPairs).isSome = true := by
    apply findPair_isSome
    refine ⟨⟨n.po, n.pc⟩, wf.pair, ?_, ?_⟩
    · exact startsWith_append_self n.po (n.label ++ n.pc)
    · have : n.po ++ (n.label ++ n.pc) = (n.po ++ n.label) ++ n.pc := by simp
      rw [this]
      exact endsWith_append_self _ _
  obtain ⟨np, hnp⟩ := Option.isSome_iff_exists.mp hfp
  have hnpid : np.id = n.id := (findPair_struct hnp).1
  -- parseNodeLine computes to np
  have hpn : parseNodeLine (nodeText n) = some np := by
    unfold parseNodeLine
    rw [hmt]
    simp only
    rw [hrest_eq, if_neg (by rw [hrest_cons]; simp)]
    exact hnp
  -- the earlier classifier branches all fail
  have hcm : commentTest (nodeText n) = false := by
    unfold commentTest
    rw [htl, hL, hid]
    simp only [List.cons_append]
    exact startsWith_cons_ne _ _ (letter_ne_pct hc0)
  have hid8 : ∀ pat : Str, (∀ p ∈ pat, letterChar p = true) →
      ciStarts pat (trimL (nodeText n)) = true → pat.length ≤ n.id.length := by
    intro pat hlet hci
    rw [htl, hL] at hci
    exact ciStarts_letters_le hlet hrest_cons hbc_letter hbc_lc hci
  have hdrop8 : ∀ k : Nat, k ≤ n.id.length →
      (trimL (nodeText n)).drop k = n.id.drop k ++ (n.po ++ (n.label ++ n.pc)) := by
    intro k hk
    rw [htl, hL, List.drop_append_of_le_length hk]
  have hcd : classDefTest (nodeText n) = false := by
    simp only [classDefTest]
    cases hci : ciStarts litClassDef (trimL (nodeText n)) with
    | false => simp
    | true =>
        have h8 : 8 ≤ n.id.length := by
          have := hid8 litClassDef litClassDef_letters hci
          simpa [litClassDef] using this
        rw [if_pos rfl, hdrop8 8 h8]
        cases hdr : n.id.drop 8 with
        | nil =>
            rw [List.nil_append, hrest_cons]
            simp [hbc_ws]
        | cons d8 ds =>
            have hd8 : wordHyphen d8 = true := by
              apply hcs0
              have : d8 ∈ n.id.drop 8 := by rw [hdr]; simp
              rw [hid, List.drop_succ_cons] at this
              exact List.mem_of_mem_drop this
            rw [List.cons_append]
            simp [wordHyphen_not_ws hd8]
  have hca : classAssignMatch (nodeText n) = none := by
    simp only [classAssignMatch]
    cases hci : ciStarts litClass (trimL (nodeText n)) with
    | false => simp
    | true =>
        have h5 : 5 ≤ n.id.length := by
          have := hid8 litClass litClass_letters hci
          simpa [litClass] using this
        rw [if_pos rfl, hdrop8 5 h5]
        cases hdr : n.id.drop 5 with
        | nil =>
            rw [List.nil_append, hrest_cons]
            simp [hbc_ws]
        | cons d5 ds =>
            have hd5 : wordHyphen d5 = true := by
              apply hcs0
              have : d5 ∈ n.id.drop 5 := by rw [hdr]; simp
              rw [hid, List.drop_succ_cons] at this
              exact List.mem_of_mem_drop this
            rw [List.cons_append]
            simp [wordHyphen_not_ws hd5]
  have hhm : headerMatch (nodeText n) = none := by
    simp only [headerMatch]
    cases hci : ciStarts litSubgraph (trimL (nodeText n)) with
    | false => simp
    | true =>
        have h8 : 8 ≤ n.id.length := by
          have := hid8 litSubgraph litSubgraph_letters hci
          simpa [litSubgraph] using this
        have hciid : ciStarts litSubgraph n.id = true := by
          have h2 := hci
          rw [htl, hL, ciStarts_append_long _ (by simpa [litSubgraph] using h8)] at h2
          exact h2
        rw [if_pos rfl, hdrop8 8 h8]
        cases hdr : n.id.drop 8 with
        | nil => exact absurd ⟨hciid, Or.inl hdr⟩ wf.nsub
        | cons d8 ds =>
            have hd8ne : ¬d8 = '-' := by
              intro he
              exact wf.nsub ⟨hciid, Or.inr ⟨ds, by rw [← he]; exact hdr⟩⟩
            have hd8 : wordHyphen d8 = true := by
              apply hcs0
              have : d8 ∈ n.id.drop 8 := by rw [hdr]; simp
              rw [hid, List.drop_succ_cons] at this
              exact List.mem_of_mem_drop this
            rw [List.cons_append]
            simp [wordChar_of_wordHyphen_ne hd8 hd8ne]
  have hend : endTest (nodeText n) = false := by
    simp only [endTest, htr]
    by_cases hlen : (nodeText n).length = 3
    · have hlen2 : n.id.length + (n.po.length + (n.label.length + n.pc.length)) = 3 := by
        rw [hL] at hlen
        simpa using hlen
      have hid1 : n.id.length = 1 := by
        have hpo1 : 1 ≤ n.po.length := by rw [hpo]; simp
        have hpc1 : 1 ≤ n.pc.length := List.length_pos.mpr hpc_ne
        have hidp : 1 ≤ n.id.length := by rw [hid]; simp
        omega
      have hcs0nil : cs0 = [] := by
        rw [hid] at hid1
        simpa using hid1
      have hL2 : nodeText n = c0 :: bc :: (po' ++ (n.label ++ n.pc)) := by
        rw [hL, hid, hcs0nil, hrest_cons]
        simp
      rw [hL2]
      simp only [ciStarts, litEnd, Bool.and_eq_false_iff]
      right
      rw [ciEq_letter_nonletter (by decide) hbc_letter hbc_lc]
      simp
    · simp [hlen]
  refine ⟨np, ?_, hnpid⟩
  unfold classify
  rw [if_neg htrne, hcm, hcd]
  simp only [Bool.false_eq_true, if_false]
  rw [hca, hhm, hend]
  simp only [Bool.false_eq_true, if_false]
  rw [hpn]

/-! ### An emitted edge line parses back to the same edge -/

theorem edgeText_struct {e : Edge} (wf : EdgeWF e)
    (hcl : ¬e.a.map Char.toLower = litClass) :
    classify (e.a ++ [' '] ++ e.op ++ [' '] ++ e.b) = .edgeL e.a e.op e.b := by
  obtain ⟨a0, as0, hae, ha0, has0⟩ := wf.ta
  obtain ⟨b0, bs0, hbe, hb0, hbs0⟩ := wf.tb
  obtain ⟨o0, os0, hoe⟩ : ∃ o0 os0, e.op = o0 :: os0 := by
    cases ho : e.op with
    | nil => exact absurd ho wf.opNe
    | cons x xs => exact ⟨x, xs, rfl⟩
  have ho0 : opChar o0 = true := wf.opAll o0 (by rw [hoe]; simp)
  obtain ⟨ho0ws, ho0letter, ho0pct⟩ := opChar_facts ho0
  have hL : e.a ++ [' '] ++ e.op ++ [' '] ++ e.b
      = e.a ++ (' ' :: (e.op ++ ' ' :: e.b)) := by simp
  have hrest_cons : (' ' :: (e.op ++ ' ' :: e.b)) = ' ' :: (e.op ++ ' ' :: e.b) := rfl
  have htl : trimL (e.a ++ [' '] ++ e.op ++ [' '] ++ e.b)
      = e.a ++ [' '] ++ e.op ++ [' '] ++ e.b := by
    rw [hL, hae]
    simp only [List.cons_append]
    exact trimL_cons_nonws _ (letter_not_ws ha0)
  obtain ⟨bl, hbl, hblwh⟩ := IsTok_getLast wf.tb
  have hbne : e.b ≠ [] := wf.tb.ne_nil
  have hXb : e.op ++ ' ' :: e.b ≠ [] := by rw [hoe]; simp
  have hLlast : (e.a ++ [' '] ++ e.op ++ [' '] ++ e.b).getLast? = some bl := by
    rw [hL, List.getLast?_append_of_ne_nil _ (by simp [hXb]),
      show (' ' :: (e.op ++ ' ' :: e.b)) = [' '] ++ (e.op ++ ' ' :: e.b) from rfl,
      List.getLast?_append_of_ne_nil _ hXb,
      List.getLast?_append_of_ne_nil _ (by simp),
      show (' ' :: e.b) = [' '] ++ e.b from rfl,
      List.getLast?_append_of_ne_nil _ hbne]
    exact hbl
  have hLhead : (e.a ++ [' '] ++ e.op ++ [' '] ++ e.b).head? = some a0 := by
    rw [hL, hae]; simp
  have htr : trim (e.a ++ [' '] ++ e.op ++ [' '] ++ e.b)
      = e.a ++ [' '] ++ e.op ++ [' '] ++ e.b :=
    trim_eq_self hLhead (letter_not_ws ha0) hLlast (wordHyphen_not_ws hblwh)
  have htrne : ¬trim (e.a ++ [' '] ++ e.op ++ [' '] ++ e.b) = [] := by
    rw [htr, hL, hae]; simp
  have hmt : matchToken (trimL (e.a ++ [' '] ++ e.op ++ [' '] ++ e.b))
      = some (e.a, ' ' :: (e.op ++ ' ' :: e.b)) := by
    rw [htl, hL]
    apply matchToken_tok _ wf.ta
    right
    exact ⟨' ', e.op ++ ' ' :: e.b, rfl, by decide⟩
  have hcm : commentTest (e.a ++ [' '] ++ e.op ++ [' '] ++ e.b) = false := by
    unfold commentTest
    rw [htl, hL, hae]
    simp only [List.cons_append]
    exact startsWith_cons_ne _ _ (letter_ne_pct ha0)
  have hid8 : ∀ pat : Str, (∀ p ∈ pat, letterChar p = true) →
      ciStarts pat (trimL (e.a ++ [' '] ++ e.op ++ [' '] ++ e.b)) = true →
      pat.length ≤ e.a.length := by
    intro pat hlet hci
    rw [htl, hL] at hci
    exact ciStarts_letters_le hlet rfl (by decide) (by decide) hci
  have hdropk : ∀ k : Nat, k ≤ e.a.length →
      (trimL (e.a ++ [' '] ++ e.op ++ [' '] ++ e.b)).drop k
        = e.a.drop k ++ (' ' :: (e.op ++ ' ' :: e.b)) := by
    intro k hk
    rw [htl, hL, List.drop_append_of_le_length hk]
  have htail_mem : ∀ {k : Nat} {d : Char} {ds : Str}, e.a.drop (k + 1) = d :: ds →
      wordHyphen d = true := by
    intro k d ds hdr
    apply has0
    have : d ∈ e.a.drop (k + 1) := by rw [hdr]; simp
    rw [hae, List.drop_succ_cons] at this
    exact List.mem_of_mem_drop this
  have hmt2 : matchToken (trimL (' ' :: (e.op ++ ' ' :: e.b))) = none := by
    have h1 : trimL (' ' :: (e.op ++ ' ' :: e.b)) = trimL (e.op ++ ' ' :: e.b) := by
      rw [show (' ' :: (e.op ++ ' ' :: e.b)) = [' '] ++ (e.op ++ ' ' :: e.b) from rfl]
      exact trimL_ws_append _ (by intro c hc; simp at hc; rw [hc]; rfl)
    rw [h1, hoe, List.cons_append, trimL_cons_nonws _ ho0ws]
    simp [matchToken, ho0letter]
  have hcd : classDefTest (e.a ++ [' '] ++ e.op ++ [' '] ++ e.b) = false := by
    simp only [classDefTest]
    cases hci : ciStarts litClassDef (trimL (e.a ++ [' '] ++ e.op ++ [' '] ++ e.b)) with
    | false => simp
    | true =>
        have h8 : 8 ≤ e.a.length := by
          have := hid8 litClassDef litClassDef_letters hci
          simpa [litClassDef] using this
        rw [if_pos rfl, hdropk 8 h8]
        cases hdr : e.a.drop 8 with
        | nil =>
            rw [List.nil_append]
            simp only [show wsChar ' ' = true from rfl, if_true, hmt2]
        | cons d8 ds =>
            rw [List.cons_append]
            simp [wordHyphen_not_ws (htail_mem hdr)]
  have hca : classAssignMatch (e.a ++ [' '] ++ e.op ++ [' '] ++ e.b) = none := by
    simp only [classAssignMatch]
    cases hci : ciStarts litClass (trimL (e.a ++ [' '] ++ e.op ++ [' '] ++ e.b)) with
    | false => simp
    | true =>
        have h5 : 5 ≤ e.a.length := by
          have := hid8 litClass litClass_letters hci
          simpa [litClass] using this
        cases hdr : e.a.drop 5 with
        | nil =>
            exfalso
            have ha5 : e.a.length = 5 := by
              have := List.drop_eq_nil_iff.mp hdr
              omega
            have hcia : ciStarts litClass e.a = true := by
              rw [htl, hL, ciStarts_append_long _ (by simpa [litClass] using h5)] at hci
              exact hci
            have := ciStarts_exact hcia (by simpa [litClass] using ha5)
            rw [show litClass.map Char.toLower = litClass from by decide] at this
            exact hcl this
        | cons d5 ds =>
            rw [if_pos rfl, hdropk 5 h5, hdr, List.cons_append]
            simp [wordHyphen_not_ws (htail_mem hdr)]
  have hhm : headerMatch (e.a ++ [' '] ++ e.op ++ [' '] ++ e.b) = none := by
    simp only [headerMatch]
    cases hci : ciStarts litSubgraph (trimL (e.a ++ [' '] ++ e.op ++ [' '] ++ e.b)) with
    | false => simp
    | true =>
        have h8 : 8 ≤ e.a.length := by
          have := hid8 litSubgraph litSubgraph_letters hci
          simpa [litSubgraph] using this
        have hcia : ciStarts litSubgraph e.a = true := by
          rw [htl, hL, ciStarts_append_long _ (by simpa [litSubgraph] using h8)] at hci
          exact hci
        rw [if_pos rfl, hdropk 8 h8]
        cases hdr : e.a.drop 8 with
        | nil => exact absurd ⟨hcia, Or.inl hdr⟩ wf.nsub
        | cons d8 ds =>
            have hd8ne : ¬d8 = '-' := by
              intro he
              exact wf.nsub ⟨hcia, Or.inr ⟨ds, by rw [← he]; exact hdr⟩⟩
            rw [List.cons_append]
            simp [wordChar_of_wordHyphen_ne (htail_mem hdr) hd8ne]
  have hend : endTest (e.a ++ [' '] ++ e.op ++ [' '] ++ e.b) = false := by
    have hlen : ¬((e.a ++ [' '] ++ e.op ++ [' '] ++ e.b).length = 3) := by
      simp only [hae, hoe, hbe, List.length_append, List.length_cons]
      simp
      omega
    simp only [endTest, htr]
    rw [decide_eq_false hlen]
    rfl
  have hpn : parseNodeLine (e.a ++ [' '] ++ e.op ++ [' '] ++ e.b) = none := by
    unfold parseNodeLine
    rw [hmt]
    simp only
    have h1 : trimL (' ' :: (e.op ++ ' ' :: e.b)) = e.op ++ ' ' :: e.b := by
      rw [show (' ' :: (e.op ++ ' ' :: e.b)) = [' '] ++ (e.op ++ ' ' :: e.b) from rfl,
        trimL_ws_append _ (by intro c hc; simp at hc; rw [hc]; rfl),
        hoe, List.cons_append, trimL_cons_nonws _ ho0ws, ← List.cons_append, ← hoe]
    have hPP : hasPP (e.op ++ ' ' :: e.b) = false := by
      apply hasPP_append_false
      · exact hasPP_of_no_pct (fun c hc => (opChar_facts (wf.opAll c hc)).2.2)
      · apply hasPP_of_no_pct
        intro c hc
        rcases List.mem_cons.mp hc with rfl | hc2
        · decide
        · exact wordHyphen_not_pct (wf.tb.all_wordHyphen c hc2)
      · intro x y hx hy
        rintro ⟨-, rfl⟩
        simp at hy
    have hlast2 : (e.op ++ ' ' :: e.b).getLast? = some bl := by
      rw [List.getLast?_append_of_ne_nil _ (by simp),
        show (' ' :: e.b) = [' '] ++ e.b from rfl,
        List.getLast?_append_of_ne_nil _ hbne]
      exact hbl
    have h2 : trim (takeBeforePP (trimL (' ' :: (e.op ++ ' ' :: e.b))))
        = e.op ++ ' ' :: e.b := by
      rw [h1, takeBeforePP_eq_self hPP]
      exact trim_eq_self (by rw [hoe]; rfl) ho0ws hlast2 (wordHyphen_not_ws hblwh)
    rw [h2, if_neg (by rw [hoe]; simp)]
    apply findPair_none_all
    intro p hp
    right
    obtain ⟨hpcl, -⟩ := pairs_pc_facts p hp
    rcases hpcl with h | h | h <;>
      exact endsWith_false_of_last_ne hlast2 h
        (by intro he; rw [he] at hblwh; exact absurd hblwh (by decide))
  have hedge : edgeMatch (e.a ++ [' '] ++ e.op ++ [' '] ++ e.b)
      = some (e.a, e.op, e.b) := by
    unfold edgeMatch
    rw [hmt]
    simp only
    have hetail : edgeTail (' ' :: (e.op ++ ' ' :: e.b)) = some (e.op, e.b) := by
      simp only [edgeTail]
      have h1 : trimL (' ' :: (e.op ++ ' ' :: e.b)) = e.op ++ ' ' :: e.b := by
        rw [show (' ' :: (e.op ++ ' ' :: e.b)) = [' '] ++ (e.op ++ ' ' :: e.b) from rfl,
          trimL_ws_append _ (by intro c hc; simp at hc; rw [hc]; rfl),
          hoe, List.cons_append, trimL_cons_nonws _ ho0ws, ← List.cons_append, ← hoe]
      rw [h1]
      have htw : (e.op ++ ' ' :: e.b).takeWhile (fun c => opChar c) = e.op := by
        rw [takeWhile_all_append _ wf.opAll, List.takeWhile_cons_of_neg (by decide)]
        simp
      rw [htw, if_neg wf.opNe, List.drop_left]
      have h3 : trimL (' ' :: e.b) = e.b := by
        rw [show (' ' :: e.b) = [' '] ++ e.b from rfl,
          trimL_ws_append _ (by intro c hc; simp at hc; rw [hc]; rfl), hbe,
          trimL_cons_nonws _ (letter_not_ws hb0), ← hbe]
      rw [h3]
      have h4 : matchToken e.b = some (e.b, []) := by
        have := matchToken_tok [] wf.tb (Or.inl rfl)
        rwa [List.append_nil] at this
      rw [h4]
      simp [trimL]
    cases hT : e.a.length with
    | zero => rw [hae] at hT; simp at hT
    | succ k =>
        simp only [edgeLoop]
        have hdk : e.a.drop (k + 1) = [] := by rw [← hT]; exact List.drop_length _
        rw [hdk, List.nil_append, hetail]
        have htk : e.a.take (k + 1) = e.a := by rw [← hT]; exact List.take_length _
        rw [htk]
  unfold classify
  rw [if_neg htrne, hcm, hcd]
  simp only [Bool.false_eq_true, if_false]
  rw [hca, hhm, hend]
  simp only [Bool.false_eq_true, if_false]
  rw [hpn, hedge]

/-! ### Neutral re-classification of the other emitted lines -/

theorem edgeTail_none_trimL_nonop {s : Str} {c : Char} {cs : Str}
    (h : trimL s = c :: cs) (hop : opChar c = false) : edgeTail s = none := by
  simp only [edgeTail, h]
  rw [List.takeWhile_cons_of_neg (by simp [hop])]
  simp

theorem edgeTail_none_head_nonop {c : Char} {s : Str} (hws : wsChar c = false)
    (hop : opChar c = false) : edgeTail (c :: s) = none :=
  edgeTail_none_trimL_nonop (trimL_cons_nonws _ hws) hop

theorem takeBeforePP_head_ne_pct {c : Char} (cs : Str) (h : ¬c = '%') :
    ∃ Z, takeBeforePP (c :: cs) = c :: Z := by
  cases cs with
  | nil => exact ⟨[], rfl⟩
  | cons b r =>
      simp only [takeBeforePP]
      rw [if_neg (by simp [h])]
      exact ⟨_, rfl⟩

theorem trim_cons_head {c : Char} (cs : Str) (h : wsChar c = false) :
    ∃ Z, trim (c :: cs) = c :: Z := by
  unfold trim
  rw [trimL_cons_nonws _ h, trimR_cons]
  by_cases hz : trimR cs = []
  · rw [if_pos hz, if_neg (by simp [h])]
    exact ⟨[], rfl⟩
  · rw [if_neg hz]
    exact ⟨trimR cs, rfl⟩

theorem findPair_none_letter_head {id : Str} {g : Char} {Z : Str}
    (hg : letterChar g = true) :
    findPair id (g :: Z) sortedPairs = none := by
  apply findPair_none_all
  intro p hp
  left
  obtain ⟨hph, -⟩ := pairs_po_facts p hp
  cases hpo2 : p.po with
  | nil => rw [hpo2] at hph; rcases hph with h | h | h | h <;> cases h
  | cons bc po' =>
      rw [hpo2] at hph
      simp only [List.head?_cons, Option.some_inj] at hph
      apply startsWith_cons_ne
      rcases hph with rfl | rfl | rfl | rfl <;>
        · intro he
          rw [he] at hg
          exact absurd hg (by decide)

/-- A stored `classDef` line never re-parses as a node or an edge. -/
theorem classdef_no_decl_edge {cd : Str} (wf : ClassDefWF cd) :
    parseNodeLine cd = none ∧ edgeMatch cd = none := by
  have hst := wf.starts
  rw [show litClassDef = 'c' :: 'l' :: 'a' :: 's' :: 's' :: 'D' :: 'e' :: 'f' :: [] from rfl] at hst
  obtain ⟨d0, r1, he1, hc1, hst⟩ := ciStarts_cons hst
  obtain ⟨d1, r2, he2, hc2, hst⟩ := ciStarts_cons hst
  obtain ⟨d2, r3, he3, hc3, hst⟩ := ciStarts_cons hst
  obtain ⟨d3, r4, he4, hc4, hst⟩ := ciStarts_cons hst
  obtain ⟨d4, r5, he5, hc5, hst⟩ := ciStarts_cons hst
  obtain ⟨d5, r6, he6, hc6, hst⟩ := ciStarts_cons hst
  obtain ⟨d6, r7, he7, hc7, hst⟩ := ciStarts_cons hst
  obtain ⟨d7, r8, he8, hc8, -⟩ := ciStarts_cons hst
  have hd0 : letterChar d0 = true := letterChar_of_ciEq hc1 (by decide)
  have hd1 : letterChar d1 = true := letterChar_of_ciEq hc2 (by decide)
  have hd2 : letterChar d2 = true := letterChar_of_ciEq hc3 (by decide)
  have hd3 : letterChar d3 = true := letterChar_of_ciEq hc4 (by decide)
  have hd4 : letterChar d4 = true := letterChar_of_ciEq hc5 (by decide)
  have hd5 : letterChar d5 = true := letterChar_of_ciEq hc6 (by decide)
  have hd6 : letterChar d6 = true := letterChar_of_ciEq hc7 (by decide)
  have hd7 : letterChar d7 = true := letterChar_of_ciEq hc8 (by decide)
  have hcd8 : cd.drop 8 = r8 := by
    rw [he1, he2, he3, he4, he5, he6, he7, he8]
    rfl
  obtain ⟨w, wt, hw8, hww⟩ := wf.wsAfter
  have hr8 : r8 = w :: wt := by rw [← hcd8]; exact hw8
  have hcdeq : cd = [d0, d1, d2, d3, d4, d5, d6, d7] ++ (w :: wt) := by
    rw [he1, he2, he3, he4, he5, he6, he7, he8, hr8]
    rfl
  have hwwh : wordHyphen w = false := by
    cases hx : wordHyphen w
    · rfl
    · rw [wordHyphen_not_ws hx] at hww; cases hww
  have htok : IsTok [d0, d1, d2, d3, d4, d5, d6, d7] := by
    refine ⟨d0, [d1, d2, d3, d4, d5, d6, d7], rfl, hd0, ?_⟩
    intro d hd
    simp only [List.mem_cons, List.not_mem_nil, or_false] at hd
    rcases hd with rfl | rfl | rfl | rfl | rfl | rfl | rfl <;>
      exact letter_wordHyphen (by assumption)
  have htl : trimL cd = cd := by
    rw [hcdeq]
    simp only [List.cons_append]
    exact trimL_cons_nonws _ (letter_not_ws hd0)
  have hmt : matchToken (trimL cd)
      = some ([d0, d1, d2, d3, d4, d5, d6, d7], w :: wt) := by
    rw [htl, hcdeq]
    exact matchToken_tok _ htok (Or.inr ⟨w, wt, rfl, hwwh⟩)
  obtain ⟨g0, gt, hg, hgl⟩ := wf.letterAfter
  have hgwt : trimL (w :: wt) = g0 :: gt := by rw [← hw8]; exact hg
  constructor
  · unfold parseNodeLine
    rw [hmt]
    simp only
    rw [hgwt]
    obtain ⟨Z1, hZ1⟩ := takeBeforePP_head_ne_pct gt (letter_ne_pct hgl)
    rw [hZ1]
    obtain ⟨Z2, hZ2⟩ := trim_cons_head Z1 (letter_not_ws hgl)
    rw [hZ2, if_neg (by simp)]
    exact findPair_none_letter_head hgl
  · unfold edgeMatch
    rw [hmt]
    simp only
    apply edgeLoop_none_of
    intro k hk
    have hk' : k < 8 := by simpa using hk
    rcases (show k = 0 ∨ k = 1 ∨ k = 2 ∨ (k = 3 ∨ k = 4) ∨ k = 5 ∨ k = 6 ∨ k = 7
        from by omega) with rfl | rfl | rfl | (rfl | rfl) | rfl | rfl | rfl
    · exact edgeTail_none_head_nonop (letter_not_ws hd1) (letter_not_op hd1)
    · exact edgeTail_none_head_nonop (letter_not_ws hd2) (letter_not_op hd2)
    · exact edgeTail_none_head_nonop (letter_not_ws hd3) (letter_not_op hd3)
    · exact edgeTail_none_head_nonop (letter_not_ws hd4) (letter_not_op hd4)
    · exact edgeTail_none_head_nonop (letter_not_ws hd5) (letter_not_op hd5)
    · exact edgeTail_none_head_nonop (letter_not_ws hd6) (letter_not_op hd6)
    · exact edgeTail_none_head_nonop (letter_not_ws hd7) (letter_not_op hd7)
    · have he : trimL ([] ++ (w :: wt)) = g0 :: gt := by
        rw [List.nil_append]; exact hgwt
      exact edgeTail_none_trimL_nonop he (letter_not_op hgl)

/-- An emitted `click` line never re-parses as a node or an edge. -/
theorem click_no_decl_edge {id : Str} (hid : IsTok id) :
    parseNodeLine (litClick ++ id ++ litMyCallback) = none
    ∧ edgeMatch (litClick ++ id ++ litMyCallback) = none := by
  obtain ⟨i0, is0, hie, hi0, his0⟩ := hid
  have hL : litClick ++ id ++ litMyCallback
      = ['c', 'l', 'i', 'c', 'k'] ++ (' ' :: (id ++ litMyCallback)) := rfl
  have hclicktok : IsTok ['c', 'l', 'i', 'c', 'k'] :=
    ⟨'c', ['l', 'i', 'c', 'k'], rfl, by decide, by decide⟩
  have htl : trimL (litClick ++ id ++ litMyCallback)
      = litClick ++ id ++ litMyCallback :=
    trimL_cons_nonws _ (by decide)
  have hmt : matchToken (trimL (litClick ++ id ++ litMyCallback))
      = some (['c', 'l', 'i', 'c', 'k'], ' ' :: (id ++ litMyCallback)) := by
    rw [htl, hL]
    exact matchToken_tok _ hclicktok (Or.inr ⟨' ', id ++ litMyCallback, rfl, by decide⟩)
  have htl2 : trimL (' ' :: (id ++ litMyCallback)) = id ++ litMyCallback := by
    rw [show (' ' :: (id ++ litMyCallback)) = [' '] ++ (id ++ litMyCallback) from rfl,
      trimL_ws_append _ (by intro c hc; simp at hc; rw [hc]; rfl), hie,
      List.cons_append, trimL_cons_nonws _ (letter_not_ws hi0), ← List.cons_append,
      ← hie]
  constructor
  · unfold parseNodeLine
    rw [hmt]
    simp only
    rw [htl2]
    have hPP : hasPP (id ++ litMyCallback) = false := by
      apply hasPP_append_false
      · exact hasPP_of_no_pct
          (fun c hc => wordHyphen_not_pct (IsTok.all_wordHyphen ⟨i0, is0, hie, hi0, his0⟩ c hc))
      · decide
      · intro x y hx hy
        rintro ⟨-, rfl⟩
        rw [show litMyCallback.head? = some ' ' from rfl] at hy
        cases hy
    rw [takeBeforePP_eq_self hPP, hie, List.cons_append]
    obtain ⟨Z2, hZ2⟩ := trim_cons_head (is0 ++ litMyCallback) (letter_not_ws hi0)
    rw [hZ2, if_neg (by simp)]
    exact findPair_none_letter_head hi0
  · unfold edgeMatch
    rw [hmt]
    simp only
    apply edgeLoop_none_of
    intro k hk
    have hk' : k < 5 := by simpa using hk
    have hk5 : k = 0 ∨ k = 1 ∨ k = 2 ∨ k = 3 ∨ k = 4 := by omega
    rcases hk5 with rfl | rfl | rfl | rfl | rfl
    · exact edgeTail_none_head_nonop (by decide) (by decide)
    · exact edgeTail_none_head_nonop (by decide) (by decide)
    · exact edgeTail_none_head_nonop (by decide) (by decide)
    · exact edgeTail_none_head_nonop (by decide) (by decide)
    · have he : trimL ([] ++ (' ' :: (id ++ litMyCallback)))
          = i0 :: (is0 ++ litMyCallback) := by
        rw [List.nil_append, htl2, hie, List.cons_append]
      exact edgeTail_none_trimL_nonop he (letter_not_op hi0)

/-- A stored subgraph header line still matches the header regex. -/
theorem headerMatch_stored {h : Str} (wf : HeaderWF h) :
    ∃ r, headerMatch h = some r := by
  have hst := wf.starts
  rw [show litSubgraph = 's' :: ['u', 'b', 'g', 'r', 'a', 'p', 'h'] from rfl] at hst
  obtain ⟨s0, srest, hse, hsci, -⟩ := ciStarts_cons hst
  have hs0ws : wsChar s0 = false := by
    cases hw : wsChar s0
    · rfl
    · rcases ws_elim hw with rfl | rfl | rfl | rfl | rfl | rfl <;>
        exact absurd hsci (by decide)
  have htl : trimL h = h := by
    rw [hse]
    exact trimL_cons_nonws _ hs0ws
  simp only [headerMatch, htl, wf.starts, if_pos rfl]
  rcases wf.bdry with hb | ⟨c, t, hb, hwc⟩
  · rw [hb]
    exact ⟨[], rfl⟩
  · rw [hb]
    refine ⟨c :: t, ?_⟩
    simp [hwc]

/-- An emitted class-assignment line still matches the class regex. -/
theorem caText_match {ids : List Str} {cname : Str}
    (hne : ids ≠ [])
    (hids : ∀ i ∈ ids, i ≠ [] ∧ ∀ c ∈ i, wsChar c = false ∧ ¬c = ',')
    (hcn : IsTok cname) :
    ∃ p, classAssignMatch (litClass ++ [' '] ++ List.intercalate [','] ids
      ++ [' '] ++ cname) = some p := by
  obtain ⟨i0, irest, hide⟩ : ∃ i0 irest, ids = i0 :: irest := by
    cases hi : ids with
    | nil => exact absurd hi hne
    | cons x xs => exact ⟨x, xs, rfl⟩
  obtain ⟨ic0, it, hi0e⟩ : ∃ ic0 it, i0 = ic0 :: it := by
    cases hi : i0 with
    | nil => exact absurd hi (hids i0 (by rw [hide]; simp)).1
    | cons x xs => exact ⟨x, xs, rfl⟩
  have hic0ws : wsChar ic0 = false :=
    ((hids i0 (by rw [hide]; simp)).2 ic0 (by rw [hi0e]; simp)).1
  obtain ⟨Jt, hJ⟩ : ∃ Jt, List.intercalate [','] ids = ic0 :: Jt := by
    rw [hide]
    cases irest with
    | nil => rw [intercalate_single, hi0e]; exact ⟨it, rfl⟩
    | cons j jrest =>
        rw [intercalate_cons_cons, hi0e]
        exact ⟨it ++ [','] ++ List.intercalate [','] (j :: jrest), by simp⟩
  obtain ⟨c0, cs0, hce, hc0, hcs0⟩ := hcn
  have hLeq : litClass ++ [' '] ++ List.intercalate [','] ids ++ [' '] ++ cname
      = litClass ++ (' ' :: (List.intercalate [','] ids ++ ' ' :: cname)) := by
    simp
  have htl : trimL (litClass ++ [' '] ++ List.intercalate [','] ids
      ++ [' '] ++ cname) = litClass ++ [' ']
      ++ List.intercalate [','] ids ++ [' '] ++ cname :=
    trimL_cons_nonws _ (by decide)
  have hr2 : trimL (' ' :: (List.intercalate [','] ids ++ ' ' :: cname))
      = List.intercalate [','] ids ++ ' ' :: cname := by
    rw [show (' ' :: (List.intercalate [','] ids ++ ' ' :: cname))
        = [' '] ++ (List.intercalate [','] ids ++ ' ' :: cname) from rfl,
      trimL_ws_append _ (by intro c hc; simp at hc; rw [hc]; rfl), hJ,
      List.cons_append, trimL_cons_nonws _ hic0ws, ← List.cons_append, ← hJ]
  simp only [classAssignMatch, htl]
  rw [hLeq, ciStarts_self_append, if_pos rfl]
  rw [show (litClass ++ (' ' :: (List.intercalate [','] ids ++ ' ' :: cname))).drop 5
      = ' ' :: (List.intercalate [','] ids ++ ' ' :: cname) from by
    rw [show (5 : Nat) = litClass.length from rfl]
    exact List.drop_left _ _]
  simp only [hr2, show wsChar ' ' = true from rfl, if_true]
  rw [if_neg (by rw [hJ]; simp)]
  have hj : (caTry (List.intercalate [','] ids ++ ' ' :: cname)
      (List.intercalate [','] ids).length).isSome = true := by
    have hmtc : matchToken (trimL (' ' :: cname)) = some (cname, []) := by
      rw [show (' ' :: cname) = [' '] ++ cname from rfl,
        trimL_ws_append _ (by intro c hc; simp at hc; rw [hc]; rfl), hce,
        trimL_cons_nonws _ (letter_not_ws hc0), ← hce]
      have := matchToken_tok [] ⟨c0, cs0, hce, hc0, hcs0⟩ (Or.inl rfl)
      rwa [List.append_nil] at this
    unfold caTry
    rw [List.drop_left]
    simp only [hmtc, show wsChar ' ' = true from rfl, if_true, eq_self_iff_true]
    rw [if_pos (show trimL [] = [] from rfl)]
    rfl
  have hlenJ : 1 ≤ (List.intercalate [','] ids).length := by rw [hJ]; simp
  have hlt : (List.intercalate [','] ids).length
      < 1 + (List.intercalate [','] ids ++ ' ' :: cname).length := by
    rw [List.length_append, List.length_cons]
    omega
  have := caLoop_isSome hlenJ hlt hj
  exact Option.isSome_iff_exists.mp this

/-! ### Further classification inversions -/

theorem classify_inv_headerL {l r : Str} (h : classify l = .headerL r) :
    headerMatch l = some r := by
  unfold classify at h
  by_cases h1 : trim l = []
  · rw [if_pos h1] at h; cases h
  rw [if_neg h1] at h
  by_cases h2 : commentTest l = true
  · rw [if_pos h2] at h; cases h
  rw [if_neg h2] at h
  by_cases h3 : classDefTest l = true
  · rw [if_pos h3] at h; cases h
  rw [if_neg h3] at h
  cases h4 : classAssignMatch l with
  | some p => obtain ⟨i, c⟩ := p; rw [h4] at h; cases h
  | none =>
      rw [h4] at h
      cases h5 : headerMatch l with
      | some r2 =>
          rw [h5] at h
          cases h
          rfl
      | none =>
          rw [h5] at h
          by_cases h6 : endTest l = true
          · rw [if_pos h6] at h; cases h
          rw [if_neg h6] at h
          cases h7 : parseNodeLine l with
          | some np2 => rw [h7] at h; cases h
          | none =>
              rw [h7] at h
              cases h8 : edgeMatch l with
              | some t => obtain ⟨a2, o2, b2⟩ := t; rw [h8] at h; cases h
              | none => rw [h8] at h; cases h

theorem classify_inv_classDefL {l : Str} (h : classify l = .classDefL) :
    classDefTest l = true := by
  unfold classify at h
  by_cases h1 : trim l = []
  · rw [if_pos h1] at h; cases h
  rw [if_neg h1] at h
  by_cases h2 : commentTest l = true
  · rw [if_pos h2] at h; cases h
  rw [if_neg h2] at h
  by_cases h3 : classDefTest l = true
  · exact h3
  rw [if_neg h3] at h
  cases h4 : classAssignMatch l with
  | some p => obtain ⟨i, c⟩ := p; rw [h4] at h; cases h
  | none =>
      rw [h4] at h
      cases h5 : headerMatch l with
      | some r2 => rw [h5] at h; cases h
      | none =>
          rw [h5] at h
          by_cases h6 : endTest l = true
          · rw [if_pos h6] at h; cases h
          rw [if_neg h6] at h
          cases h7 : parseNodeLine l with
          | some np2 => rw [h7] at h; cases h
          | none =>
              rw [h7] at h
              cases h8 : edgeMatch l with
              | some t => obtain ⟨a2, o2, b2⟩ := t; rw [h8] at h; cases h
              | none => rw [h8] at h; cases h

theorem classify_inv_caL {l i c : Str} (h : classify l = .classAssignL i c) :
    classAssignMatch l = some (i, c) := by
  unfold classify at h
  by_cases h1 : trim l = []
  · rw [if_pos h1] at h; cases h
  rw [if_neg h1] at h
  by_cases h2 : commentTest l = true
  · rw [if_pos h2] at h; cases h
  rw [if_neg h2] at h
  by_cases h3 : classDefTest l = true
  · rw [if_pos h3] at h; cases h
  rw [if_neg h3] at h
  cases h4 : classAssignMatch l with
  | some p =>
      obtain ⟨i2, c2⟩ := p
      rw [h4] at h
      cases h
      rfl
  | none =>
      rw [h4] at h
      cases h5 : headerMatch l with
      | some r2 => rw [h5] at h; cases h
      | none =>
          rw [h5] at h
          by_cases h6 : endTest l = true
          · rw [if_pos h6] at h; cases h
          rw [if_neg h6] at h
          cases h7 : parseNodeLine l with
          | some np2 => rw [h7] at h; cases h
          | none =>
              rw [h7] at h
              cases h8 : edgeMatch l with
              | some t => obtain ⟨a2, o2, b2⟩ := t; rw [h8] at h; cases h
              | none => rw [h8] at h; cases h

/-! ### Remaining fold projections -/

/-- The classDef entry a main-loop line contributes, if any. -/
def cdOf (line : Str) : Option Str :=
  match classify line with
  | .classDefL => some (trim line)
  | _ => none

theorem step_classDefs (st : PState) (line : Str) :
    (step st line).classDefs = st.classDefs ++ (cdOf line).toList := by
  unfold step cdOf
  cases hc : classify line <;> try simp
  case classAssignL i c =>
    split <;> simp
  case nodeL np =>
    cases st.cur <;> simp

theorem foldl_classDefs (ls : List Str) :
    ∀ st : PState, (ls.foldl step st).classDefs = st.classDefs ++ ls.filterMap cdOf := by
  induction ls with
  | nil => intro st; simp
  | cons l ls ih =>
      intro st
      simp only [List.foldl_cons, List.filterMap_cons]
      rw [ih, step_classDefs]
      cases he : cdOf l <;> simp

/-- The class-assignment entry a main-loop line contributes, if any. -/
def caOf (line : Str) : Option ClassAssign :=
  match classify line with
  | .classAssignL i c => if splitIds i = [] then none else some ⟨splitIds i, c⟩
  | _ => none

theorem step_classAssigns (st : PState) (line : Str) :
    (step st line).classAssigns = st.classAssigns ++ (caOf line).toList := by
  unfold step caOf
  cases hc : classify line <;> try simp
  case classAssignL i c =>
    by_cases hi : splitIds i = []
    · rw [if_pos hi, if_pos hi]; simp
    · rw [if_neg hi, if_neg hi]; simp
  case nodeL np =>
    cases st.cur <;> simp

theorem foldl_classAssigns (ls : List Str) :
    ∀ st : PState,
      (ls.foldl step st).classAssigns = st.classAssigns ++ ls.filterMap caOf := by
  induction ls with
  | nil => intro st; simp
  | cons l ls ih =>
      intro st
      simp only [List.foldl_cons, List.filterMap_cons]
      rw [ih, step_classAssigns]
      cases he : caOf l <;> simp

/-! ### Well-formedness of stored header lines -/

theorem headerMatch_wf {line r : Str} (h : headerMatch line = some r)
    (hnl : '\n' ∉ line) : HeaderWF (trim line) := by
  have hnltrim : '\n' ∉ trim line := fun hm => hnl (mem_trim hm)
  simp only [headerMatch] at h
  cases hci : ciStarts litSubgraph (trimL line) with
  | false => rw [hci] at h; exact absurd h (by simp)
  | true =>
      rw [hci, if_pos rfl] at h
      have hst := hci
      rw [show litSubgraph = 's' :: 'u' :: 'b' :: 'g' :: 'r' :: 'a' :: 'p' :: 'h' :: [] from rfl] at hst
      obtain ⟨s0, t1, he1, hc1, hst⟩ := ciStarts_cons hst
      obtain ⟨s1, t2, he2, hc2, hst⟩ := ciStarts_cons hst
      obtain ⟨s2, t3, he3, hc3, hst⟩ := ciStarts_cons hst
      obtain ⟨s3, t4, he4, hc4, hst⟩ := ciStarts_cons hst
      obtain ⟨s4, t5, he5, hc5, hst⟩ := ciStarts_cons hst
      obtain ⟨s5, t6, he6, hc6, hst⟩ := ciStarts_cons hst
      obtain ⟨s6, t7, he7, hc7, hst⟩ := ciStarts_cons hst
      obtain ⟨s7, t8, he8, hc8, -⟩ := ciStarts_cons hst
      have hs7 : letterChar s7 = true := letterChar_of_ciEq hc8 (by decide)
      have hXeq : trimL line = [s0, s1, s2, s3, s4, s5, s6, s7] ++ t8 := by
        rw [he1, he2, he3, he4, he5, he6, he7, he8]
        rfl
      have hX8 : (trimL line).drop 8 = t8 := by rw [hXeq]; rfl
      have hciD : ciStarts litSubgraph [s0, s1, s2, s3, s4, s5, s6, s7] = true := by
        rw [show litSubgraph = 's' :: 'u' :: 'b' :: 'g' :: 'r' :: 'a' :: 'p' :: 'h' :: [] from rfl]
        simp [ciStarts, hc1, hc2, hc3, hc4, hc5, hc6, hc7, hc8]
      have htrD : trimR [s0, s1, s2, s3, s4, s5, s6, s7]
          = [s0, s1, s2, s3, s4, s5, s6, s7] :=
        trimR_eq_self rfl (letter_not_ws hs7)
      have htrim : trim line = trimR (trimL line) := rfl
      by_cases ht8 : trimR t8 = []
      · have htrimeq : trim line = [s0, s1, s2, s3, s4, s5, s6, s7] := by
          rw [htrim, hXeq, trimR_append, if_pos ht8, htrD]
        rw [htrimeq] at hnltrim
        rw [htrimeq]
        exact ⟨hciD, Or.inl rfl, hnltrim⟩
      · have htrimeq : trim line
            = [s0, s1, s2, s3, s4, s5, s6, s7] ++ trimR t8 := by
          rw [htrim, hXeq, trimR_append, if_neg ht8]
        rw [htrimeq] at hnltrim
        rw [htrimeq]
        refine ⟨?_, ?_, hnltrim⟩
        · have h8len : litSubgraph.length ≤ ([s0,s1,s2,s3,s4,s5,s6,s7] : Str).length := by
            simp [litSubgraph]
          rw [ciStarts_append_long _ h8len]
          exact hciD
        · right
          cases hd8 : t8 with
          | nil => rw [hd8] at ht8; exact absurd rfl ht8
          | cons c t =>
              have hwc : wordChar c = false := by
                cases hx : wordChar c
                · rfl
                · exfalso
                  rw [hX8, hd8] at h
                  simp [hx] at h
              cases htr8 : trimR t8 with
              | nil => exact absurd htr8 ht8
              | cons c2 t2' =>
                  have hhead : (trimR t8).head? = t8.head? := trimR_head t8 ht8
                  rw [htr8, hd8] at hhead
                  simp only [List.head?_cons, Option.some_inj] at hhead
                  refine ⟨c, t2', ?_, hwc⟩
                  rw [← hd8, htr8, hhead]
                  rfl

/-- All subgraph records of a state (flushed and open). -/
def stSubgraphs (st : PState) : List Subgraph := st.sgsDone ++ st.cur.toList

theorem step_subgraph_headers {st : PState} {line : Str}
    (h : ∀ sg ∈ stSubgraphs st, HeaderWF sg.headerLine) (hnl : '\n' ∉ line) :
    ∀ sg ∈ stSubgraphs (step st line), HeaderWF sg.headerLine := by
  intro sg hsg
  unfold step at hsg
  cases hc : classify line <;> rw [hc] at hsg
  case blank => exact h sg hsg
  case comment => exact h sg hsg
  case classDefL => exact h sg hsg
  case classAssignL i c =>
      dsimp only at hsg
      split at hsg <;> exact h sg hsg
  case headerL r =>
      simp only [stSubgraphs, List.mem_append, Option.mem_toList] at hsg ⊢
      rcases hsg with (hsg | hsg) | hsg
      · exact h sg (by simp [stSubgraphs, hsg])
      · exact h sg (by
          simp only [stSubgraphs, List.mem_append, Option.mem_toList]
          right
          exact hsg)
      · simp only [Option.mem_def, Option.some_inj] at hsg
        rw [← hsg]
        exact headerMatch_wf (classify_inv_headerL hc) hnl
  case endL =>
      simp only [stSubgraphs, List.mem_append, Option.mem_toList] at hsg ⊢
      rcases hsg with (hsg | hsg) | hsg
      · exact h sg (by simp [stSubgraphs, hsg])
      · exact h sg (by
          simp only [stSubgraphs, List.mem_append, Option.mem_toList]
          right
          exact hsg)
      · simp at hsg
  case nodeL np =>
      dsimp only at hsg
      cases hcur : st.cur with
      | none =>
          rw [hcur] at hsg
          dsimp only at hsg
          exact h sg (by simpa [stSubgraphs, hcur] using hsg)
      | some sg0 =>
          rw [hcur] at hsg
          dsimp only at hsg
          simp only [stSubgraphs, List.mem_append, Option.toList_some,
            List.mem_singleton] at hsg
          rcases hsg with hsg | hsg
          · exact h sg (by simp [stSubgraphs, hsg])
          · rw [hsg]
            have : HeaderWF sg0.headerLine := h sg0 (by simp [stSubgraphs, hcur])
            simpa using this
  case edgeL a o b => exact h sg hsg
  case droppedL => exact h sg hsg

/-! ### Well-formedness of stored classDef lines -/

theorem classDefTest_wf {line : Str} (h : classDefTest line = true)
    (hnl : '\n' ∉ line) : ClassDefWF (trim line) := by
  have hnltrim : '\n' ∉ trim line := fun hm => hnl (mem_trim hm)
  simp only [classDefTest] at h
  cases hci : ciStarts litClassDef (trimL line) with
  | false => rw [hci] at h; exact absurd h (by simp)
  | true =>
      rw [hci, if_pos rfl] at h
      cases hd8 : (trimL line).drop 8 with
      | nil => rw [hd8] at h; exact absurd h (by simp)
      | cons w cs =>
          rw [hd8] at h
          by_cases hws : wsChar w = true
          case neg => simp [hws] at h
          simp only [hws, if_true] at h
          cases hmt : matchToken (trimL (w :: cs)) with
          | none => rw [hmt] at h; simp at h
          | some p =>
              obtain ⟨cls, r4⟩ := p
              obtain ⟨hclstok, hclseq, -⟩ := matchToken_structure hmt
              obtain ⟨k0, ks, hke, hk0, hks⟩ := hclstok
              obtain ⟨klast, hklast, hklastwh⟩ := IsTok_getLast ⟨k0, ks, hke, hk0, hks⟩
              -- split the raw remainder into its whitespace run and the rest
              have hWp : w :: cs = (w :: cs).takeWhile (fun c => wsChar c)
                  ++ (cls ++ r4) := by
                rw [← hclseq]
                exact (List.takeWhile_append_dropWhile _ _).symm
              have hWphead : (w :: cs).takeWhile (fun c => wsChar c)
                  = w :: cs.takeWhile (fun c => wsChar c) :=
                List.takeWhile_cons_of_pos (by simp [hws])
              have hWpws : ∀ c ∈ (w :: cs).takeWhile (fun c => wsChar c),
                  wsChar c = true := by
                intro c hc
                exact List.mem_takeWhile_imp hc
              -- destructure the eight literal positions
              have hst := hci
              rw [show litClassDef = 'c' :: 'l' :: 'a' :: 's' :: 's' :: 'D' :: 'e' :: 'f' :: []
                from rfl] at hst
              obtain ⟨d0, t1, he1, hcc1, hst⟩ := ciStarts_cons hst
              obtain ⟨d1, t2, he2, hcc2, hst⟩ := ciStarts_cons hst
              obtain ⟨d2, t3, he3, hcc3, hst⟩ := ciStarts_cons hst
              obtain ⟨d3, t4, he4, hcc4, hst⟩ := ciStarts_cons hst
              obtain ⟨d4, t5, he5, hcc5, hst⟩ := ciStarts_cons hst
              obtain ⟨d5, t6, he6, hcc6, hst⟩ := ciStarts_cons hst
              obtain ⟨d6, t7, he7, hcc7, hst⟩ := ciStarts_cons hst
              obtain ⟨d7, t8, he8, hcc8, -⟩ := ciStarts_cons hst
              have hXeq : trimL line = [d0, d1, d2, d3, d4, d5, d6, d7] ++ t8 := by
                rw [he1, he2, he3, he4, he5, he6, he7, he8]
                rfl
              have ht8 : t8 = w :: cs := by
                rw [← hd8, hXeq]
                rfl
              have hciD : ciStarts litClassDef [d0, d1, d2, d3, d4, d5, d6, d7]
                  = true := by
                rw [show litClassDef = 'c' :: 'l' :: 'a' :: 's' :: 's' :: 'D' :: 'e' :: 'f' :: []
                  from rfl]
                simp [ciStarts, hcc1, hcc2, hcc3, hcc4, hcc5, hcc6, hcc7, hcc8]
              -- compute the right trim of the whole line
              have hA1 : trimR (cls ++ r4) = cls ++ trimR r4 := by
                rw [trimR_append]
                by_cases hz : trimR r4 = []
                · rw [if_pos hz, hz, List.append_nil,
                    trimR_eq_self hklast (wordHyphen_not_ws hklastwh)]
                · rw [if_neg hz]
              have hA1ne : cls ++ trimR r4 ≠ [] := by rw [hke]; simp
              have hA2 : trimR ((w :: cs).takeWhile (fun c => wsChar c) ++ (cls ++ r4))
                  = (w :: cs).takeWhile (fun c => wsChar c) ++ (cls ++ trimR r4) := by
                rw [trimR_append, hA1, if_neg hA1ne]
              have hA2ne : (w :: cs).takeWhile (fun c => wsChar c)
                  ++ (cls ++ trimR r4) ≠ [] :=
                fun he => hA1ne (List.append_eq_nil.mp he).2
              have htrimeq : trim line = [d0, d1, d2, d3, d4, d5, d6, d7]
                  ++ ((w :: cs).takeWhile (fun c => wsChar c) ++ (cls ++ trimR r4)) := by
                rw [show trim line = trimR (trimL line) from rfl, hXeq, ht8]
                nth_rewrite 1 [hWp]
                rw [trimR_append, hA2, if_neg hA2ne]
              rw [htrimeq] at hnltrim
              rw [htrimeq]
              refine ⟨?_, ?_, ?_, hnltrim⟩
              · have h8len : litClassDef.length
                    ≤ ([d0, d1, d2, d3, d4, d5, d6, d7] : Str).length := by
                  simp [litClassDef]
                rw [ciStarts_append_long _ h8len]
                exact hciD
              · refine ⟨w, cs.takeWhile (fun c => wsChar c) ++ (cls ++ trimR r4), ?_, hws⟩
                rw [show (([d0, d1, d2, d3, d4, d5, d6, d7] : Str)
                    ++ ((w :: cs).takeWhile (fun c => wsChar c) ++ (cls ++ trimR r4))).drop 8
                  = (w :: cs).takeWhile (fun c => wsChar c) ++ (cls ++ trimR r4) from rfl,
                  hWphead]
                simp
              · refine ⟨k0, ks ++ trimR r4, ?_, hk0⟩
                rw [show (([d0, d1, d2, d3, d4, d5, d6, d7] : Str)
                    ++ ((w :: cs).takeWhile (fun c => wsChar c) ++ (cls ++ trimR r4))).drop 8
                  = (w :: cs).takeWhile (fun c => wsChar c) ++ (cls ++ trimR r4) from rfl,
                  trimL_ws_append _ hWpws, hke, List.cons_append,
                  trimL_cons_nonws _ (letter_not_ws hk0)]

/-! ### Well-formedness of stored class assignments -/

theorem caLoop_some_struct {r2 : Str} :
    ∀ {fuel i : Nat} {p : Str × Str}, caLoop r2 i fuel = some p →
      ∃ j, caTry r2 j = some p := by
  intro fuel
  induction fuel with
  | zero => intro i p h; simp [caLoop] at h
  | succ m ih =>
      intro i p h
      simp only [caLoop] at h
      cases hc : caTry r2 i with
      | some q =>
          rw [hc] at h
          simp only [Option.some_inj] at h
          exact ⟨i, by rw [hc, h]⟩
      | none =>
          rw [hc] at h
          exact ih h

theorem caTry_className {r2 : Str} {j : Nat} {i c : Str}
    (h : caTry r2 j = some (i, c)) : IsTok c := by
  unfold caTry at h
  cases hd : r2.drop j with
  | nil => rw [hd] at h; exact absurd h (by simp)
  | cons w cs =>
      rw [hd] at h
      by_cases hws : wsChar w = true
      case neg => simp [hws] at h
      simp only [hws, if_true] at h
      cases hmt : matchToken (trimL (w :: cs)) with
      | none => rw [hmt] at h; simp at h
      | some p =>
          obtain ⟨b, r4⟩ := p
          rw [hmt] at h
          by_cases h4 : trimL r4 = []
          · simp only [h4, if_true, eq_self_iff_true, Option.some_inj,
              Prod.mk.injEq] at h
            rw [← h.2]
            exact (matchToken_structure hmt).1
          · simp [h4] at h

theorem caOf_wf {line : Str} {ca : ClassAssign} (h : caOf line = some ca) :
    CaWF ca := by
  unfold caOf at h
  cases hc : classify line <;> rw [hc] at h
  case blank => exact absurd h (by simp)
  case comment => exact absurd h (by simp)
  case classDefL => exact absurd h (by simp)
  case headerL r => exact absurd h (by simp)
  case endL => exact absurd h (by simp)
  case nodeL np => exact absurd h (by simp)
  case edgeL a o b => exact absurd h (by simp)
  case droppedL => exact absurd h (by simp)
  case classAssignL i c =>
      by_cases hi : splitIds i = []
      · simp [hi] at h
      · simp only [if_neg hi, Option.some_inj] at h
        have hca := classify_inv_caL hc
        have htok : IsTok c := by
          simp only [classAssignMatch] at hca
          cases hci : ciStarts litClass (trimL line) with
          | false => rw [hci] at hca; exact absurd hca (by simp)
          | true =>
              rw [hci, if_pos rfl] at hca
              cases hd5 : (trimL line).drop 5 with
              | nil => rw [hd5] at hca; exact absurd hca (by simp)
              | cons w cs =>
                  rw [hd5] at hca
                  by_cases hws : wsChar w = true
                  case neg => simp [hws] at hca
                  simp only [hws, if_true] at hca
                  by_cases hr2 : trimL (w :: cs) = []
                  · simp [hr2] at hca
                  · rw [if_neg hr2] at hca
                    obtain ⟨j, hj⟩ := caLoop_some_struct hca
                    exact caTry_className hj
        rw [← h]
        refine ⟨hi, ?_, htok⟩
        intro x hx
        obtain ⟨hne2, hall⟩ := splitIds_chunks i x hx
        refine ⟨hne2, fun d hd => ?_⟩
        obtain ⟨hdws, hdc⟩ := hall d hd
        refine ⟨hdws, hdc, ?_⟩
        intro he
        rw [he] at hdws
        exact absurd hdws (by decide)

/-! ### Assembling the parsed model's well-formedness -/

theorem parseNodeLine_wf {line : Str} {np : NodeParse}
    (h : parseNodeLine line = some np) (hh : headerMatch line = none)
    (hnl : '\n' ∉ line) : NodeWF (npNode np) := by
  obtain ⟨htok, hpair, hpp, hmem, after, hmt⟩ := parseNodeLine_struct h
  exact ⟨htok, not_subLike_token hmt hh, hpair, hpp, fun hin => hnl (hmem _ hin)⟩

theorem edgeMatch_wf {line a o b : Str} (h : edgeMatch line = some (a, o, b))
    (hh : headerMatch line = none) : EdgeWF ⟨a, o, b⟩ := by
  obtain ⟨ta, tb, one, oall, hns⟩ := edgeMatch_struct h
  exact ⟨ta, tb, one, oall, hns hh⟩

theorem edgeOf_eq_some {line : Str} {e : Edge} (h : edgeOf line = some e) :
    classify line = .edgeL e.a e.op e.b := by
  unfold edgeOf at h
  cases hc : classify line <;> rw [hc] at h <;>
    first
      | (simp only [Option.some_inj] at h; rw [← h])
      | exact absurd h (by simp)

theorem cdOf_eq_some {line cd : Str} (h : cdOf line = some cd) :
    classify line = .classDefL ∧ cd = trim line := by
  unfold cdOf at h
  cases hc : classify line <;> rw [hc] at h <;>
    first
      | (simp only [Option.some_inj] at h; exact ⟨rfl, h.symm⟩)
      | exact absurd h (by simp)

theorem skipOneBlank_subset {ls : List Str} {l : Str} (h : l ∈ skipOneBlank ls) :
    l ∈ ls := by
  cases ls with
  | nil => simpa [skipOneBlank] using h
  | cons l0 rest =>
      simp only [skipOneBlank] at h
      split at h
      · simp [h]
      · exact h

theorem mem_tfm_snd {ls : List Str} {l : Str} (h : l ∈ (takeFrontMatter ls).2) :
    l ∈ ls := by
  cases ls with
  | nil => simpa [takeFrontMatter] using h
  | cons l0 rest =>
      simp only [takeFrontMatter] at h
      by_cases h0 : trim l0 = fmDashes
      · rw [if_pos h0] at h
        cases hd : rest.dropWhile (fun l => !(trim l == fmDashes)) with
        | nil => rw [hd] at h; simp at h
        | cons cl rest2 =>
            rw [hd] at h
            simp only at h
            have h2 : l ∈ rest2 := skipOneBlank_subset h
            have h3 : l ∈ rest.dropWhile (fun l => !(trim l == fmDashes)) := by
              rw [hd]; simp [h2]
            exact List.mem_cons_of_mem _ ((List.dropWhile_sublist _).subset h3)
      · rw [if_neg h0] at h
        exact h

theorem mem_fd_snd {ls : List Str} {l : Str} (h : l ∈ (findDirective ls).2) :
    l ∈ ls := by
  induction ls with
  | nil => simpa [findDirective] using h
  | cons l0 rest ih =>
      simp only [findDirective] at h
      by_cases h0 : flowchartTest l0 = true
      · rw [if_pos h0] at h
        simp only at h
        exact List.mem_cons_of_mem _ h
      · rw [if_neg h0] at h
        exact List.mem_cons_of_mem _ (ih h)

theorem mainLines_no_nl (text : Str) : ∀ l ∈ mainLines text, '\n' ∉ l := by
  intro l hl
  exact splitLines_no_nl text l (mem_tfm_snd (mem_fd_snd hl))

theorem parseDiagram_edges_eq (text : Str) :
    (parseDiagram text).edges = (mainLines text).filterMap edgeOf := by
  show ((mainLines text).foldl step initPState).edges
    = (mainLines text).filterMap edgeOf
  rw [foldl_edges]
  rfl

theorem parseDiagram_classDefs_eq (text : Str) :
    (parseDiagram text).classDefs = (mainLines text).filterMap cdOf := by
  show ((mainLines text).foldl step initPState).classDefs
    = (mainLines text).filterMap cdOf
  rw [foldl_classDefs]
  rfl

theorem parseDiagram_classAssigns_eq (text : Str) :
    (parseDiagram text).classAssigns = (mainLines text).filterMap caOf := by
  show ((mainLines text).foldl step initPState).classAssigns
    = (mainLines text).filterMap caOf
  rw [foldl_classAssigns]
  rfl

theorem parseDiagram_keys_iff (text : Str) (id : Str) :
    id ∈ (parseDiagram text).nodesMap.map (·.1)
      ↔ id ∈ (nodeDecls text).map (·.id) := by
  show id ∈ (((mainLines text).foldl step initPState).nodesMap).map (·.1)
    ↔ id ∈ ((mainLines text).filterMap declOf).map (·.id)
  rw [foldl_keys]
  simp [initPState, List.map_filterMap]

theorem parseDiagram_containers_perm (text : Str) :
    (containerNodes (parseDiagram text)).Perm ((nodeDecls text).map npNode) := by
  have h := foldl_containers (mainLines text) initPState
  have h2 : containerNodesSt ((mainLines text).foldl step initPState)
      = containerNodes (parseDiagram text) := rfl
  rw [h2] at h
  simpa [containerNodesSt, initPState, nodeDecls] using h

theorem parseDiagram_container_nodes_wf (text : Str) :
    ∀ n ∈ containerNodes (parseDiagram text), NodeWF n := by
  intro n hn
  have hmem := (parseDiagram_containers_perm text).mem_iff.mp hn
  obtain ⟨np, hnp, rfl⟩ := List.mem_map.mp hmem
  obtain ⟨l, hl, hol⟩ := List.mem_filterMap.mp hnp
  have hc := declOf_eq_some hol
  obtain ⟨hpn, hhm, -⟩ := classify_inv_nodeL hc
  exact parseNodeLine_wf hpn hhm (mainLines_no_nl text l hl)

theorem foldl_subgraph_headers (ls : List Str) :
    ∀ st : PState, (∀ l ∈ ls, '\n' ∉ l) →
      (∀ sg ∈ stSubgraphs st, HeaderWF sg.headerLine) →
      ∀ sg ∈ stSubgraphs (ls.foldl step st), HeaderWF sg.headerLine := by
  induction ls with
  | nil => intro st _ h; exact h
  | cons l ls ih =>
      intro st hnl h
      simp only [List.foldl_cons]
      exact ih (step st l) (fun x hx => hnl x (by simp [hx]))
        (step_subgraph_headers h (hnl l (by simp)))

theorem parseDiagram_headers_wf (text : Str) :
    ∀ sg ∈ (parseDiagram text).subgraphs, HeaderWF sg.headerLine := by
  intro sg hsg
  have h := foldl_subgraph_headers (mainLines text) initPState
    (mainLines_no_nl text) (by simp [stSubgraphs, initPState])
  exact h sg hsg

theorem parseDiagram_classDefs_wf (text : Str) :
    ∀ cd ∈ (parseDiagram text).classDefs, ClassDefWF cd := by
  intro cd hcd
  rw [parseDiagram_classDefs_eq] at hcd
  obtain ⟨l, hl, hol⟩ := List.mem_filterMap.mp hcd
  obtain ⟨hc, rfl⟩ := cdOf_eq_some hol
  exact classDefTest_wf (classify_inv_classDefL hc) (mainLines_no_nl text l hl)

theorem parseDiagram_cas_wf (text : Str) :
    ∀ ca ∈ (parseDiagram text).classAssigns, CaWF ca := by
  intro ca hca
  rw [parseDiagram_classAssigns_eq] at hca
  obtain ⟨l, hl, hol⟩ := List.mem_filterMap.mp hca
  exact caOf_wf hol

theorem parseDiagram_keys_wf (text : Str) :
    ∀ id ∈ (parseDiagram text).nodesMap.map (·.1), IsTok id := by
  intro id hid
  rw [parseDiagram_keys_iff] at hid
  obtain ⟨np, hnp, rfl⟩ := List.mem_map.mp hid
  obtain ⟨l, hl, hol⟩ := List.mem_filterMap.mp hnp
  have hc := declOf_eq_some hol
  obtain ⟨hpn, -, -⟩ := classify_inv_nodeL hc
  exact (parseNodeLine_struct hpn).1

/-! ### Front matter and directive shape -/

theorem dropWhile_head_false_gen {α : Type} {p : α → Bool} {l : List α} :
    ∀ {c : α} {cs : List α}, l.dropWhile p = c :: cs → p c = false := by
  induction l with
  | nil => intro c cs h; simp at h
  | cons a as ih =>
      intro c cs h
      by_cases ha : p a = true
      · rw [List.dropWhile_cons_of_pos ha] at h
        exact ih h
      · rw [List.dropWhile_cons_of_neg ha] at h
        cases h
        simpa using ha

theorem flowchartTest_head {l : Str} (h : flowchartTest l = true) :
    ∃ f0 t, trimL l = f0 :: t ∧ ciEq f0 'f' = true ∧ wsChar f0 = false := by
  simp only [flowchartTest, Bool.and_eq_true] at h
  have hci := h.1
  rw [show litFlowchart = 'f' :: ['l','o','w','c','h','a','r','t'] from rfl] at hci
  obtain ⟨f0, t, he, hcif, -⟩ := ciStarts_cons hci
  refine ⟨f0, t, he, hcif, ?_⟩
  cases hw : wsChar f0
  · rfl
  · rcases ws_elim hw with rfl | rfl | rfl | rfl | rfl | rfl <;>
      exact absurd hcif (by decide)

theorem flowchartTest_trim_ne {l : Str} (h : flowchartTest l = true) :
    trim l ≠ [] := by
  obtain ⟨f0, t, he, -, hws⟩ := flowchartTest_head h
  intro hnil
  have : ∀ c ∈ trimL l, wsChar c = true := trimR_eq_nil_iff.mp hnil
  have := this f0 (by rw [he]; simp)
  rw [hws] at this
  cases this

theorem flowchartTest_trim {l : Str} (h : flowchartTest l = true) :
    flowchartTest (trim l) = true := by
  simp only [flowchartTest, Bool.and_eq_true] at h ⊢
  obtain ⟨hci, hbd⟩ := h
  have hst := hci
  rw [show litFlowchart = 'f' :: 'l' :: 'o' :: 'w' :: 'c' :: 'h' :: 'a' :: 'r' :: 't' :: []
    from rfl] at hst
  obtain ⟨f0, t1, he1, hf1, hst⟩ := ciStarts_cons hst
  obtain ⟨f1, t2, he2, hf2, hst⟩ := ciStarts_cons hst
  obtain ⟨f2, t3, he3, hf3, hst⟩ := ciStarts_cons hst
  obtain ⟨f3, t4, he4, hf4, hst⟩ := ciStarts_cons hst
  obtain ⟨f4, t5, he5, hf5, hst⟩ := ciStarts_cons hst
  obtain ⟨f5, t6, he6, hf6, hst⟩ := ciStarts_cons hst
  obtain ⟨f6, t7, he7, hf7, hst⟩ := ciStarts_cons hst
  obtain ⟨f7, t8, he8, hf8, hst⟩ := ciStarts_cons hst
  obtain ⟨f8, t9, he9, hf9, -⟩ := ciStarts_cons hst
  have hf8l : letterChar f8 = true := letterChar_of_ciEq hf9 (by decide)
  have hXeq : trimL l = [f0, f1, f2, f3, f4, f5, f6, f7, f8] ++ t9 := by
    rw [he1, he2, he3, he4, he5, he6, he7, he8, he9]
    rfl
  have hX9 : (trimL l).drop 9 = t9 := by rw [hXeq]; rfl
  have hciD : ciStarts litFlowchart [f0, f1, f2, f3, f4, f5, f6, f7, f8] = true := by
    rw [show litFlowchart = 'f' :: 'l' :: 'o' :: 'w' :: 'c' :: 'h' :: 'a' :: 'r' :: 't' :: [] from rfl]
    simp [ciStarts, hf1, hf2, hf3, hf4, hf5, hf6, hf7, hf8, hf9]
  have htrD : trimR [f0, f1, f2, f3, f4, f5, f6, f7, f8]
      = [f0, f1, f2, f3, f4, f5, f6, f7, f8] :=
    trimR_eq_self rfl (letter_not_ws hf8l)
  have htrim : trim l = trimR (trimL l) := rfl
  by_cases ht9 : trimR t9 = []
  · have htrimeq : trim l = [f0, f1, f2, f3, f4, f5, f6, f7, f8] := by
      rw [htrim, hXeq, trimR_append, if_pos ht9, htrD]
    rw [htrimeq]
    constructor
    · rw [show trimL [f0, f1, f2, f3, f4, f5, f6, f7, f8]
          = [f0, f1, f2, f3, f4, f5, f6, f7, f8] from
        trimL_cons_nonws _ (letter_not_ws (letterChar_of_ciEq hf1 (by decide)))]
      exact hciD
    · rw [show trimL [f0, f1, f2, f3, f4, f5, f6, f7, f8]
          = [f0, f1, f2, f3, f4, f5, f6, f7, f8] from
        trimL_cons_nonws _ (letter_not_ws (letterChar_of_ciEq hf1 (by decide)))]
      rfl
  · have htrimeq : trim l = [f0, f1, f2, f3, f4, f5, f6, f7, f8] ++ trimR t9 := by
      rw [htrim, hXeq, trimR_append, if_neg ht9]
    rw [htrimeq]
    have htlD : trimL ([f0, f1, f2, f3, f4, f5, f6, f7, f8] ++ trimR t9)
        = [f0, f1, f2, f3, f4, f5, f6, f7, f8] ++ trimR t9 := by
      simp only [List.cons_append]
      exact trimL_cons_nonws _ (letter_not_ws (letterChar_of_ciEq hf1 (by decide)))
    constructor
    · rw [htlD, ciStarts_append_long _ (by simp [litFlowchart])]
      exact hciD
    · rw [htlD]
      rw [show (([f0, f1, f2, f3, f4, f5, f6, f7, f8] : Str) ++ trimR t9).drop 9
          = trimR t9 from rfl]
      cases ht9c : trimR t9 with
      | nil => exact absurd ht9c ht9
      | cons c2 t2' =>
          have hhead : (trimR t9).head? = t9.head? := trimR_head t9 ht9
          cases hd9 : t9 with
          | nil => rw [hd9] at ht9c; cases ht9c
          | cons c t =>
              rw [ht9c, hd9] at hhead
              simp only [List.head?_cons, Option.some_inj] at hhead
              rw [hX9, hd9] at hbd
              rw [hhead]
              exact hbd

theorem findDirective_spec (ls : List Str) :
    ((findDirective ls).1 = [] ∧ (findDirective ls).2 = [])
    ∨ ∃ l ∈ ls, flowchartTest l = true ∧ (findDirective ls).1 = trim l := by
  induction ls with
  | nil => exact Or.inl ⟨rfl, rfl⟩
  | cons l0 rest ih =>
      simp only [findDirective]
      by_cases h0 : flowchartTest l0 = true
      · rw [if_pos h0]
        exact Or.inr ⟨l0, by simp, h0, rfl⟩
      · rw [if_neg h0]
        rcases ih with ⟨h1, h2⟩ | ⟨l, hl, hfl, heq⟩
        · exact Or.inl ⟨h1, h2⟩
        · exact Or.inr ⟨l, by simp [hl], hfl, heq⟩

theorem parseDiagram_dir (text : Str) :
    (parseDiagram text).flowchartLine = []
    ∨ (flowchartTest (parseDiagram text).flowchartLine = true
        ∧ trim (parseDiagram text).flowchartLine = (parseDiagram text).flowchartLine
        ∧ '\n' ∉ (parseDiagram text).flowchartLine) := by
  have hF : (parseDiagram text).flowchartLine
      = (findDirective (takeFrontMatter (splitLines text)).2).1 := rfl
  rcases findDirective_spec (takeFrontMatter (splitLines text)).2 with ⟨h1, -⟩ |
    ⟨l, hl, hfl, heq⟩
  · left; rw [hF, h1]
  · right
    rw [hF, heq]
    refine ⟨flowchartTest_trim hfl, trim_idem l, ?_⟩
    intro hm
    exact splitLines_no_nl text _ (mem_tfm_snd hl) (mem_trim hm)

theorem findDirective_fst_nil {ls : List Str}
    (h : (findDirective ls).1 = []) : (findDirective ls).2 = [] := by
  rcases findDirective_spec ls with ⟨-, h2⟩ | ⟨l, -, hfl, heq⟩
  · exact h2
  · rw [heq] at h
    exact absurd h (flowchartTest_trim_ne hfl)

theorem parseDiagram_flowEmpty (text : Str) :
    (parseDiagram text).flowchartLine = [] →
      (parseDiagram text).subgraphs = [] ∧ (parseDiagram text).topNodes = []
      ∧ (parseDiagram text).nodesMap = [] ∧ (parseDiagram text).edges = []
      ∧ (parseDiagram text).classDefs = [] ∧ (parseDiagram text).classAssigns = [] := by
  intro h
  have hF : (parseDiagram text).flowchartLine
      = (findDirective (takeFrontMatter (splitLines text)).2).1 := rfl
  rw [hF] at h
  have h2 := findDirective_fst_nil h
  have hm : mainLines text = [] := h2
  have hfold : (mainLines text).foldl step initPState = initPState := by
    rw [hm]
    rfl
  refine ⟨?_, ?_, ?_, ?_, ?_, ?_⟩
  · show stSubgraphs ((mainLines text).foldl step initPState) = []
    rw [hfold]
    rfl
  · show ((mainLines text).foldl step initPState).topNodes = []
    rw [hfold]
    rfl
  · show ((mainLines text).foldl step initPState).nodesMap = []
    rw [hfold]
    rfl
  · show ((mainLines text).foldl step initPState).edges = []
    rw [hfold]
    rfl
  · show ((mainLines text).foldl step initPState).classDefs = []
    rw [hfold]
    rfl
  · show ((mainLines text).foldl step initPState).classAssigns = []
    rw [hfold]
    rfl

theorem parseDiagram_fmShape (text : Str) :
    (parseDiagram text).headerLines = []
    ∨ (∃ h0 mid cl, (parseDiagram text).headerLines = h0 :: mid ++ [cl]
        ∧ trim h0 = fmDashes ∧ trim cl = fmDashes
        ∧ (∀ l ∈ mid, ¬trim l = fmDashes)
        ∧ (∀ l ∈ (parseDiagram text).headerLines, '\n' ∉ l))
    ∨ (∃ h0 rest, (parseDiagram text).headerLines = h0 :: rest
        ∧ trim h0 = fmDashes ∧ (∀ l ∈ rest, ¬trim l = fmDashes)
        ∧ (∀ l ∈ (parseDiagram text).headerLines, '\n' ∉ l)
        ∧ (parseDiagram text).flowchartLine = []) := by
  have hH : (parseDiagram text).headerLines
      = (takeFrontMatter (splitLines text)).1 := rfl
  have hF : (parseDiagram text).flowchartLine
      = (findDirective (takeFrontMatter (splitLines text)).2).1 := rfl
  cases hsl : splitLines text with
  | nil => exact absurd hsl (splitLines_ne_nil text)
  | cons l0 rest =>
      by_cases h0 : trim l0 = fmDashes
      · cases hd : rest.dropWhile (fun l => !(trim l == fmDashes)) with
        | nil =>
            right; right
            have htfm : takeFrontMatter (splitLines text)
                = (l0 :: rest.takeWhile (fun l => !(trim l == fmDashes)), []) := by
              rw [hsl]
              simp only [takeFrontMatter]
              rw [if_pos h0, hd]
            refine ⟨l0, rest.takeWhile (fun l => !(trim l == fmDashes)),
              by rw [hH, htfm], h0, ?_, ?_, ?_⟩
            · intro l hl
              have := List.mem_takeWhile_imp hl
              simpa using this
            · intro l hl
              rw [hH, htfm] at hl
              simp only [List.mem_cons] at hl
              rcases hl with rfl | hl
              · exact splitLines_no_nl text l (by rw [hsl]; simp)
              · exact splitLines_no_nl text l
                  (by rw [hsl]
                      exact List.mem_cons_of_mem _ ((List.takeWhile_sublist _).subset hl))
            · rw [hF, htfm]
              rfl
        | cons cl rest2 =>
            right; left
            have htfm : takeFrontMatter (splitLines text)
                = (l0 :: (rest.takeWhile (fun l => !(trim l == fmDashes)) ++ [cl]),
                   skipOneBlank rest2) := by
              rw [hsl]
              simp only [takeFrontMatter]
              rw [if_pos h0, hd]
            have hcl : trim cl = fmDashes := by
              have := dropWhile_head_false_gen hd
              simpa using this
            refine ⟨l0, rest.takeWhile (fun l => !(trim l == fmDashes)), cl,
              by rw [hH, htfm]; rfl, h0, hcl, ?_, ?_⟩
            · intro l hl
              have := List.mem_takeWhile_imp hl
              simpa using this
            · intro l hl
              rw [hH, htfm] at hl
              simp only [List.mem_cons, List.mem_append, List.mem_singleton,
                List.not_mem_nil, or_false] at hl
              rcases hl with rfl | hl | rfl
              · exact splitLines_no_nl text l (by rw [hsl]; simp)
              · exact splitLines_no_nl text l
                  (by rw [hsl]
                      exact List.mem_cons_of_mem _ ((List.takeWhile_sublist _).subset hl))
              · refine splitLines_no_nl text l ?_
                rw [hsl]
                refine List.mem_cons_of_mem _
                  ((List.dropWhile_sublist (fun l => !(trim l == fmDashes))).subset ?_)
                rw [hd]
                simp
      · left
        rw [hH, hsl]
        simp only [takeFrontMatter]
        rw [if_neg h0]

theorem parseDiagram_wf (text : Str) : ModelWF (parseDiagram text) := by
  refine ⟨parseDiagram_fmShape text, parseDiagram_dir text, parseDiagram_flowEmpty text,
    ?_, ?_, ?_, parseDiagram_classDefs_wf text, parseDiagram_cas_wf text,
    parseDiagram_keys_wf text⟩
  · intro sg hsg
    refine ⟨parseDiagram_headers_wf text sg hsg, ?_⟩
    intro n hn
    exact parseDiagram_container_nodes_wf text n
      (by
        unfold containerNodes
        apply List.mem_append_left
        exact List.mem_flatMap.mpr ⟨sg, hsg, hn⟩)
  · intro n hn
    exact parseDiagram_container_nodes_wf text n
      (by unfold containerNodes; exact List.mem_append_right _ hn)
  · intro e he
    rw [parseDiagram_edges_eq] at he
    obtain ⟨l, hl, hol⟩ := List.mem_filterMap.mp he
    have hc := edgeOf_eq_some hol
    obtain ⟨hem, -, hhm, -⟩ := classify_inv_edgeL hc
    have := edgeMatch_wf hem hhm
    cases e
    exact this

/-! ### Re-classification transports and neutral lines -/

theorem sp4_ws : ∀ c ∈ sp4, wsChar c = true := by decide
theorem sp8_ws : ∀ c ∈ sp8, wsChar c = true := by decide

theorem declOf_ws_append {ind : Str} (h : ∀ c ∈ ind, wsChar c = true) (s : Str) :
    declOf (ind ++ s) = declOf s := by
  unfold declOf
  rw [classify_ws_append h]

theorem edgeOf_ws_append {ind : Str} (h : ∀ c ∈ ind, wsChar c = true) (s : Str) :
    edgeOf (ind ++ s) = edgeOf s := by
  unfold edgeOf
  rw [classify_ws_append h]

theorem declOf_none_of_header {l r : Str} (hh : headerMatch l = some r) :
    declOf l = none := by
  unfold declOf
  cases hc : classify l <;> try rfl
  case nodeL np =>
    rw [(classify_inv_nodeL hc).2.1] at hh
    cases hh

theorem edgeOf_none_of_header {l r : Str} (hh : headerMatch l = some r) :
    edgeOf l = none := by
  unfold edgeOf
  cases hc : classify l <;> try rfl
  case edgeL a o b =>
    rw [(classify_inv_edgeL hc).2.2.1] at hh
    cases hh

theorem declOf_none_of_ca {l : Str} {p : Str × Str}
    (hca : classAssignMatch l = some p) : declOf l = none := by
  unfold declOf
  cases hc : classify l <;> try rfl
  case nodeL np =>
    rw [(classify_inv_nodeL hc).2.2] at hca
    cases hca

theorem edgeOf_none_of_ca {l : Str} {p : Str × Str}
    (hca : classAssignMatch l = some p) : edgeOf l = none := by
  unfold edgeOf
  cases hc : classify l <;> try rfl
  case edgeL a o b =>
    rw [(classify_inv_edgeL hc).2.2.2] at hca
    cases hca

theorem declOf_none_of_no_pn {l : Str} (h1 : parseNodeLine l = none) :
    declOf l = none := by
  unfold declOf
  cases hc : classify l <;> try rfl
  case nodeL np =>
    rw [(classify_inv_nodeL hc).1] at h1
    cases h1

theorem edgeOf_none_of_no_em {l : Str} (h2 : edgeMatch l = none) :
    edgeOf l = none := by
  unfold edgeOf
  cases hc : classify l <;> try rfl
  case edgeL a o b =>
    rw [(classify_inv_edgeL hc).1] at h2
    cases h2

theorem declOf_blank : declOf ([] : Str) = none := by decide
theorem edgeOf_blank : edgeOf ([] : Str) = none := by decide
theorem declOf_endline : declOf (sp4 ++ litEnd) = none := by decide
theorem edgeOf_endline : edgeOf (sp4 ++ litEnd) = none := by decide

theorem filterMap_congr_some {α β : Type} {f : α → Option β} {g : α → β}
    {l : List α} (h : ∀ x ∈ l, f x = some (g x)) : l.filterMap f = l.map g := by
  induction l with
  | nil => rfl
  | cons a as ih =>
      rw [List.filterMap_cons, h a (by simp), List.map_cons,
        ih (fun x hx => h x (by simp [hx]))]

theorem filterMap_none {α β : Type} {f : α → Option β} {l : List α}
    (h : ∀ x ∈ l, f x = none) : l.filterMap f = [] :=
  List.filterMap_eq_nil.mpr h

/-! ### No emitted line contains a newline -/

theorem opChar_not_nl {c : Char} (h : opChar c = true) : ¬c = '\n' := by
  rcases op_elim h with rfl | rfl | rfl | rfl | rfl <;> decide

theorem nodeText_no_nl {n : Node} (wf : NodeWF n) : '\n' ∉ nodeText n := by
  intro hm
  unfold nodeText at hm
  rcases List.mem_append.mp hm with hm | hm
  · rcases List.mem_append.mp hm with hm | hm
    · rcases List.mem_append.mp hm with hm | hm
      · exact wordHyphen_not_nl (wf.tok.all_wordHyphen _ hm) rfl
      · split at hm
        · simp at hm
        · exact (pairs_po_facts _ wf.pair).2 _ hm |>.2.2.2.2.1 rfl
    · exact wf.lblNL hm
  · split at hm
    · simp at hm
    · exact (pairs_pc_facts _ wf.pair).2 _ hm |>.2.2.1 rfl

theorem renderLines_no_nl {m : Model} {vis : VisMap} (wf : ModelWF m) :
    ∀ r ∈ renderLines m vis, '\n' ∉ rtext r := by
  have hfmnl : ∀ s ∈ m.headerLines, '\n' ∉ s := by
    rcases wf.fmShape with h1 | ⟨h0, mid, cl, he, -, -, -, hnl⟩ | ⟨h0, r2, he, -, -, hnl, -⟩
    · intro s hs; rw [h1] at hs; simp at hs
    · exact hnl
    · exact hnl
  intro r hr
  unfold renderLines at hr
  simp only [List.mem_append] at hr
  rcases hr with ((((((((h | h) | h) | h) | h) | h) | h) | h) | h)
  · split at h
    · simp at h
    · rcases List.mem_append.mp h with h | h
      · obtain ⟨s, hs, rfl⟩ := List.mem_map.mp h
        exact hfmnl s hs
      · simp only [List.mem_singleton] at h
        rw [h]
        simp [rtext]
  · simp only [List.mem_singleton] at h
    rw [h]
    simp only [rtext]
    by_cases hfl : m.flowchartLine = []
    · rw [if_pos hfl]
      decide
    · rw [if_neg hfl]
      rcases wf.dir with h2 | ⟨-, -, h2⟩
      · exact absurd h2 hfl
      · exact h2
  · split at h
    · simp at h
    · rcases List.mem_append.mp h with h | h
      · obtain ⟨s, hs, rfl⟩ := List.mem_map.mp h
        simp only [rtext]
        intro hm
        rcases List.mem_append.mp hm with hm | hm
        · exact absurd hm (by decide)
        · exact (wf.cds s hs).nl hm
      · simp only [List.mem_singleton] at h
        rw [h]
        simp [rtext]
  · obtain ⟨sg, hsg, hmem⟩ := List.mem_flatMap.mp h
    simp only [sgSection] at hmem
    split at hmem
    · simp at hmem
    · rcases List.mem_cons.mp hmem with rfl | hmem
      · simp only [rtext]
        intro hm
        rcases List.mem_append.mp hm with hm | hm
        · exact absurd hm (by decide)
        · exact (wf.sgs sg hsg).1.nl hm
      · rcases List.mem_append.mp hmem with hmem | hmem
        · obtain ⟨n, hn, rfl⟩ := List.mem_map.mp hmem
          have hn2 : n ∈ sg.nodes := List.mem_of_mem_filter hn
          simp only [rtext]
          intro hm
          rcases List.mem_append.mp hm with hm | hm
          · exact absurd hm (by decide)
          · exact nodeText_no_nl ((wf.sgs sg hsg).2 n hn2) hm
        · simp only [List.mem_cons, List.mem_singleton, List.not_mem_nil,
            or_false] at hmem
          rcases hmem with rfl | rfl
          · simp only [rtext]
            decide
          · simp [rtext]
  · rcases h with h | h
    · obtain ⟨n, hn, rfl⟩ := List.mem_map.mp h
      have hn2 : n ∈ m.topNodes := List.mem_of_mem_filter hn
      simp only [rtext]
      intro hm
      rcases List.mem_append.mp hm with hm | hm
      · exact absurd hm (by decide)
      · exact nodeText_no_nl (wf.tops n hn2) hm
    · split at h
      · simp at h
      · simp only [List.mem_singleton] at h
        rw [h]
        simp [rtext]
  · split at h
    · simp at h
    · rcases List.mem_append.mp h with h | h
      · obtain ⟨ca, hca, hsome⟩ := List.mem_filterMap.mp h
        by_cases hk : ca.ids.filter (fun id => isVisible vis id) = []
        · rw [if_pos hk] at hsome
          cases hsome
        · rw [if_neg hk] at hsome
          simp only [Option.some_inj] at hsome
          rw [← hsome]
          simp only [rtext]
          intro hm
          simp only [List.mem_append] at hm
          rcases hm with ((((hm | hm) | hm) | hm) | hm) | hm
          · exact absurd hm (by decide)
          · exact absurd hm (by decide)
          · exact absurd hm (by decide)
          · rcases mem_intercalate_comma hm with hc | ⟨i, hi, hx⟩
            · exact absurd hc (by decide)
            · have hi2 : i ∈ ca.ids := List.mem_of_mem_filter hi
              exact ((wf.cas ca hca).ids i hi2).2 _ hx |>.2.2 rfl
          · exact absurd hm (by decide)
          · exact wordHyphen_not_nl
              ((wf.cas ca hca).cls.all_wordHyphen _ hm) rfl
      · simp only [List.mem_singleton] at h
        rw [h]
        simp [rtext]
  · rcases h with h | h
    · obtain ⟨id, hid, rfl⟩ := List.mem_map.mp h
      have hid2 : id ∈ m.nodesMap.map (·.1) := List.mem_of_mem_filter hid
      simp only [rtext]
      intro hm
      simp only [List.mem_append] at hm
      rcases hm with ((hm | hm) | hm) | hm
      · exact absurd hm (by decide)
      · exact absurd hm (by decide)
      · exact wordHyphen_not_nl ((wf.keys id hid2).all_wordHyphen _ hm) rfl
      · exact absurd hm (by decide)
    · split at h
      · simp at h
      · simp only [List.mem_singleton] at h
        rw [h]
        simp [rtext]
  · obtain ⟨e, he, rfl⟩ := List.mem_map.mp h
    have he2 : e ∈ m.edges := List.mem_of_mem_filter he
    have hwf := wf.edges e he2
    simp only [rtext]
    intro hm
    simp only [List.mem_append] at hm
    rcases hm with ((((hm | hm) | hm) | hm) | hm) | hm
    · exact absurd hm (by decide)
    · exact wordHyphen_not_nl (hwf.ta.all_wordHyphen _ hm) rfl
    · exact absurd hm (by decide)
    · exact opChar_not_nl (hwf.opAll _ hm) rfl
    · exact absurd hm (by decide)
    · exact wordHyphen_not_nl (hwf.tb.all_wordHyphen _ hm) rfl
  · simp only [List.mem_singleton] at h
    rw [h]
    simp [rtext]

/-! ### Locating the main section of the rendered text -/

/-- Everything the renderer emits after the directive line. -/
def tailSections (m : Model) (vis : VisMap) : List RLine :=
  (if m.classDefs = [] then [] else m.classDefs.map RLine.classDefLine ++ [.blank])
  ++ ((m.subgraphs.flatMap (sgSection vis))
  ++ ((let keptTop := m.topNodes.filter (fun n => isVisible vis n.id)
      keptTop.map RLine.topLine ++ (if keptTop = [] then [] else [.blank]))
  ++ ((if m.classAssigns = [] then []
      else (m.classAssigns.filterMap (fun ca =>
              let k := ca.ids.filter (fun id => isVisible vis id)
              if k = [] then none
              else some (RLine.classAssignLine k ca.className))) ++ [.blank])
  ++ ((let vids := (m.nodesMap.map (·.1)).filter (fun id => isVisible vis id)
      vids.map RLine.clickLine ++ (if vids = [] then [] else [.blank]))
  ++ ((m.edges.filter (fun e => isVisible vis e.a && isVisible vis e.b)).map RLine.edgeLine
  ++ [.blank])))))

theorem renderLines_decomp (m : Model) (vis : VisMap) :
    renderLines m vis
      = (if m.headerLines = [] then [] else m.headerLines.map RLine.fm ++ [.blank])
        ++ ([.directive (if m.flowchartLine = []
              then defaultDirective else m.flowchartLine)]
        ++ tailSections m vis) := by
  unfold renderLines tailSections
  simp [List.append_assoc]

theorem buildFilteredMMD_splitLines (m : Model) (vis : VisMap) (wf : ModelWF m) :
    splitLines (buildFilteredMMD m vis) = (renderLines m vis).map rtext := by
  unfold buildFilteredMMD
  apply splitLines_joinLines
  · have hb : RLine.blank ∈ renderLines m vis := by
      unfold renderLines
      simp
    intro hnil
    have hb2 : rtext RLine.blank ∈ (renderLines m vis).map rtext :=
      List.mem_map_of_mem _ hb
    rw [hnil] at hb2
    simp at hb2
  · intro l hl
    obtain ⟨r, hr, rfl⟩ := List.mem_map.mp hl
    exact renderLines_no_nl wf r hr

theorem dropWhile_all_append_g {α : Type} {p : α → Bool} {A : List α} (B : List α)
    (h : ∀ x ∈ A, p x = true) : (A ++ B).dropWhile p = B.dropWhile p := by
  induction A with
  | nil => simp
  | cons a as ih =>
      rw [List.cons_append, List.dropWhile_cons_of_pos (h a (by simp))]
      exact ih (fun x hx => h x (by simp [hx]))

theorem flowchartTest_fm : flowchartTest fmDashes = false := by decide

/-- The emitted directive line: it passes the directive test, is trimmed, and
is not a front-matter fence. -/
theorem directive_line_facts (m : Model) (wf : ModelWF m) :
    flowchartTest (if m.flowchartLine = [] then defaultDirective
        else m.flowchartLine) = true
    ∧ trim (if m.flowchartLine = [] then defaultDirective else m.flowchartLine)
        = (if m.flowchartLine = [] then defaultDirective else m.flowchartLine)
    ∧ ¬trim (if m.flowchartLine = [] then defaultDirective else m.flowchartLine)
        = fmDashes := by
  by_cases hfl : m.flowchartLine = []
  · rw [if_pos hfl]
    refine ⟨by decide, by decide, by decide⟩
  · rw [if_neg hfl]
    rcases wf.dir with h2 | ⟨ht, htr, -⟩
    · exact absurd h2 hfl
    · refine ⟨ht, htr, ?_⟩
      rw [htr]
      intro he
      rw [he] at ht
      rw [flowchartTest_fm] at ht
      cases ht

theorem map_rtext_fm (ls : List Str) : (ls.map RLine.fm).map rtext = ls := by
  rw [List.map_map]
  have hcomp : rtext ∘ RLine.fm = id := by
    funext s
    rfl
  rw [hcomp, List.map_id]

theorem dropWhile_all_nil {α : Type} {p : α → Bool} {A : List α}
    (h : ∀ x ∈ A, p x = true) : A.dropWhile p = [] := by
  have := dropWhile_all_append_g ([] : List α) h
  rwa [List.append_nil] at this

theorem takeFrontMatter_fmblock_snd (h0 cl : Str) (mid B : List Str)
    (h0fm : trim h0 = fmDashes) (hclfm : trim cl = fmDashes)
    (hmidfm : ∀ l ∈ mid, ¬trim l = fmDashes) :
    (takeFrontMatter ((h0 :: (mid ++ [cl])) ++ B)).2 = skipOneBlank B := by
  rw [List.cons_append]
  simp only [takeFrontMatter]
  rw [if_pos h0fm]
  rw [show ((mid ++ [cl]) ++ B).dropWhile (fun l => !(trim l == fmDashes))
      = cl :: B from by
    rw [List.append_assoc, dropWhile_all_append_g _ (fun x hx => by
      simp [hmidfm x hx]),
      List.cons_append, List.dropWhile_cons_of_neg (by simp [hclfm]),
      List.nil_append]]

theorem takeFrontMatter_unterminated_snd (h0 : Str) (R : List Str)
    (h0fm : trim h0 = fmDashes) (hR : ∀ l ∈ R, ¬trim l = fmDashes) :
    (takeFrontMatter (h0 :: R)).2 = [] := by
  simp only [takeFrontMatter]
  rw [if_pos h0fm]
  rw [dropWhile_all_nil (fun x hx => by simp [hR x hx])]

theorem mainLines_buildFiltered (m : Model) (vis : VisMap) (wf : ModelWF m) :
    mainLines (buildFilteredMMD m vis) = (tailSections m vis).map rtext
    ∨ (mainLines (buildFilteredMMD m vis) = [] ∧ m.edges = []
        ∧ containerNodes m = []) := by
  obtain ⟨hdt, hdtrim, hdfm⟩ := directive_line_facts m wf
  have hsplit := buildFilteredMMD_splitLines m vis wf
  have hML : mainLines (buildFilteredMMD m vis)
      = (findDirective (takeFrontMatter
          ((renderLines m vis).map rtext)).2).2 := by
    unfold mainLines
    rw [hsplit]
  have hfd : findDirective ((if m.flowchartLine = [] then defaultDirective
        else m.flowchartLine) :: (tailSections m vis).map rtext)
      = (trim (if m.flowchartLine = [] then defaultDirective
          else m.flowchartLine), (tailSections m vis).map rtext) := by
    simp only [findDirective]
    rw [if_pos hdt]
  rcases wf.fmShape with hfm1 | ⟨h0, mid, cl, he, h0fm, hclfm, hmidfm, -⟩ |
    ⟨h0, hrest, he, h0fm, hrestfm, -, hflnil⟩
  · -- no front matter block
    left
    have hRL : (renderLines m vis).map rtext
        = (if m.flowchartLine = [] then defaultDirective else m.flowchartLine)
          :: (tailSections m vis).map rtext := by
      rw [renderLines_decomp, hfm1]
      simp [rtext]
    rw [hML, hRL]
    rw [show takeFrontMatter ((if m.flowchartLine = [] then defaultDirective
          else m.flowchartLine) :: (tailSections m vis).map rtext)
        = ([], (if m.flowchartLine = [] then defaultDirective
            else m.flowchartLine) :: (tailSections m vis).map rtext) from by
      simp only [takeFrontMatter]
      rw [if_neg hdfm]]
    rw [hfd]
  · -- terminated front matter
    left
    have hRL : (renderLines m vis).map rtext
        = (h0 :: (mid ++ [cl]))
          ++ (([] : Str) :: (if m.flowchartLine = [] then defaultDirective
              else m.flowchartLine) :: (tailSections m vis).map rtext) := by
      rw [renderLines_decomp, he]
      rw [if_neg (show ¬(h0 :: mid ++ [cl] : List Str) = [] by simp)]
      rw [List.map_append, List.map_append, map_rtext_fm]
      simp [rtext]
    rw [hML, hRL, takeFrontMatter_fmblock_snd h0 cl mid _ h0fm hclfm hmidfm]
    rw [show skipOneBlank (([] : Str) :: (if m.flowchartLine = []
          then defaultDirective else m.flowchartLine)
          :: (tailSections m vis).map rtext)
        = (if m.flowchartLine = [] then defaultDirective else m.flowchartLine)
          :: (tailSections m vis).map rtext from by
      simp only [skipOneBlank]
      rw [if_pos (show trim ([] : Str) = [] from rfl)]]
    rw [hfd]
  · -- unterminated front matter: the model is empty
    right
    obtain ⟨hsg, htop, hmap, hedg, hcds, hcas⟩ := wf.flowEmpty hflnil
    have htail : tailSections m vis = [RLine.blank] := by
      unfold tailSections
      rw [hsg, htop, hmap, hedg, hcds, hcas]
      simp
    refine ⟨?_, hedg, ?_⟩
    · have hRL : (renderLines m vis).map rtext
          = h0 :: (hrest ++ [([] : Str), defaultDirective, ([] : Str)]) := by
        rw [renderLines_decomp, he, hflnil, htail]
        rw [if_neg (show ¬(h0 :: hrest : List Str) = [] by simp)]
        rw [List.map_append, List.map_append, map_rtext_fm]
        simp [rtext]
      rw [hML, hRL, takeFrontMatter_unterminated_snd]
      · rfl
      · exact h0fm
      · intro l hl
        rcases List.mem_append.mp hl with hl | hl
        · exact hrestfm l hl
        · simp only [List.mem_cons, List.not_mem_nil, or_false] at hl
          rcases hl with rfl | rfl | rfl
          · decide
          · decide
          · decide
    · unfold containerNodes
      rw [hsg, htop]
      rfl

/-! ### The main-section lines and what they contribute on re-parse -/

theorem filterMap_flatMap {α β γ : Type} (l : List α) (g : α → List β)
    (F : β → Option γ) :
    (l.flatMap g).filterMap F = l.flatMap (fun a => (g a).filterMap F) := by
  induction l with
  | nil => rfl
  | cons a as ih =>
      rw [List.flatMap_cons, List.filterMap_append, ih, List.flatMap_cons]

theorem declOf_classdef_line {cd : Str} (wf : ClassDefWF cd) :
    declOf (sp4 ++ cd) = none ∧ edgeOf (sp4 ++ cd) = none := by
  obtain ⟨hpn, hem⟩ := classdef_no_decl_edge wf
  rw [declOf_ws_append sp4_ws, edgeOf_ws_append sp4_ws]
  exact ⟨declOf_none_of_no_pn hpn, edgeOf_none_of_no_em hem⟩

theorem cd_section_neutral {m : Model} (wf : ModelWF m) :
    ∀ l ∈ ((if m.classDefs = [] then []
        else m.classDefs.map RLine.classDefLine ++ [RLine.blank]).map rtext),
      declOf l = none ∧ edgeOf l = none := by
  intro l hl
  obtain ⟨r, hr, rfl⟩ := List.mem_map.mp hl
  split at hr
  · simp at hr
  · rcases List.mem_append.mp hr with hr | hr
    · obtain ⟨s, hs, rfl⟩ := List.mem_map.mp hr
      exact declOf_classdef_line (wf.cds s hs)
    · simp only [List.mem_singleton] at hr
      rw [hr]
      exact ⟨declOf_blank, edgeOf_blank⟩

theorem ca_section_neutral {m : Model} {vis : VisMap} (wf : ModelWF m) :
    ∀ l ∈ ((if m.classAssigns = [] then []
        else (m.classAssigns.filterMap (fun ca =>
              let k := ca.ids.filter (fun id => isVisible vis id)
              if k = [] then none
              else some (RLine.classAssignLine k ca.className))) ++ [RLine.blank]).map rtext),
      declOf l = none ∧ edgeOf l = none := by
  intro l hl
  obtain ⟨r, hr, rfl⟩ := List.mem_map.mp hl
  split at hr
  · simp at hr
  · rcases List.mem_append.mp hr with hr | hr
    · obtain ⟨ca, hca, hsome⟩ := List.mem_filterMap.mp hr
      simp only at hsome
      by_cases hk : ca.ids.filter (fun id => isVisible vis id) = []
      · rw [if_pos hk] at hsome
        cases hsome
      · rw [if_neg hk] at hsome
        simp only [Option.some_inj] at hsome
        rw [← hsome]
        have hwf := wf.cas ca hca
        obtain ⟨p, hp⟩ := caText_match hk
          (fun i hi => hwf.ids i (List.mem_of_mem_filter hi) |>.imp id
            (fun h2 c hc => ⟨(h2 c hc).1, (h2 c hc).2.1⟩))
          hwf.cls
        have heq : rtext (RLine.classAssignLine
            (ca.ids.filter (fun id => isVisible vis id)) ca.className)
            = sp4 ++ (litClass ++ [' ']
              ++ List.intercalate [','] (ca.ids.filter (fun id => isVisible vis id))
              ++ [' '] ++ ca.className) := by
          simp [rtext, List.append_assoc]
        rw [heq, declOf_ws_append sp4_ws, edgeOf_ws_append sp4_ws]
        exact ⟨declOf_none_of_ca hp, edgeOf_none_of_ca hp⟩
    · simp only [List.mem_singleton] at hr
      rw [hr]
      exact ⟨declOf_blank, edgeOf_blank⟩

theorem click_section_neutral {m : Model} {vis : VisMap} (wf : ModelWF m) :
    ∀ l ∈ (((let vids := (m.nodesMap.map (·.1)).filter (fun id => isVisible vis id)
        vids.map RLine.clickLine ++ (if vids = [] then [] else [RLine.blank]))).map rtext),
      declOf l = none ∧ edgeOf l = none := by
  intro l hl
  obtain ⟨r, hr, rfl⟩ := List.mem_map.mp hl
  simp only at hr
  rcases List.mem_append.mp hr with hr | hr
  · obtain ⟨id, hid, rfl⟩ := List.mem_map.mp hr
    have hid2 : id ∈ m.nodesMap.map (·.1) := List.mem_of_mem_filter hid
    obtain ⟨hpn, hem⟩ := click_no_decl_edge (wf.keys id hid2)
    have heq : rtext (RLine.clickLine id)
        = sp4 ++ (litClick ++ id ++ litMyCallback) := by
      simp [rtext, List.append_assoc]
    rw [heq, declOf_ws_append sp4_ws, edgeOf_ws_append sp4_ws]
    exact ⟨hpn |> declOf_none_of_no_pn, hem |> edgeOf_none_of_no_em⟩
  · split at hr
    · simp at hr
    · simp only [List.mem_singleton] at hr
      rw [hr]
      exact ⟨declOf_blank, edgeOf_blank⟩

theorem member_line_decl {n : Node} (wf : NodeWF n) :
    (declOf (sp8 ++ nodeText n)).map (·.id) = some n.id
    ∧ edgeOf (sp8 ++ nodeText n) = none := by
  obtain ⟨np, hc, hid⟩ := nodeText_struct wf
  rw [declOf_ws_append sp8_ws, edgeOf_ws_append sp8_ws]
  constructor
  · unfold declOf
    rw [hc]
    simp [hid]
  · unfold edgeOf
    rw [hc]

theorem top_line_decl {n : Node} (wf : NodeWF n) :
    (declOf (sp4 ++ nodeText n)).map (·.id) = some n.id
    ∧ edgeOf (sp4 ++ nodeText n) = none := by
  obtain ⟨np, hc, hid⟩ := nodeText_struct wf
  rw [declOf_ws_append sp4_ws, edgeOf_ws_append sp4_ws]
  constructor
  · unfold declOf
    rw [hc]
    simp [hid]
  · unfold edgeOf
    rw [hc]

theorem sg_section_decl {sg : Subgraph} {vis : VisMap}
    (hwf : HeaderWF sg.headerLine ∧ ∀ n ∈ sg.nodes, NodeWF n)
    (hv : ∀ id, isVisible vis id = true) :
    ((sgSection vis sg).map rtext).filterMap (fun l => (declOf l).map (·.id))
      = sg.nodes.map (·.id)
    ∧ ((sgSection vis sg).map rtext).filterMap edgeOf = [] := by
  have hkept : sg.nodes.filter (fun n => isVisible vis n.id) = sg.nodes :=
    List.filter_eq_self.mpr (fun n _ => hv n.id)
  obtain ⟨r0, hhm⟩ := headerMatch_stored hwf.1
  have hheader : declOf (sp4 ++ sg.headerLine) = none
      ∧ edgeOf (sp4 ++ sg.headerLine) = none := by
    rw [declOf_ws_append sp4_ws, edgeOf_ws_append sp4_ws]
    exact ⟨declOf_none_of_header hhm, edgeOf_none_of_header hhm⟩
  simp only [sgSection, hkept]
  by_cases hnil : sg.nodes = []
  · rw [if_pos hnil, hnil]
    exact ⟨rfl, rfl⟩
  · rw [if_neg hnil]
    simp only [List.map_cons, List.map_append, List.map_map, List.filterMap_cons,
      List.filterMap_append, List.filterMap_nil, List.map_nil, List.append_nil,
      show rtext (RLine.sgHeader sg) = sp4 ++ sg.headerLine from rfl,
      show rtext (RLine.endLine sg) = sp4 ++ litEnd from rfl,
      show rtext RLine.blank = ([] : Str) from rfl,
      hheader.1, hheader.2, declOf_endline, declOf_blank, edgeOf_endline,
      edgeOf_blank, Option.map_none', List.filterMap_map]
    constructor
    · rw [filterMap_congr_some (g := fun n => n.id) (by
        intro n hn
        exact (member_line_decl (hwf.2 n hn)).1)]
    · rw [filterMap_none (by
        intro n hn
        exact (member_line_decl (hwf.2 n hn)).2)]

/-- An emitted edge line is not a node declaration and re-parses to the same
edge (given its source id is not literally `class`). -/
theorem edge_line_vals {e : Edge} (wf : EdgeWF e)
    (hcl : ¬e.a.map Char.toLower = litClass) :
    declOf (rtext (RLine.edgeLine e)) = none
    ∧ edgeOf (rtext (RLine.edgeLine e)) = some e := by
  have hr : rtext (RLine.edgeLine e)
      = sp4 ++ (e.a ++ [' '] ++ e.op ++ [' '] ++ e.b) := by
    show sp4 ++ e.a ++ [' '] ++ e.op ++ [' '] ++ e.b
      = sp4 ++ (e.a ++ [' '] ++ e.op ++ [' '] ++ e.b)
    simp [List.append_assoc]
  have hc := edgeText_struct wf hcl
  rw [hr, declOf_ws_append sp4_ws, edgeOf_ws_append sp4_ws]
  constructor
  · unfold declOf
    rw [hc]
  · unfold edgeOf
    rw [hc]

/-! ### The six blocks of the post-directive render output -/

def cdBlock (m : Model) : List RLine :=
  if m.classDefs = [] then [] else m.classDefs.map RLine.classDefLine ++ [.blank]

def sgBlock (m : Model) (vis : VisMap) : List RLine :=
  m.subgraphs.flatMap (sgSection vis)

def topBlock (m : Model) (vis : VisMap) : List RLine :=
  let keptTop := m.topNodes.filter (fun n => isVisible vis n.id)
  keptTop.map RLine.topLine ++ (if keptTop = [] then [] else [.blank])

def caBlock (m : Model) (vis : VisMap) : List RLine :=
  if m.classAssigns = [] then []
  else (m.classAssigns.filterMap (fun ca =>
          let k := ca.ids.filter (fun id => isVisible vis id)
          if k = [] then none
          else some (RLine.classAssignLine k ca.className))) ++ [.blank]

def clickBlock (m : Model) (vis : VisMap) : List RLine :=
  let vids := (m.nodesMap.map (·.1)).filter (fun id => isVisible vis id)
  vids.map RLine.clickLine ++ (if vids = [] then [] else [.blank])

def edgeBlock (m : Model) (vis : VisMap) : List RLine :=
  (m.edges.filter (fun e => isVisible vis e.a && isVisible vis e.b)).map RLine.edgeLine
  ++ [.blank]

theorem tailSections_eq (m : Model) (vis : VisMap) :
    tailSections m vis
      = cdBlock m ++ (sgBlock m vis ++ (topBlock m vis
        ++ (caBlock m vis ++ (clickBlock m vis ++ edgeBlock m vis)))) := rfl

theorem fm_append {γ : Type} (F : Str → Option γ) (X Y : List RLine) :
    ((X ++ Y).map rtext).filterMap F
      = ((X.map rtext).filterMap F) ++ ((Y.map rtext).filterMap F) := by
  rw [List.map_append, List.filterMap_append]

theorem cdBlock_vals {m : Model} (wf : ModelWF m) :
    ((cdBlock m).map rtext).filterMap (fun l => (declOf l).map (·.id)) = []
    ∧ ((cdBlock m).map rtext).filterMap edgeOf = [] :=
  ⟨filterMap_none (fun l hl => by
      show (declOf l).map (fun x => x.id) = none
      rw [(cd_section_neutral wf l hl).1]
      rfl),
   filterMap_none (fun l hl => (cd_section_neutral wf l hl).2)⟩

theorem caBlock_vals {m : Model} (vis : VisMap) (wf : ModelWF m) :
    ((caBlock m vis).map rtext).filterMap (fun l => (declOf l).map (·.id)) = []
    ∧ ((caBlock m vis).map rtext).filterMap edgeOf = [] :=
  ⟨filterMap_none (fun l hl => by
      show (declOf l).map (fun x => x.id) = none
      rw [(ca_section_neutral wf l hl).1]
      rfl),
   filterMap_none (fun l hl => (ca_section_neutral wf l hl).2)⟩

theorem clickBlock_vals {m : Model} (vis : VisMap) (wf : ModelWF m) :
    ((clickBlock m vis).map rtext).filterMap (fun l => (declOf l).map (·.id)) = []
    ∧ ((clickBlock m vis).map rtext).filterMap edgeOf = [] :=
  ⟨filterMap_none (fun l hl => by
      show (declOf l).map (fun x => x.id) = none
      rw [(click_section_neutral wf l hl).1]
      rfl),
   filterMap_none (fun l hl => (click_section_neutral wf l hl).2)⟩

theorem sg_list_vals {vis : VisMap} (hv : ∀ id, isVisible vis id = true) :
    ∀ L : List Subgraph,
      (∀ sg ∈ L, HeaderWF sg.headerLine ∧ ∀ n ∈ sg.nodes, NodeWF n) →
      ((L.flatMap (sgSection vis)).map rtext).filterMap
          (fun l => (declOf l).map (·.id))
        = (L.flatMap (fun sg => sg.nodes)).map (·.id)
      ∧ ((L.flatMap (sgSection vis)).map rtext).filterMap edgeOf = [] := by
  intro L
  induction L with
  | nil => intro _; exact ⟨rfl, rfl⟩
  | cons sg rest ih =>
      intro hwf
      have h1 := sg_section_decl (hwf sg (by simp)) hv
      have h2 := ih (fun s hs => hwf s (by simp [hs]))
      constructor
      · rw [List.flatMap_cons, List.map_append, List.filterMap_append, h1.1, h2.1,
          List.flatMap_cons, List.map_append]
      · rw [List.flatMap_cons, List.map_append, List.filterMap_append, h1.2, h2.2]
        rfl

theorem sgBlock_vals {m : Model} {vis : VisMap}
    (hwf : ∀ sg ∈ m.subgraphs, HeaderWF sg.headerLine ∧ ∀ n ∈ sg.nodes, NodeWF n)
    (hv : ∀ id, isVisible vis id = true) :
    ((sgBlock m vis).map rtext).filterMap (fun l => (declOf l).map (·.id))
      = (m.subgraphs.flatMap (fun sg => sg.nodes)).map (·.id)
    ∧ ((sgBlock m vis).map rtext).filterMap edgeOf = [] := by
  exact sg_list_vals hv m.subgraphs hwf

theorem topBlock_vals {m : Model} {vis : VisMap}
    (hwf : ∀ n ∈ m.topNodes, NodeWF n) (hv : ∀ id, isVisible vis id = true) :
    ((topBlock m vis).map rtext).filterMap (fun l => (declOf l).map (·.id))
      = m.topNodes.map (·.id)
    ∧ ((topBlock m vis).map rtext).filterMap edgeOf = [] := by
  have hkept : m.topNodes.filter (fun n => isVisible vis n.id) = m.topNodes :=
    List.filter_eq_self.mpr (fun n _ => hv n.id)
  simp only [topBlock, hkept]
  by_cases hnil : m.topNodes = []
  · rw [if_pos hnil, hnil]
    exact ⟨rfl, rfl⟩
  · rw [if_neg hnil]
    simp only [List.map_append, List.map_map, List.filterMap_append, List.map_cons,
      List.map_nil, List.filterMap_cons, List.filterMap_nil,
      show rtext RLine.blank = ([] : Str) from rfl, declOf_blank, edgeOf_blank,
      Option.map_none', List.filterMap_map, List.append_nil]
    constructor
    · rw [filterMap_congr_some (g := fun n => n.id) (by
        intro n hn
        exact (top_line_decl (hwf n hn)).1)]
    · rw [filterMap_none (by
        intro n hn
        exact (top_line_decl (hwf n hn)).2)]

theorem edgeBlock_vals {m : Model} {vis : VisMap}
    (hwf : ∀ e ∈ m.edges, EdgeWF e)
    (hv : ∀ id, isVisible vis id = true)
    (hcl : ∀ e ∈ m.edges, ¬e.a.map Char.toLower = litClass) :
    ((edgeBlock m vis).map rtext).filterMap (fun l => (declOf l).map (·.id)) = []
    ∧ ((edgeBlock m vis).map rtext).filterMap edgeOf = m.edges := by
  have hkept : m.edges.filter (fun e => isVisible vis e.a && isVisible vis e.b)
      = m.edges :=
    List.filter_eq_self.mpr (fun e _ => by rw [hv e.a, hv e.b]; rfl)
  simp only [edgeBlock, hkept]
  simp only [List.map_append, List.map_map, List.filterMap_append, List.map_cons,
    List.map_nil, List.filterMap_cons, List.filterMap_nil,
    show rtext RLine.blank = ([] : Str) from rfl, declOf_blank, edgeOf_blank,
    Option.map_none', List.filterMap_map, List.append_nil]
  constructor
  · rw [filterMap_none (by
      intro e he
      show (declOf (rtext (RLine.edgeLine e))).map (fun x => x.id) = none
      rw [(edge_line_vals (hwf e he) (hcl e he)).1]
      rfl)]
  · rw [filterMap_congr_some (g := id) (by
      intro e he
      show edgeOf (rtext (RLine.edgeLine e)) = some e
      exact (edge_line_vals (hwf e he) (hcl e he)).2)]
    rw [List.map_id]

/-- The post-directive render output re-parses to exactly the container nodes
(as declarations) and exactly the model's edges, when everything is visible
and no edge's source id is the literal `class`. -/
theorem tail_decl_edge {m : Model} {vis : VisMap} (wf : ModelWF m)
    (hv : ∀ id, isVisible vis id = true)
    (hcl : ∀ e ∈ m.edges, ¬e.a.map Char.toLower = litClass) :
    ((tailSections m vis).map rtext).filterMap (fun l => (declOf l).map (·.id))
      = (containerNodes m).map (·.id)
    ∧ ((tailSections m vis).map rtext).filterMap edgeOf = m.edges := by
  have hcd := cdBlock_vals wf
  have hsg := sgBlock_vals wf.sgs hv
  have htop := topBlock_vals wf.tops hv
  have hca := caBlock_vals vis wf
  have hck := clickBlock_vals vis wf
  have hed := edgeBlock_vals wf.edges hv hcl
  rw [tailSections_eq]
  constructor
  · rw [fm_append, fm_append, fm_append, fm_append, fm_append,
      hcd.1, hsg.1, htop.1, hca.1, hck.1, hed.1]
    simp [containerNodes]
  · rw [fm_append, fm_append, fm_append, fm_append, fm_append,
      hcd.2, hsg.2, htop.2, hca.2, hck.2, hed.2]
    simp

/-! ### C1: the round-trip property -/

def cexText : Str := "flowchart TD\nclass>B".toList

def rtWitnessText : Str := "flowchart TD\nA-->B".toList

/-- C1 counterexample: the input `flowchart TD\nclass>B` is grammar-conforming
(`class>B` is an edge declaration: id `class`, operator token `>`, id `B`, and
indeed `parseDiagram` stores exactly that edge), every id is visible in the
empty session-initial visibility state, yet re-parsing the rendered text
yields no edge at all: the edge is re-emitted as `    class > B`, which the
line grammar re-classifies as a class-assignment directive. So the edge set
is not preserved by the round trip. -/
theorem roundtrip_cex :
    (parseDiagram cexText).edges = [⟨litClass, ['>'], ['B']⟩]
    ∧ (∀ id, isVisible ([] : VisMap) id = true)
    ∧ (parseDiagram (buildFilteredMMD (parseDiagram cexText) [])).edges = [] :=
  ⟨by decide, fun _ => rfl, by decide⟩

/-- C1 (amended): for every input text and every visibility state in which
every id is visible, provided no parsed edge's source id is the literal
`class` (case-insensitively), re-parsing `buildFilteredMMD (parseDiagram
text) vis` yields the same node-id set (as registry key sets) and the very
same edge list as `parseDiagram text`. -/
theorem roundtrip_amended (text : Str) (vis : VisMap)
    (hv : ∀ id, isVisible vis id = true)
    (hcl : ∀ e ∈ (parseDiagram text).edges, ¬e.a.map Char.toLower = litClass) :
    (∀ id, id ∈ (parseDiagram (buildFilteredMMD (parseDiagram text) vis)).nodesMap.map (·.1)
        ↔ id ∈ (parseDiagram text).nodesMap.map (·.1))
    ∧ (parseDiagram (buildFilteredMMD (parseDiagram text) vis)).edges
        = (parseDiagram text).edges := by
  have wf := parseDiagram_wf text
  have htail := tail_decl_edge wf hv hcl
  rcases mainLines_buildFiltered (parseDiagram text) vis wf with
    hmain | ⟨hmain, hedges, hcont⟩
  · constructor
    · intro id
      rw [parseDiagram_keys_iff, parseDiagram_keys_iff]
      have hB : (nodeDecls (buildFilteredMMD (parseDiagram text) vis)).map (·.id)
          = (containerNodes (parseDiagram text)).map (·.id) := by
        show ((mainLines (buildFilteredMMD (parseDiagram text) vis)).filterMap
            declOf).map (·.id) = _
        rw [List.map_filterMap, hmain, htail.1]
      rw [hB]
      have hperm : ((containerNodes (parseDiagram text)).map (·.id)).Perm
          ((nodeDecls text).map (·.id)) := by
        have h := (parseDiagram_containers_perm text).map (·.id)
        rw [List.map_map] at h
        exact h
      rw [hperm.mem_iff]
    · rw [parseDiagram_edges_eq, hmain, htail.2]
  · constructor
    · intro id
      rw [parseDiagram_keys_iff, parseDiagram_keys_iff]
      have hB : nodeDecls (buildFilteredMMD (parseDiagram text) vis) = [] := by
        show (mainLines (buildFilteredMMD (parseDiagram text) vis)).filterMap
            declOf = []
        rw [hmain]
        rfl
      have hperm := parseDiagram_containers_perm text
      rw [hcont] at hperm
      have h2 : (nodeDecls text).map npNode = [] := hperm.symm.eq_nil
      have h3 : nodeDecls text = [] := by
        cases hnd : nodeDecls text with
        | nil => rfl
        | cons a as => rw [hnd] at h2; exact absurd h2 (by simp)
      rw [hB, h3]
    · rw [parseDiagram_edges_eq, hmain, hedges]
      rfl

/-- C1 witness: the amended round-trip theorem at the concrete input
`flowchart TD\nA-->B` and the empty (all-visible) visibility state. -/
theorem roundtrip_amended_witness :
    (∀ id, id ∈ (parseDiagram (buildFilteredMMD (parseDiagram rtWitnessText) [])).nodesMap.map (·.1)
        ↔ id ∈ (parseDiagram rtWitnessText).nodesMap.map (·.1))
    ∧ (parseDiagram (buildFilteredMMD (parseDiagram rtWitnessText) [])).edges
        = (parseDiagram rtWitnessText).edges :=
  roundtrip_amended rtWitnessText [] (fun _ => rfl) (by decide)

end MermaidFilter
